import Mathlib

/-! # git-tree `view/html.go`: commit metadata pipeline and template resolution

A shallow embedding of `src/view/html.go` and the properties its specification
states about it.

Modelling conventions.

* A Go `string` is a `List Char`: the list of its code points.  The source only
  searches for, slices at and concatenates around ASCII markers, so on valid UTF-8
  the byte offsets of the source and the code point offsets used here select the same
  substrings.
* `strings.Index` returns `-1` for "absent"; here it returns `none`.
* The Go standard library functions that the source calls (`strings.*`,
  `unicode.IsSpace`, `html.EscapeString`, `time.Duration.Minutes/Hours`, the regular
  expression `(\w+)#(\d+)`) are modelled after their documented behaviour.
* `float64` arithmetic is modelled exactly: a value is `m * 2^e`, every operation
  computes the exact rational result and rounds it to nearest, ties to even, at
  53 bits.
* A Go `error` is modelled by its message; `nil` is `none`.
* A Go map is the list of its entries, with distinct keys, in the order in which `range`
  visits them; a map that may be nil (the argument of `WriteHTML`) is an `Option` of such
  a list, and a pointer that may be nil is an `Option`.
* Unbounded iteration and recursion (`replaceReferences`) carry a fuel argument;
  `none` means that the fuel ran out.
-/

set_option linter.unusedVariables false

/-! ## Library functions on strings -/

namespace unicode

/-- Go `unicode.IsSpace`: the Latin-1 spaces `\t \n \v \f \r`, space, U+0085, U+00A0,
and the other code points with the `White_Space` property. -/
def IsSpace (c : Char) : Bool :=
  let n := c.toNat
  n == 0x09 || n == 0x0A || n == 0x0B || n == 0x0C || n == 0x0D || n == 0x20 ||
  n == 0x85 || n == 0xA0 || n == 0x1680 || (0x2000 ≤ n && n ≤ 0x200A) ||
  n == 0x2028 || n == 0x2029 || n == 0x202F || n == 0x205F || n == 0x3000

end unicode

namespace strings

/-- Go `strings.Index(s, substr)`: offset of the first occurrence of `substr` in `s`,
`none` where Go returns `-1`. -/
def Index (s substr : List Char) : Option Nat :=
  match s with
  | [] => if substr.isPrefixOf [] then some 0 else none
  | c :: t => if substr.isPrefixOf (c :: t) then some 0 else (Index t substr).map (· + 1)

/-- Go `strings.Contains(s, substr)`, which is `Index(s, substr) >= 0`. -/
def Contains (s substr : List Char) : Bool := (Index s substr).isSome

/-- Go `strings.HasPrefix(s, p)`. -/
def HasPrefix (s p : List Char) : Bool := p.isPrefixOf s

/-- Go `strings.TrimSpace(s)`: `s` without leading and trailing white space. -/
def TrimSpace (s : List Char) : List Char :=
  (s.dropWhile unicode.IsSpace).rdropWhile unicode.IsSpace

/-- Go `strings.Replace(s, old, new, 1)`: the first occurrence of `old` replaced. -/
def ReplaceFirst (s old new : List Char) : List Char :=
  match Index s old with
  | none => s
  | some j => s.take j ++ new ++ s.drop (j + old.length)

/-- Loop of `strings.ReplaceAll` for a non-empty `old`: find the next occurrence at or
after the cursor, copy the text before it, write `new`, continue behind it. -/
def ReplaceAllAux (old new : List Char) : Nat → List Char → List Char
  | 0, s => s
  | fuel + 1, s =>
    match Index s old with
    | none => s
    | some j => s.take j ++ new ++ ReplaceAllAux old new fuel (s.drop (j + old.length))

/-- Go `strings.ReplaceAll(s, old, new)`: all non-overlapping occurrences of `old`
replaced, left to right.  For an empty `old` Go inserts `new` before every code point
and at the end. -/
def ReplaceAll (s old new : List Char) : List Char :=
  if old.isEmpty then new ++ s.flatMap (fun c => c :: new)
  else ReplaceAllAux old new (s.length + 1) s

end strings

/-- The slice expression `s[lo:hi]`. -/
def sliceStr (s : List Char) (lo hi : Nat) : List Char := (s.take hi).drop lo

/-! ## `strings.Split` and `strings.Join` -/

namespace strings

/-- Loop of `strings.Split` for a non-empty separator: cut at the next occurrence of `sep`,
continue behind it; the rest of the text is the last element. -/
def SplitAux (sep : List Char) : Nat → List Char → List (List Char)
  | 0, s => [s]
  | fuel + 1, s =>
    match Index s sep with
    | none => [s]
    | some m => s.take m :: SplitAux sep fuel (s.drop (m + sep.length))

/-- Go `strings.Split(s, sep)`; for an empty separator Go splits after each code point. -/
def Split (s sep : List Char) : List (List Char) :=
  if sep.isEmpty then s.map (fun c => [c]) else SplitAux sep (s.length + 1) s

/-- Go `strings.Join(elems, sep)`. -/
def Join (elems : List (List Char)) (sep : List Char) : List Char := sep.intercalate elems

end strings

/-! ## `parseCommitMessage` (html.go 107-134) -/

/-- Source `parseCommitMessage`: returns `(type, scope, title)`. -/
def parseCommitMessage (message : List Char) : List Char × List Char × List Char :=
  match strings.Index message ": ".toList with
  | none => ([], [], message)
  | some colonIdx =>
    let pfx := strings.TrimSpace (message.take colonIdx)
    let title := strings.TrimSpace (message.drop (colonIdx + 2))
    -- the statements after the `if parenIdx >= 0` block
    let unscoped : List Char × List Char × List Char :=
      if strings.Contains pfx " ".toList then ([], [], message) else (pfx, [], title)
    match strings.Index pfx "(".toList with
    | none => unscoped
    | some parenIdx =>
      let commitType := strings.TrimSpace (pfx.take parenIdx)
      let rest := pfx.drop (parenIdx + 1)
      match strings.Index rest ")".toList with
      | none => unscoped
      | some closeParenIdx =>
        let scope := strings.TrimSpace (rest.take closeParenIdx)
        if strings.Contains commitType " ".toList then ([], [], message)
        else (commitType, scope, title)

/-! ## `float64`, `time.Duration` and `prettyDate` (html.go 46-86) -/

/-- A finite IEEE 754 binary64 value, `m * 2^e`. -/
structure float64 where
  m : Int
  e : Int
deriving DecidableEq

namespace float64

/-- Bit length minus one by repeated halving; the fuel is never exhausted when it is at
least the argument. -/
def log2Aux : Nat → Nat → Nat
  | 0, _ => 0
  | fuel + 1, n => if n < 2 then 0 else log2Aux fuel (n / 2) + 1

/-- Position of the highest set bit: `2^(log2 n) ≤ n < 2^(log2 n + 1)` for `0 < n`. -/
def log2 (n : Nat) : Nat := log2Aux n n

/-- The binary64 value nearest to the rational `num / den` (`0 < den`): 53 significant
bits, round to nearest, ties to even.  Results are assumed to lie in the normal range,
which holds for every quantity `prettyDate` computes. -/
def round (num : Int) (den : Nat) : float64 :=
  let p := num.natAbs
  if p = 0 then ⟨0, 0⟩ else
  let e0 : Int := (log2 p : Int) - (log2 den : Int)
  -- `e` is the exponent of the leading bit of `p / den`
  let e : Int := if den * 2 ^ e0.toNat ≤ p * 2 ^ (-e0).toNat then e0 else e0 - 1
  -- the unit in the last place is `2^s`
  let s : Int := e - 52
  let n := p * 2 ^ (-s).toNat
  let d := den * 2 ^ s.toNat
  let q := n / d
  let r := n % d
  let mant :=
    if 2 * r < d then q else if d < 2 * r then q + 1 else if q % 2 = 0 then q else q + 1
  ⟨(if num < 0 then -1 else 1) * (mant : Int), s⟩

/-- Conversion `float64(n)` of an integer. -/
def ofInt (n : Int) : float64 := round n 1

/-- Addition `x + y`: the exact sum, rounded. -/
def add (x y : float64) : float64 :=
  let e := min x.e y.e
  let n := x.m * 2 ^ (x.e - e).toNat + y.m * 2 ^ (y.e - e).toNat
  round (n * 2 ^ e.toNat) (2 ^ (-e).toNat)

/-- Division `x / y` (`y` non-zero): the exact quotient, rounded. -/
def div (x y : float64) : float64 :=
  let k := x.e - y.e
  round ((if y.m < 0 then -1 else 1) * x.m * 2 ^ k.toNat) (y.m.natAbs * 2 ^ (-k).toNat)

/-- Conversion `int(x)`: truncation toward zero. -/
def toInt (x : float64) : Int :=
  (if x.m < 0 then -1 else 1) * ((x.m.natAbs * 2 ^ x.e.toNat / 2 ^ (-x.e).toNat : Nat) : Int)

end float64

namespace time

/-- Go `time.Duration`: a signed 64-bit count of nanoseconds. -/
abbrev Duration := Int

def Nanosecond : Duration := 1
def Second : Duration := 1000000000 * Nanosecond
def Minute : Duration := 60 * Second
def Hour : Duration := 60 * Minute

def minDuration : Duration := -(2 ^ 63)
def maxDuration : Duration := 2 ^ 63 - 1

/-- Go `Duration.Minutes`: `float64(d / Minute) + float64(d % Minute) / (60 * 1e9)`. -/
def Duration.Minutes (d : Duration) : float64 :=
  let min := d.tdiv Minute
  let nsec := d.tmod Minute
  float64.add (float64.ofInt min) (float64.div (float64.ofInt nsec) (float64.ofInt 60000000000))

/-- Go `Duration.Hours`: `float64(d / Hour) + float64(d % Hour) / (60 * 60 * 1e9)`. -/
def Duration.Hours (d : Duration) : float64 :=
  let hour := d.tdiv Hour
  let nsec := d.tmod Hour
  float64.add (float64.ofInt hour)
    (float64.div (float64.ofInt nsec) (float64.ofInt 3600000000000))

/-- An instant, as nanoseconds since a fixed epoch. -/
structure Time where
  ns : Int
deriving DecidableEq

/-- Go `Time.Sub`: the duration `t - u`, saturated to the range of `Duration`. -/
def Time.Sub (t u : Time) : Duration :=
  let d := t.ns - u.ns
  if d < minDuration then minDuration else if maxDuration < d then maxDuration else d

end time

/-- Formatting `%d` of `fmt.Sprintf`. -/
def fmtInt (n : Int) : List Char :=
  if n < 0 then '-' :: (Nat.repr n.natAbs).toList else (Nat.repr n.toNat).toList

/-- Source `prettyDate`; the reading of the clock, `time.Now()`, is the argument `now`. -/
def prettyDate (now t : time.Time) : List Char :=
  let diff := now.Sub t
  if diff < time.Minute then "just now".toList
  else if diff < time.Hour then
    let minutes := float64.toInt (time.Duration.Minutes diff)
    if minutes = 1 then "1 minute ago".toList else fmtInt minutes ++ " minutes ago".toList
  else if diff < 24 * time.Hour then
    let hours := float64.toInt (time.Duration.Hours diff)
    if hours = 1 then "1 hour ago".toList else fmtInt hours ++ " hours ago".toList
  else if diff < 30 * 24 * time.Hour then
    let days := float64.toInt (float64.div (time.Duration.Hours diff) (float64.ofInt 24))
    if days = 1 then "1 day ago".toList else fmtInt days ++ " days ago".toList
  else if diff < 365 * 24 * time.Hour then
    let months := float64.toInt (float64.div (time.Duration.Hours diff) (float64.ofInt (24 * 30)))
    if months = 1 then "1 month ago".toList else fmtInt months ++ " months ago".toList
  else
    let years := float64.toInt (float64.div (time.Duration.Hours diff) (float64.ofInt (24 * 365)))
    if years = 1 then "1 year ago".toList else fmtInt years ++ " years ago".toList

/-! ## `issueRegex` and `issueLink` (html.go 44, 88-105) -/

namespace issueRegex

/-- The class `\w` of Go regular expressions: `[0-9A-Za-z_]`. -/
def isWord (c : Char) : Bool := c.isAlphanum || c == '_'

/-- The class `\d` of Go regular expressions: `[0-9]`. -/
def isDigit (c : Char) : Bool := c.isDigit

/-- A match of `(\w+)#(\d+)` that starts at the first character of `s`: the two groups and
the text behind the match.  `\w+` is greedy and `#` is not a word character, so the first
group is the whole run of word characters at the start of `s`; `\d+` is greedy and nothing
follows it in the pattern, so the second group is the whole run of digits after `#`. -/
def matchAt (s : List Char) : Option (List Char × List Char × List Char) :=
  let org := s.takeWhile isWord
  if org.isEmpty then none
  else
    match s.dropWhile isWord with
    | '#' :: r =>
      let num := r.takeWhile isDigit
      if num.isEmpty then none else some (org, num, r.dropWhile isDigit)
    | _ => none

/-- Go `issueRegex.FindStringSubmatch(s)`: the leftmost match as `[match, group 1, group 2]`;
`none` where Go returns `nil`. -/
def FindStringSubmatch : List Char → Option (List (List Char))
  | [] => none
  | c :: t =>
    match matchAt (c :: t) with
    | some (org, num, _) => some [org ++ '#' :: num, org, num]
    | none => FindStringSubmatch t

/-- Loop of `ReplaceAllStringFunc`: at each offset, left to right, either a match starts
there, is replaced by `repl match` and the scan continues behind it, or the character is
copied. -/
def ReplaceAllStringFuncAux (repl : List Char → List Char) : Nat → List Char → List Char
  | 0, s => s
  | fuel + 1, s =>
    match matchAt s with
    | some (org, num, rest) => repl (org ++ '#' :: num) ++ ReplaceAllStringFuncAux repl fuel rest
    | none =>
      match s with
      | [] => []
      | c :: t => c :: ReplaceAllStringFuncAux repl fuel t

/-- Go `issueRegex.ReplaceAllStringFunc(src, repl)`; every step consumes a character, so
`src.length + 1` steps suffice. -/
def ReplaceAllStringFunc (src : List Char) (repl : List Char → List Char) : List Char :=
  ReplaceAllStringFuncAux repl (src.length + 1) src

end issueRegex

/-- The format
`<a target="_blank" href="https://github.com/%s/issues/%s">%s#%s</a>` of `issueLink`. -/
def issueAnchor (path num org : List Char) : List Char :=
  "<a target=\"_blank\" href=\"https://github.com/".toList ++ path ++ "/issues/".toList ++ num
    ++ "\">".toList ++ org ++ "#".toList ++ num ++ "</a>".toList

/-- Source `issueLink`. -/
def issueLink (text ghSlug : List Char) : List Char :=
  if ghSlug.isEmpty then text
  else
    issueRegex.ReplaceAllStringFunc text (fun m =>
      match issueRegex.FindStringSubmatch m with
      | some [_, org, num] =>
        if strings.HasPrefix ghSlug (org ++ "/".toList) then issueAnchor ghSlug num org
        else issueAnchor org num org
      | _ => m)

/-! ## Resources, `replacePlaceholders`, `replaceReferences` (html.go 202-253) -/

/-- A Go `error`, by its message. -/
abbrev GoError := List Char

/-- The embedded file system `resources`: `ReadFile` on a path gives the content of the
file or fails with an error. -/
abbrev ResourceFS := List Char → Except GoError (List Char)

/-- Source `getResource`. -/
def getResource (resources : ResourceFS) (name : List Char) : Except GoError (List Char) :=
  resources ("resources/".toList ++ name)

/-- The marker `fmt.Sprintf("((%% %s %%))", key)`. -/
def placeholderOf (key : List Char) : List Char := "((% ".toList ++ key ++ " %))".toList

/-- Source `replacePlaceholders`.  The Go map is given as the list of its entries in the
order in which `range` visits them; Go leaves that order unspecified. -/
def replacePlaceholders (text : List Char) (placeholders : List (List Char × List Char)) :
    List Char :=
  placeholders.foldl (fun result kv => strings.ReplaceAll result (placeholderOf kv.1) kv.2) text

/-- The `for` loop of `replaceReferences` on the state `(result, begin)`; the recursive call
of `replaceReferences` on a resource is the same loop started at `(content, 0)`.  Every
iteration and every call takes one unit of fuel.  The result is the returned pair
`(string, error)`. -/
def replaceReferencesLoop (resources : ResourceFS) :
    Nat → List Char → Nat → Option (List Char × Option GoError)
  | 0, _, _ => none
  | fuel + 1, result, begin =>
    match strings.Index (result.drop begin) "\x7b\x7b".toList with
    | none => some (result, none)
    | some i =>
      let startIdx := i + begin
      match strings.Index (result.drop (startIdx + 2)) "\x7d\x7d".toList with
      | none => some (result, none)
      | some j =>
        let endIdx := j + (startIdx + 2)
        let reference := strings.TrimSpace (sliceStr result (startIdx + 2) endIdx)
        match getResource resources reference with
        | .error err =>
          some ([], some ("failed to load resource ".toList ++ reference ++ ": ".toList ++ err))
        | .ok resourceContent =>
          match replaceReferencesLoop resources fuel resourceContent 0 with
          | none => none
          | some (_, some err) => some ([], some err)
          | some (expanded, none) =>
            let placeholder := sliceStr result startIdx (endIdx + 2)
            replaceReferencesLoop resources fuel
              (strings.ReplaceFirst result placeholder expanded) (startIdx + expanded.length)

/-- Source `replaceReferences`. -/
def replaceReferences (resources : ResourceFS) (fuel : Nat) (text : List Char) :
    Option (List Char × Option GoError) :=
  replaceReferencesLoop resources fuel text 0

/-- The reference that the loop of `replaceReferences` discovers first in `text`: the
trimmed interior of the span from the first `{{` to the first `}}` behind it; `none` when
the loop ends without finding a span. -/
def firstReference (text : List Char) : Option (List Char) :=
  match strings.Index text "\x7b\x7b".toList with
  | none => none
  | some i =>
    match strings.Index (text.drop (i + 2)) "\x7d\x7d".toList with
    | none => none
    | some j => some (strings.TrimSpace (sliceStr text (i + 2) (j + (i + 2))))

/-- The first reference that expansion discovers and that names a missing resource, at a
nesting depth below `depth`: follow the first reference of `text`, then the first
reference of the resource it names, and so on, until one names no resource. -/
def firstMissing (resources : ResourceFS) : Nat → List Char → Option (List Char)
  | 0, _ => none
  | depth + 1, text =>
    match firstReference text with
    | none => none
    | some name =>
      match getResource resources name with
      | .error _ => some name
      | .ok content => firstMissing resources depth content

/-- Every `c` of the text is directly followed by a character other than `c`: the text
holds no `cc` and does not end in `c`. -/
def noDouble (c : Char) : List Char → Bool
  | [] => true
  | [x] => x != c
  | x :: y :: t => (x != c || y != c) && noDouble c (y :: t)

/-! ## Templates as sequences of text and markers -/

/-- A piece of a template: a stretch of text or the marker `((% key %))` of a key. -/
inductive TemplatePiece where
  | text (s : List Char)
  | marker (key : List Char)
deriving DecidableEq

/-- The characters of a piece. -/
def TemplatePiece.render : TemplatePiece → List Char
  | .text s => s
  | .marker key => placeholderOf key

/-- The template that a sequence of pieces spells. -/
def renderPieces (pieces : List TemplatePiece) : List Char :=
  pieces.flatMap TemplatePiece.render

/-- Every `(` of the text is directly followed by a character other than `(`: the text
holds no `((` and does not end in `(`. -/
def noDoubleParen (s : List Char) : Bool := noDouble '(' s

/-- A key without parentheses. -/
def parenFree (key : List Char) : Prop := '(' ∉ key ∧ ')' ∉ key

/-- A piece whose text keeps clear of `((`, or whose key has no parentheses. -/
def TemplatePiece.plain : TemplatePiece → Prop
  | .text s => noDoubleParen s = true
  | .marker key => parenFree key

/-- The piece after the marker of `key` has been replaced by `value`. -/
def TemplatePiece.subst (key value : List Char) : TemplatePiece → TemplatePiece
  | .text s => .text s
  | .marker k => if k = key then .text value else .marker k

/-! ## Commit records and `WriteHTML` (html.go 25-42, 268-311) -/

/-- Source `CommitMessage`; the field `Type` is written `Type_`. -/
structure CommitMessage where
  Type_ : List Char
  Scope : List Char
  Title : List Char
  Body : List Char
  IsBreaking : Bool
deriving DecidableEq

/-- Source `CommitData`. -/
structure CommitData where
  Hash : List Char
  Author : List Char
  Committer : List Char
  Message : CommitMessage
  AuthoredDate : List Char
  CommittedDate : List Char
  AuthoredDateDelta : List Char
  CommittedDateDelta : List Char
deriving DecidableEq

namespace html

/-- Go `html.EscapeString`: `&`, `'`, `<`, `>` and `"` are replaced by character
references. -/
def EscapeString (s : List Char) : List Char :=
  s.flatMap (fun c =>
    if c = '&' then "&amp;".toList
    else if c = '\'' then "&#39;".toList
    else if c = '<' then "&lt;".toList
    else if c = '>' then "&gt;".toList
    else if c = '"' then "&#34;".toList
    else [c])

end html

/-- An `io.Writer` that records what it is given: the bytes received so far, and the error
its `Write` returns (`none` for a writer that never fails). -/
structure ioWriter where
  received : List Char
  failure : Option GoError
deriving DecidableEq

/-- The call `w.Write(p)`: the writer after the call and the returned error. -/
def ioWriter.Write (w : ioWriter) (p : List Char) : ioWriter × Option GoError :=
  ({ w with received := w.received ++ p }, w.failure)

/-- The block of `WriteHTML` (html.go 284-296) that gives the graphic the identifier
`railway_svg`: the value of `svgContent` after the block. -/
def svgWithRailwayID (svgContent : List Char) : List Char :=
  if !strings.Contains svgContent "id=\"railway_svg\"".toList
      && !strings.Contains svgContent "id='railway_svg'".toList then
    match strings.Index svgContent "<svg".toList with
    | none => svgContent
    | some svgTagStart =>
      match strings.Index (svgContent.drop svgTagStart) ">".toList with
      | none => svgContent
      | some k =>
        let svgTagEnd := k + svgTagStart
        let svgTag := sliceStr svgContent svgTagStart svgTagEnd
        if !strings.Contains svgTag "id=".toList then
          svgContent.take svgTagEnd ++ " id=\"railway_svg\"".toList ++ svgContent.drop svgTagEnd
        else svgContent
  else svgContent

/-- A Go value of type `map[string]CommitData`: `none` is the nil map, `some entries` a map
with these entries (distinct keys, in the order in which `range` visits them). -/
abbrev CommitDataMap := Option (List (List Char × CommitData))

/-- Source `WriteHTML`.  `marshal` stands for `json.Marshal` on the commit records and
`rangeOrder` for the order in which `range` visits the three entries of the placeholder
map inside `replacePlaceholders`.  The result is the writer after the call together with
the returned error, `none` when the fuel of `replaceReferences` ran out. -/
def WriteHTML (resources : ResourceFS)
    (marshal : CommitDataMap → Except GoError (List Char))
    (rangeOrder : List (List Char × List Char) → List (List Char × List Char))
    (fuel : Nat) (w : ioWriter) (svgContent : List Char)
    (commitData : CommitDataMap) (title : List Char) :
    Option (ioWriter × Option GoError) :=
  match getResource resources "html_template.html".toList with
  | .error err => some (w, some ("failed to load HTML template: ".toList ++ err))
  | .ok template =>
    match marshal commitData with
    | .error err => some (w, some ("failed to marshal commit data: ".toList ++ err))
    | .ok commitDataJSON =>
      let svgContent := svgWithRailwayID svgContent
      match replaceReferences resources fuel template with
      | none => none
      | some (_, some err) =>
        some (w, some ("failed to replace resource references: ".toList ++ err))
      | some (template, none) =>
        let placeholders := rangeOrder
          [("title".toList, html.EscapeString title), ("svg".toList, svgContent),
           ("data".toList, commitDataJSON)]
        let template := replacePlaceholders template placeholders
        some (w.Write template)

/-! ## `GenerateCommitData` (html.go 136-200) -/

namespace plumbing

/-- go-git `plumbing.Hash`, an array of 20 bytes. -/
structure Hash where
  bytes : List (Fin 256)
  size : bytes.length = 20
deriving DecidableEq

/-- A hexadecimal digit in lower case. -/
def hexDigit (n : Nat) : Char := if n < 10 then Char.ofNat (48 + n) else Char.ofNat (87 + n)

/-- go-git `Hash.String`: the bytes in hexadecimal, two digits each. -/
def Hash.String (h : Hash) : List Char :=
  h.bytes.flatMap (fun b => [hexDigit (b.val / 16), hexDigit (b.val % 16)])

end plumbing

namespace object

/-- go-git `object.Signature`. -/
structure Signature where
  Name : List Char
  Email : List Char
  When : time.Time

/-- go-git `object.Commit`, with the fields that `GenerateCommitData` reads. -/
structure Commit where
  Message : List Char
  Author : Signature
  Committer : Signature

end object

namespace structs

/-- Modelled from the spec: the declaration of `structs.CommitInfo` is not among the
sources.  The spec describes a commit object as message text, author and committer; the
source reads only the field `Commit`, a pointer to the go-git commit that may be nil. -/
structure CommitInfo where
  Commit : Option object.Commit

end structs

/-- The text of the body before the line wraps are collapsed (html.go 154-159): the lines
after the first, without the leading blank lines, joined and trimmed. -/
def joinedBody (fullMessage : List Char) : List Char :=
  let lines := strings.Split fullMessage "\n".toList
  let bodyLines := (lines.drop 1).dropWhile (fun l => strings.TrimSpace l == [])
  strings.TrimSpace (strings.Join bodyLines "\n".toList)

/-- The body that the loop of `GenerateCommitData` extracts from the full message
(html.go 151-162). -/
def commitBody (fullMessage : List Char) : List Char :=
  let lines := strings.Split fullMessage "\n".toList
  if lines.length > 1 then
    let body := joinedBody fullMessage
    let body := strings.ReplaceAll body " \n".toList " ".toList
    strings.ReplaceAll body " \r\n".toList " ".toList
  else []

/-- The `CommitMessage` that the loop of `GenerateCommitData` builds from the full message
(html.go 147-165, 174, 185-191). -/
def commitMessageOf (fullMessage ghSlug : List Char) : CommitMessage :=
  let summary := (strings.Split fullMessage "\n".toList).headD []
  let (commitType, scope, title) := parseCommitMessage summary
  let body := commitBody fullMessage
  let title := issueLink title ghSlug
  let body := issueLink body ghSlug
  let isBreaking := strings.Contains fullMessage "BREAKING CHANGE:".toList
  { Type_ := commitType, Scope := scope, Title := title, Body := body, IsBreaking := isBreaking }

/-- The format `<a href="mailto:%s">%s</a>` with both arguments escaped. -/
def mailtoAnchor (sig : object.Signature) : List Char :=
  "<a href=\"mailto:".toList ++ html.EscapeString sig.Email ++ "\">".toList
    ++ html.EscapeString sig.Name ++ "</a>".toList

/-- The record that one iteration of the loop of `GenerateCommitData` stores for a valid
commit.  `now1` and `now2` are the readings of the clock inside the two calls of
`prettyDate`, and `format` stands for `Time.Format(time.RFC3339)`. -/
def commitRecord (now1 now2 : time.Time) (format : time.Time → List Char)
    (ghSlug : List Char) (hash : plumbing.Hash) (commit : object.Commit) : CommitData :=
  let hashStr := hash.String
  let hashStr := if hashStr.length > 7 then hashStr.take 7 else hashStr
  { Hash := hashStr
    Author := mailtoAnchor commit.Author
    Committer := mailtoAnchor commit.Committer
    Message := commitMessageOf commit.Message ghSlug
    AuthoredDate := format commit.Author.When
    CommittedDate := format commit.Committer.When
    AuthoredDateDelta := prettyDate now1 commit.Author.When
    CommittedDateDelta := prettyDate now2 commit.Committer.When }

/-- The assignment `result[key] = value` on a Go map kept as a list of entries: the value of
an existing key is replaced, a new key is added. -/
def mapSet (result : List (List Char × CommitData)) (key : List Char) (value : CommitData) :
    List (List Char × CommitData) :=
  if result.any (fun e => e.1 == key) then
    result.map (fun e => if e.1 = key then (key, value) else e)
  else result ++ [(key, value)]

/-- Source `GenerateCommitData`.  The map `commits` is the list of its entries in the order
in which `range` visits them; a nil pointer is `none`; `clock` gives, for the iteration on
a hash, the two readings of the clock inside `prettyDate`. -/
def GenerateCommitData (clock : plumbing.Hash → time.Time × time.Time)
    (format : time.Time → List Char)
    (commits : List (plumbing.Hash × Option structs.CommitInfo)) (ghSlug : List Char) :
    List (List Char × CommitData) :=
  commits.foldl (fun result entry =>
    match entry.2 with
    | none => result
    | some ci =>
      match ci.Commit with
      | none => result
      | some commit =>
        mapSet result entry.1.String
          (commitRecord (clock entry.1).1 (clock entry.1).2 format ghSlug entry.1 commit))
    []

/-- The entries of `commits` whose commit info and commit are both non-nil. -/
def validCommits (commits : List (plumbing.Hash × Option structs.CommitInfo)) :
    List (plumbing.Hash × object.Commit) :=
  commits.filterMap (fun entry =>
    match entry.2 with
    | none => none
    | some ci =>
      match ci.Commit with
      | none => none
      | some commit => some (entry.1, commit))

/-! ## `json.Marshal` on the commit records (html.go 25-42, 279) -/

namespace json

/-- A hexadecimal digit in lower case. -/
def hexDigit (n : Nat) : Char := if n < 10 then Char.ofNat (48 + n) else Char.ofNat (87 + n)

/-- The escape `\uXXXX` of a code point below `0x10000`. -/
def escapeU (n : Nat) : List Char :=
  ['\\', 'u', hexDigit (n / 4096 % 16), hexDigit (n / 256 % 16), hexDigit (n / 16 % 16),
    hexDigit (n % 16)]

/-- One code point inside a JSON string as `encoding/json` writes it, with the escaping of
HTML characters that `json.Marshal` turns on: `"` and `\` get a backslash; backspace, form
feed, newline, carriage return and tab their short escapes; the other control characters,
`<`, `>`, `&`, U+2028 and U+2029 the escape `\uXXXX`. -/
def quoteChar (c : Char) : List Char :=
  if c = '"' then ['\\', '"']
  else if c = '\\' then ['\\', '\\']
  else if c = '\x08' then ['\\', 'b']
  else if c = '\x0c' then ['\\', 'f']
  else if c = '\n' then ['\\', 'n']
  else if c = '\r' then ['\\', 'r']
  else if c = '\t' then ['\\', 't']
  else if c.toNat < 0x20 || c = '<' || c = '>' || c = '&' || c.toNat = 0x2028
      || c.toNat = 0x2029 then escapeU c.toNat
  else [c]

/-- A JSON string literal. -/
def quote (s : List Char) : List Char := '"' :: (s.flatMap quoteChar ++ ['"'])

/-- A JSON boolean. -/
def bool (b : Bool) : List Char := if b then "true".toList else "false".toList

/-- A JSON object from its members, each a key and an encoded value, in the given order. -/
def object (members : List (List Char × List Char)) : List Char :=
  '\x7b' :: (",".toList.intercalate (members.map (fun m => quote m.1 ++ ':' :: m.2))
    ++ ['\x7d'])

/-- Order of Go strings (byte-wise, which on UTF-8 is the order of the code points). -/
def strLE : List Char → List Char → Bool
  | [], _ => true
  | _ :: _, [] => false
  | a :: s, b :: t => a.toNat < b.toNat || (a == b && strLE s t)

/-- Insertion of an entry into a list of entries sorted by key. -/
def insertByKey {α : Type} (e : List Char × α) : List (List Char × α) → List (List Char × α)
  | [] => [e]
  | x :: xs => if strLE e.1 x.1 then e :: x :: xs else x :: insertByKey e xs

/-- The entries of a map sorted by key, the order in which `encoding/json` writes a map. -/
def sortByKey {α : Type} (entries : List (List Char × α)) : List (List Char × α) :=
  entries.foldr insertByKey []

end json

/-- The members that `encoding/json` writes for a `CommitMessage`, from its field tags:
`type` and `scope` carry `omitempty` and are left out when the string is empty. -/
def CommitMessage.jsonMembers (m : CommitMessage) : List (List Char × List Char) :=
  (if m.Type_.isEmpty then [] else [("type".toList, json.quote m.Type_)])
    ++ (if m.Scope.isEmpty then [] else [("scope".toList, json.quote m.Scope)])
    ++ [("title".toList, json.quote m.Title), ("body".toList, json.quote m.Body),
        ("is_breaking".toList, json.bool m.IsBreaking)]

/-- The members that `encoding/json` writes for a `CommitData`, from its field tags. -/
def CommitData.jsonMembers (d : CommitData) : List (List Char × List Char) :=
  [("hash".toList, json.quote d.Hash), ("author".toList, json.quote d.Author),
    ("committer".toList, json.quote d.Committer),
    ("message".toList, json.object d.Message.jsonMembers),
    ("authored_date".toList, json.quote d.AuthoredDate),
    ("committed_date".toList, json.quote d.CommittedDate),
    ("authored_date_delta".toList, json.quote d.AuthoredDateDelta),
    ("committed_date_delta".toList, json.quote d.CommittedDateDelta)]

/-- The text of `json.Marshal(commitData)`: `null` for the nil map, otherwise an object
keyed by the map keys in sorted order. -/
def marshalCommitData : CommitDataMap → List Char
  | none => "null".toList
  | some entries =>
    json.object ((json.sortByKey entries).map (fun e => (e.1, json.object e.2.jsonMembers)))

/-- The call `json.Marshal(commitData)` of `WriteHTML`; it cannot fail on these types. -/
def jsonMarshal (commitData : CommitDataMap) : Except GoError (List Char) :=
  .ok (marshalCommitData commitData)

/-! ## Reference expansion by splicing at the offset of the span (spec, design notes) -/

/-- The loop of `replaceReferences` with the replacement that the spec describes as the
corrected design: the expanded content is spliced at the offsets of the discovered span,
`result[:startIdx] + expanded + result[endIdx+2:]`, instead of replacing the first
occurrence of the text of the span.  Everything else is as in `replaceReferencesLoop`. -/
def replaceReferencesSpliceLoop (resources : ResourceFS) :
    Nat → List Char → Nat → Option (List Char × Option GoError)
  | 0, _, _ => none
  | fuel + 1, result, begin =>
    match strings.Index (result.drop begin) "\x7b\x7b".toList with
    | none => some (result, none)
    | some i =>
      let startIdx := i + begin
      match strings.Index (result.drop (startIdx + 2)) "\x7d\x7d".toList with
      | none => some (result, none)
      | some j =>
        let endIdx := j + (startIdx + 2)
        let reference := strings.TrimSpace (sliceStr result (startIdx + 2) endIdx)
        match getResource resources reference with
        | .error err =>
          some ([], some ("failed to load resource ".toList ++ reference ++ ": ".toList ++ err))
        | .ok resourceContent =>
          match replaceReferencesSpliceLoop resources fuel resourceContent 0 with
          | none => none
          | some (_, some err) => some ([], some err)
          | some (expanded, none) =>
            replaceReferencesSpliceLoop resources fuel
              (result.take startIdx ++ expanded ++ result.drop (endIdx + 2))
              (startIdx + expanded.length)

/-- The variant of `replaceReferences` that splices at the offset of the span. -/
def replaceReferencesSplice (resources : ResourceFS) (fuel : Nat) (text : List Char) :
    Option (List Char × Option GoError) :=
  replaceReferencesSpliceLoop resources fuel text 0

/-! ## Resource stores used as examples -/

/-- The error of `ReadFile` for a path that is not in the file system. -/
def notExist (path : List Char) : GoError :=
  "open ".toList ++ path ++ ": file does not exist".toList

/-- A store with one resource, `a`, whose content is the two characters `{{`. -/
def braceResources : ResourceFS := fun path =>
  if path = "resources/a".toList then .ok "\x7b\x7b".toList else .error (notExist path)

/-- A store with the resource `outer`, which refers to a resource `inner` that does not
exist, and a top-level template that refers to `outer`. -/
def nestedResources : ResourceFS := fun path =>
  if path = "resources/outer".toList then .ok "x \x7b\x7b inner \x7d\x7d y".toList
  else if path = "resources/html_template.html".toList then
    .ok "<html>\x7b\x7bouter\x7d\x7d</html>".toList
  else .error (notExist path)

/-- A store with one resource, `head`, a style sheet without references. -/
def styleResources : ResourceFS := fun path =>
  if path = "resources/head".toList then .ok "<style>a \x7b b \x7d</style>".toList
  else .error (notExist path)

/-! ## Commits used as examples -/

/-- The hash `aaaa…aa`. -/
def hashA : plumbing.Hash := ⟨List.replicate 20 0xaa, rfl⟩

/-- The hash `bbbb…bb`. -/
def hashB : plumbing.Hash := ⟨List.replicate 20 0xbb, rfl⟩

/-- The hash `cccc…cc`. -/
def hashC : plumbing.Hash := ⟨List.replicate 20 0xcc, rfl⟩

/-- A signature. -/
def someone : object.Signature := ⟨"Ann".toList, "ann@example.org".toList, ⟨0⟩⟩

/-! ## More resource stores used as examples -/

/-- A store with the resources `a`, whose content is `{{`, and `b`, whose content is `X`. -/
def spliceResources : ResourceFS := fun path =>
  if path = "resources/a".toList then .ok "\x7b\x7b".toList
  else if path = "resources/b".toList then .ok "X".toList
  else .error (notExist path)

/-- A store whose resource `a` refers to itself: its content is `{{a}}`. -/
def selfResources : ResourceFS := fun path =>
  if path = "resources/a".toList then .ok "\x7b\x7ba\x7d\x7d".toList
  else .error (notExist path)

/-- A store with a page that includes a header that includes a logo. -/
def pageResources : ResourceFS := fun path =>
  if path = "resources/page".toList then .ok "<body>\x7b\x7b header \x7d\x7d</body>".toList
  else if path = "resources/header".toList then .ok "<h1>\x7b\x7blogo\x7d\x7d</h1>".toList
  else if path = "resources/logo".toList then .ok "<img/>".toList
  else .error (notExist path)

/-! ## Records and templates used as examples -/

/-- A record with an empty type and an empty scope. -/
def sampleRecord : CommitData :=
  { Hash := "aaaaaaa".toList, Author := "Ann".toList, Committer := "Ann".toList
    Message := ⟨[], [], "fix bug".toList, [], false⟩
    AuthoredDate := "2020-01-01T00:00:00Z".toList, CommittedDate := "2020-01-01T00:00:00Z".toList
    AuthoredDateDelta := "1 day ago".toList, CommittedDateDelta := "1 day ago".toList }

/-- A store whose top-level template is a script element around the `data` placeholder. -/
def dataResources : ResourceFS := fun path =>
  if path = "resources/html_template.html".toList then
    .ok "<script>const data = ((% data %));</script>".toList
  else .error (notExist path)

/-! ## Facts about the string functions -/

namespace strings

theorem Index_cons (c : Char) (t sub : List Char) :
    Index (c :: t) sub
      = if sub.isPrefixOf (c :: t) then some 0 else (Index t sub).map (· + 1) := by
  rw [Index]

theorem Index_of_isPrefixOf {s sep : List Char} (h : sep.isPrefixOf s = true) :
    Index s sep = some 0 := by
  cases s with
  | nil => simp [Index, h]
  | cons c t => simp [Index, h]

theorem Index_append_of_not_mem (c : Char) (sep a b : List Char) (h : c ∉ a) :
    Index (a ++ b) (c :: sep) = (Index b (c :: sep)).map (· + a.length) := by
  induction a with
  | nil => simp
  | cons x a ih =>
    have hx : c ≠ x := fun e => h (by simp [e])
    have ha : c ∉ a := fun e => h (by simp [e])
    simp [Index, List.isPrefixOf, hx, ih ha]

theorem Index_eq_none_of_not_mem (c : Char) (sep a : List Char) (h : c ∉ a) :
    Index a (c :: sep) = none := by
  induction a with
  | nil => simp [Index, List.isPrefixOf]
  | cons x a ih =>
    have hx : c ≠ x := fun e => h (by simp [e])
    have ha : c ∉ a := fun e => h (by simp [e])
    simp [Index, List.isPrefixOf, hx, ih ha]

theorem TrimSpace_eq_self {s : List Char}
    (h0 : ∀ c ∈ s.head?, unicode.IsSpace c = false)
    (h1 : ∀ c ∈ s.getLast?, unicode.IsSpace c = false) : TrimSpace s = s := by
  unfold TrimSpace
  have e1 : s.dropWhile unicode.IsSpace = s := by
    cases s with
    | nil => rfl
    | cons x t => simp [List.dropWhile, h0 x (by simp)]
  rw [e1, List.rdropWhile_eq_self_iff]
  intro hl
  have := h1 (s.getLast hl) (by simp [List.getLast?_eq_getLast _ hl])
  simp [this]

theorem Contains_singleton (s : List Char) (c : Char) :
    Contains s [c] = decide (c ∈ s) := by
  induction s with
  | nil => simp [Contains, Index, List.isPrefixOf]
  | cons x t ih =>
    by_cases hx : c = x
    · subst hx; simp [Contains, Index, List.isPrefixOf]
    · have ih2 : (Index t [c]).isSome = decide (c ∈ t) := ih
      simp [Contains, Index, List.isPrefixOf, hx, ih2]

theorem Index_singleton_append (c : Char) (a b : List Char) (h : c ∉ a) :
    Index (a ++ c :: b) [c] = some a.length := by
  rw [Index_append_of_not_mem c [] a _ h, Index_of_isPrefixOf (by simp [List.isPrefixOf])]
  simp

theorem dropWhile_append_cons (p : Char → Bool) (a b : List Char) (c : Char) (hc : p c = false) :
    (a ++ c :: b).dropWhile p = a.dropWhile p ++ c :: b := by
  induction a with
  | nil => simp [List.dropWhile, hc]
  | cons x a ih =>
    by_cases hx : p x = true
    · simp [List.dropWhile, hx, ih]
    · simp [List.dropWhile, hx]

theorem rdropWhile_append_singleton (p : Char → Bool) (a : List Char) (c : Char) (hc : p c = false) :
    (a ++ [c]).rdropWhile p = a ++ [c] := by
  simp [List.rdropWhile, List.dropWhile, hc]

theorem mem_of_mem_dropWhile {p : Char → Bool} {a : List Char} {c : Char}
    (h : c ∈ a.dropWhile p) : c ∈ a :=
  (List.dropWhile_suffix p).subset h

/-- No occurrence of a text that begins with `cc` starts inside a stretch in which every
`c` is followed by another character. -/
theorem Index_append_of_noDouble (c : Char) (q : List Char) :
    ∀ (a rest : List Char), noDouble c a = true →
      Index (a ++ rest) (c :: c :: q) = (Index rest (c :: c :: q)).map (· + a.length)
  | [], rest, _ => by simp
  | [x], rest, h => by
    have hx : x ≠ c := by simpa [noDouble] using h
    have hx2 : ¬ (c = x) := fun e => hx e.symm
    show Index (x :: rest) _ = _
    rw [Index_cons]
    have hp : (c :: c :: q).isPrefixOf (x :: rest) = false := by
      simp [List.isPrefixOf, hx2]
    rw [hp]
    simp
  | x :: y :: t, rest, h => by
    have h2 : (x ≠ c ∨ y ≠ c) ∧ noDouble c (y :: t) = true := by
      simpa [noDouble] using h
    have ih := Index_append_of_noDouble c q (y :: t) rest h2.2
    have hp : (c :: c :: q).isPrefixOf (x :: (y :: t ++ rest)) = false := by
      rcases h2.1 with hx | hy
      · have : ¬ (c = x) := fun e => hx e.symm
        simp [List.isPrefixOf, this]
      · have : ¬ (c = y) := fun e => hy e.symm
        simp [List.isPrefixOf, this]
    show Index (x :: (y :: t ++ rest)) _ = _
    rw [Index_cons, hp]
    simp only [Bool.false_eq_true, if_false]
    rw [ih]
    cases Index rest (c :: c :: q) <;> simp [Nat.add_assoc]

theorem noDouble_of_not_mem (c : Char) : ∀ (a : List Char), c ∉ a → noDouble c a = true
  | [], _ => rfl
  | [x], h => by
    have : x ≠ c := fun e => h (by simp [e])
    simp [noDouble, this]
  | x :: y :: t, h => by
    have hx : x ≠ c := fun e => h (by simp [e])
    have := noDouble_of_not_mem c (y :: t) (fun e => h (by simp [e]))
    simp [noDouble, hx, this]

theorem Index_some_le {s sub : List Char} {j : Nat} (h : Index s sub = some j) :
    j + sub.length ≤ s.length := by
  induction s generalizing j with
  | nil =>
    unfold Index at h
    cases sub with
    | nil => simp at h; simp [← h]
    | cons c t => simp [List.isPrefixOf] at h
  | cons c t ih =>
    unfold Index at h
    by_cases hp : sub.isPrefixOf (c :: t) = true
    · rw [if_pos hp] at h
      cases h
      have := (List.isPrefixOf_iff_prefix.mp hp).length_le
      simpa using this
    · rw [if_neg hp] at h
      cases hi : Index t sub with
      | none => rw [hi] at h; simp at h
      | some j2 =>
        rw [hi] at h
        simp only [Option.map_some', Option.some.injEq] at h
        have := ih hi
        simp only [List.length_cons]
        omega

theorem Index_some_isPrefixOf {s sub : List Char} {i : Nat} (h : Index s sub = some i) :
    sub.isPrefixOf (s.drop i) = true := by
  induction s generalizing i with
  | nil =>
    unfold Index at h
    by_cases hp : sub.isPrefixOf [] = true
    · rw [if_pos hp] at h; cases h; simpa using hp
    · rw [if_neg hp] at h; cases h
  | cons c t ih =>
    rw [Index_cons] at h
    by_cases hp : sub.isPrefixOf (c :: t) = true
    · rw [if_pos hp] at h; cases h; simpa using hp
    · rw [if_neg hp] at h
      cases hi : Index t sub with
      | none => rw [hi] at h; cases h
      | some j =>
        rw [hi] at h
        simp only [Option.map_some', Option.some.injEq] at h
        subst h
        simpa using ih hi

/-- The first occurrence of a text is also the first occurrence of any longer text that
starts with it and occurs at the same offset. -/
theorem Index_of_first {s sub1 sub : List Char} {k : Nat} (h1 : Index s sub1 = some k)
    (hpre : sub1 <+: sub) (hk : sub.isPrefixOf (s.drop k) = true) : Index s sub = some k := by
  induction s generalizing k with
  | nil =>
    have hle := Index_some_le h1
    have : k = 0 := by simp at hle; omega
    subst this
    exact Index_of_isPrefixOf (by simpa using hk)
  | cons c t ih =>
    rw [Index_cons] at h1
    by_cases hp : sub1.isPrefixOf (c :: t) = true
    · rw [if_pos hp] at h1
      cases h1
      exact Index_of_isPrefixOf (by simpa using hk)
    · rw [if_neg hp] at h1
      cases hi : Index t sub1 with
      | none => rw [hi] at h1; cases h1
      | some j =>
        rw [hi] at h1
        simp only [Option.map_some', Option.some.injEq] at h1
        subst h1
        have hnp : sub.isPrefixOf (c :: t) = false := by
          cases hb : sub.isPrefixOf (c :: t) with
          | false => rfl
          | true =>
            exact absurd (List.isPrefixOf_iff_prefix.mpr
              (hpre.trans (List.isPrefixOf_iff_prefix.mp hb))) hp
        rw [Index_cons, hnp]
        simp only [Bool.false_eq_true, if_false]
        rw [ih hi (by simpa using hk)]
        rfl

theorem noDouble_append (c : Char) :
    ∀ (a b : List Char), noDouble c a = true → noDouble c b = true →
      noDouble c (a ++ b) = true
  | [], b, _, hb => by simpa using hb
  | [x], b, ha, hb => by
    have hx : x ≠ c := by simpa [noDouble] using ha
    cases b with
    | nil => simpa using ha
    | cons y t => simp [noDouble, hx, hb]
  | x :: y :: t, b, ha, hb => by
    have h2 : (x ≠ c ∨ y ≠ c) ∧ noDouble c (y :: t) = true := by
      simpa [noDouble] using ha
    have ih := noDouble_append c (y :: t) b h2.2 hb
    have e : x :: y :: t ++ b = x :: y :: (t ++ b) := by simp
    rw [e]
    have ih2 : noDouble c (y :: (t ++ b)) = true := by simpa using ih
    have : noDouble c (x :: y :: (t ++ b))
        = ((x != c || y != c) && noDouble c (y :: (t ++ b))) := rfl
    rw [this, ih2]
    rcases h2.1 with h | h <;> simp [h]

/-- The text in front of the first `cc` holds no `cc` and does not end in `c`. -/
theorem noDouble_take_of_Index (c : Char) :
    ∀ (s : List Char) (i : Nat), Index s [c, c] = some i → noDouble c (s.take i) = true
  | [], i, h => by simp [noDouble]
  | x :: t, i, h => by
    rw [Index_cons] at h
    by_cases hp : [c, c].isPrefixOf (x :: t) = true
    · rw [if_pos hp] at h; cases h; rfl
    · rw [if_neg hp] at h
      cases hi : Index t [c, c] with
      | none => rw [hi] at h; cases h
      | some j =>
        rw [hi] at h
        simp only [Option.map_some', Option.some.injEq] at h
        subst h
        have ih := noDouble_take_of_Index c t j hi
        have hpt := Index_some_isPrefixOf hi
        show noDouble c (x :: t.take j) = true
        cases t with
        | nil => simp [Index, List.isPrefixOf] at hi
        | cons y u =>
          cases j with
          | zero =>
            simp only [List.drop_zero] at hpt
            have hx : x ≠ c := by
              intro e
              apply hp
              subst e
              simp [List.isPrefixOf] at hpt ⊢
              exact hpt.1
            simp [noDouble, hx]
          | succ j2 =>
            have hxy : x ≠ c ∨ y ≠ c := by
              by_contra hcon
              push_neg at hcon
              apply hp
              obtain ⟨rfl, rfl⟩ := hcon
              cases u with
              | nil => simp [List.isPrefixOf]
              | cons z w => simp [List.isPrefixOf]
            have e : noDouble c (x :: List.take (j2 + 1) (y :: u))
                = ((x != c || y != c) && noDouble c (y :: u.take j2)) := rfl
            rw [e]
            have ih2 : noDouble c (y :: u.take j2) = true := ih
            rw [ih2]
            rcases hxy with h | h <;> simp [h]

end strings
/-! ## `parseCommitMessage` -/

/-- Closed form of `parseCommitMessage` when the text before the first `": "` is
`ty ++ "(" ++ sc ++ ")"`. -/
theorem parseCommitMessage_scoped (message ty sc : List Char) (i : Nat)
    (hidx : strings.Index message ": ".toList = some i)
    (hpre : message.take i = ty ++ '(' :: (sc ++ [')']))
    (hty : '(' ∉ ty) (hsc : ')' ∉ sc) :
    parseCommitMessage message =
      if ' ' ∈ strings.TrimSpace ty then ([], [], message)
      else (strings.TrimSpace ty, strings.TrimSpace sc, strings.TrimSpace (message.drop (i + 2))) := by
  have hp : strings.TrimSpace (message.take i)
      = ty.dropWhile unicode.IsSpace ++ '(' :: (sc ++ [')']) := by
    rw [hpre]
    unfold strings.TrimSpace
    rw [strings.dropWhile_append_cons _ _ _ _ (by decide)]
    have : ty.dropWhile unicode.IsSpace ++ '(' :: (sc ++ [')'])
        = (ty.dropWhile unicode.IsSpace ++ '(' :: sc) ++ [')'] := by simp
    rw [this, strings.rdropWhile_append_singleton _ _ _ (by decide)]
  have hty2 : '(' ∉ ty.dropWhile unicode.IsSpace := fun h => hty (strings.mem_of_mem_dropWhile h)
  have hi1 : strings.Index (ty.dropWhile unicode.IsSpace ++ '(' :: (sc ++ [')'])) "(".toList
      = some (ty.dropWhile unicode.IsSpace).length :=
    strings.Index_singleton_append _ _ _ hty2
  have hi2 : strings.Index (sc ++ [')']) ")".toList = some sc.length :=
    strings.Index_singleton_append _ _ _ hsc
  have hct : strings.TrimSpace (ty.dropWhile unicode.IsSpace) = strings.TrimSpace ty := by
    unfold strings.TrimSpace
    rw [List.dropWhile_idempotent]
  unfold parseCommitMessage
  simp only [hidx, hp, hi1, List.take_left', List.drop_left', hi2, hct]
  have hd : List.drop ((ty.dropWhile unicode.IsSpace).length + 1)
      (ty.dropWhile unicode.IsSpace ++ '(' :: (sc ++ [')'])) = sc ++ [')'] := by
    have : ty.dropWhile unicode.IsSpace ++ '(' :: (sc ++ [')'])
        = (ty.dropWhile unicode.IsSpace ++ ['(']) ++ (sc ++ [')']) := by simp
    rw [this]
    exact List.drop_left' (by simp)
  simp only [hd, hi2, List.take_left']
  have hc : strings.Contains (strings.TrimSpace ty) " ".toList
      = decide (' ' ∈ strings.TrimSpace ty) := strings.Contains_singleton _ _
  rw [hc]
  by_cases h : ' ' ∈ strings.TrimSpace ty <;> simp [h]


/-- C1: for a type and a scope that contain no white space, no parenthesis and no colon
and for every title, `parseCommitMessage` applied to
`type(scope): title` returns exactly the type, the scope and the trimmed title. -/
theorem parseCommitMessage_type_scope_title (ty sc title : List Char)
    (hty : ty ≠ []) (hsc : sc ≠ [])
    (htyc : ∀ c ∈ ty, unicode.IsSpace c = false ∧ c ≠ '(' ∧ c ≠ ')' ∧ c ≠ ':')
    (hscc : ∀ c ∈ sc, unicode.IsSpace c = false ∧ c ≠ '(' ∧ c ≠ ')' ∧ c ≠ ':') :
    parseCommitMessage (ty ++ "(".toList ++ sc ++ "): ".toList ++ title)
      = (ty, sc, strings.TrimSpace title) := by
  have hmsg : ty ++ "(".toList ++ sc ++ "): ".toList ++ title
      = (ty ++ '(' :: (sc ++ [')'])) ++ (':' :: ' ' :: title) := by simp
  have hcolon : ':' ∉ ty ++ '(' :: (sc ++ [')']) := by
    intro h
    simp only [List.mem_append, List.mem_cons, List.mem_singleton] at h
    rcases h with h | h | h | h
    · exact (htyc _ h).2.2.2 rfl
    · exact absurd h (by decide)
    · exact (hscc _ h).2.2.2 rfl
    · simp at h
  have hidx : strings.Index (ty ++ "(".toList ++ sc ++ "): ".toList ++ title) ": ".toList
      = some (ty ++ '(' :: (sc ++ [')'])).length := by
    rw [hmsg]
    show strings.Index _ (':' :: [' ']) = _
    rw [strings.Index_append_of_not_mem _ _ _ _ hcolon,
      strings.Index_of_isPrefixOf (by simp [List.isPrefixOf])]
    simp
  have htrim : ∀ s : List Char,
      (∀ c ∈ s, unicode.IsSpace c = false ∧ c ≠ '(' ∧ c ≠ ')' ∧ c ≠ ':') →
      strings.TrimSpace s = s := by
    intro s hs
    apply strings.TrimSpace_eq_self
    · intro c hc; exact (hs c (List.mem_of_mem_head? hc)).1
    · intro c hc; exact (hs c (List.mem_of_mem_getLast? hc)).1
  have hsp : ' ' ∉ ty := fun h => by
    have := (htyc _ h).1
    exact absurd this (by decide)
  rw [parseCommitMessage_scoped _ ty sc _ hidx (by rw [hmsg]; exact List.take_left' rfl)
    (fun h => (htyc _ h).2.1 rfl) (fun h => (hscc _ h).2.2.1 rfl)]
  rw [htrim ty htyc, htrim sc hscc, if_neg hsp]
  have : List.drop ((ty ++ '(' :: (sc ++ [')'])).length + 2)
      (ty ++ "(".toList ++ sc ++ "): ".toList ++ title) = title := by
    rw [hmsg]
    have e : (ty ++ '(' :: (sc ++ [')'])) ++ (':' :: ' ' :: title)
        = ((ty ++ '(' :: (sc ++ [')'])) ++ [':', ' ']) ++ title := by simp
    rw [e]
    exact List.drop_left' (by simp; omega)
  rw [this]

/-- Instance of C1 at `feat(api):  add login `. -/
theorem parseCommitMessage_type_scope_title_witness :
    parseCommitMessage
        ("feat".toList ++ "(".toList ++ "api".toList ++ "): ".toList ++ " add login ".toList)
      = ("feat".toList, "api".toList, strings.TrimSpace " add login ".toList) :=
  parseCommitMessage_type_scope_title "feat".toList "api".toList " add login ".toList
    (by decide) (by decide) (by decide) (by decide)

/-- C2 as stated fails: in `feat(my scope): x` the bracket content contains a space and in
`fix (api): x` the text before `(` contains one, yet neither summary is returned whole as
the title. -/
theorem parseCommitMessage_space_no_fallback :
    strings.Index "feat(my scope): x".toList ": ".toList = some 14
      ∧ "feat(my scope): x".toList.take 14 = "feat".toList ++ "(".toList ++ "my scope".toList ++ ")".toList
      ∧ ' ' ∈ "my scope".toList
      ∧ parseCommitMessage "feat(my scope): x".toList
          = ("feat".toList, "my scope".toList, "x".toList)
      ∧ parseCommitMessage "feat(my scope): x".toList ≠ ([], [], "feat(my scope): x".toList)
      ∧ strings.Index "fix (api): x".toList ": ".toList = some 9
      ∧ "fix (api): x".toList.take 9 = "fix ".toList ++ "(".toList ++ "api".toList ++ ")".toList
      ∧ ' ' ∈ "fix ".toList
      ∧ parseCommitMessage "fix (api): x".toList = ("fix".toList, "api".toList, "x".toList) := by
  decide

/-- C2, amended: for a summary whose text before the first `": "` is `type(scope)` (no `(`
in the type, no `)` in the scope), `parseCommitMessage` returns the whole summary as
the title exactly when the type, trimmed of surrounding white space, contains a space;
otherwise it returns the trimmed type, the trimmed bracket content (spaces inside it are
kept) and the trimmed remainder.  The summary `fix this: something` is returned whole. -/
theorem parseCommitMessage_type_space_fallback (summary ty sc : List Char) (i : Nat)
    (hidx : strings.Index summary ": ".toList = some i)
    (hpre : summary.take i = ty ++ "(".toList ++ sc ++ ")".toList)
    (hty : '(' ∉ ty) (hsc : ')' ∉ sc) :
    (parseCommitMessage summary =
      if ' ' ∈ strings.TrimSpace ty then ([], [], summary)
      else (strings.TrimSpace ty, strings.TrimSpace sc,
        strings.TrimSpace (summary.drop (i + 2))))
    ∧ parseCommitMessage "fix this: something".toList = ([], [], "fix this: something".toList) := by
  refine ⟨?_, by decide⟩
  exact parseCommitMessage_scoped summary ty sc i hidx (by rw [hpre]; simp) hty hsc

/-- Instance of the amended C2 at `my fix(api): x`, whose type contains a space. -/
theorem parseCommitMessage_type_space_fallback_witness :
    (parseCommitMessage "my fix(api): x".toList =
      if ' ' ∈ strings.TrimSpace "my fix".toList then ([], [], "my fix(api): x".toList)
      else (strings.TrimSpace "my fix".toList, strings.TrimSpace "api".toList,
        strings.TrimSpace ("my fix(api): x".toList.drop (11 + 2))))
    ∧ parseCommitMessage "fix this: something".toList = ([], [], "fix this: something".toList) :=
  parseCommitMessage_type_space_fallback "my fix(api): x".toList "my fix".toList "api".toList 11
    (by decide) (by decide) (by decide) (by decide)

/-- C3: a message without the sequence `": "` is returned unchanged as the title, with
empty type and scope. -/
theorem parseCommitMessage_no_colon (message : List Char)
    (h : strings.Contains message ": ".toList = false) :
    parseCommitMessage message = ([], [], message) := by
  unfold strings.Contains at h
  unfold parseCommitMessage
  cases hi : strings.Index message ": ".toList with
  | none => rfl
  | some i => rw [hi] at h; simp at h

/-- Instance of C3 at `fix bug`. -/
theorem parseCommitMessage_no_colon_witness :
    parseCommitMessage "fix bug".toList = ([], [], "fix bug".toList) :=
  parseCommitMessage_no_colon "fix bug".toList (by decide)

/-! ## `prettyDate` -/

/-- C4 at a tier boundary: for a difference of 180 days less one nanosecond
(`15551999999999999 ns`) the exact quotient by 720 hours has floor 5, but
`Duration.Hours` rounds the hour count up to `4320.0` and `prettyDate` returns
`6 months ago`; likewise two years less one nanosecond gives `2 years ago`.  The
stated examples hold: 59 s gives `just now`, 60 s `1 minute ago`, 61 min `1 hour ago`. -/
theorem prettyDate_rounds_up_before_boundary :
    prettyDate ⟨15551999999999999⟩ ⟨0⟩ = "6 months ago".toList
      ∧ (15551999999999999 : Int) / (720 * time.Hour) = 5
      ∧ (⟨15551999999999999⟩ : time.Time).Sub ⟨0⟩ = 180 * 24 * time.Hour - 1
      ∧ time.Duration.Hours 15551999999999999 = float64.ofInt 4320
      ∧ prettyDate ⟨63071999999999999⟩ ⟨0⟩ = "2 years ago".toList
      ∧ (63071999999999999 : Int) / (8760 * time.Hour) = 1
      ∧ prettyDate ⟨59 * time.Second⟩ ⟨0⟩ = "just now".toList
      ∧ prettyDate ⟨60 * time.Second⟩ ⟨0⟩ = "1 minute ago".toList
      ∧ prettyDate ⟨61 * time.Minute⟩ ⟨0⟩ = "1 hour ago".toList := by
  decide

/-! ## `issueLink` -/

theorem takeWhile_append_stop (p : Char → Bool) (a b : List Char) (c : Char)
    (ha : ∀ x ∈ a, p x = true) (hc : p c = false) :
    (a ++ c :: b).takeWhile p = a ∧ (a ++ c :: b).dropWhile p = c :: b := by
  induction a with
  | nil => simp [List.takeWhile, List.dropWhile, hc]
  | cons x a ih =>
    have hx : p x = true := ha x (by simp)
    have := ih (fun y hy => ha y (by simp [hy]))
    simp [List.takeWhile, List.dropWhile, hx, this.1, this.2]

theorem takeWhile_all (p : Char → Bool) (a : List Char) (ha : ∀ x ∈ a, p x = true) :
    a.takeWhile p = a ∧ a.dropWhile p = [] := by
  induction a with
  | nil => simp
  | cons x a ih =>
    have hx : p x = true := ha x (by simp)
    have := ih (fun y hy => ha y (by simp [hy]))
    simp [List.takeWhile, List.dropWhile, hx, this.1, this.2]

/-- The pattern matches a bare reference `org#num` from its first to its last character. -/
theorem issueRegex_matchAt_reference (org num : List Char) (horg : org ≠ [])
    (hw : ∀ c ∈ org, issueRegex.isWord c = true) (hnum : num ≠ [])
    (hd : ∀ c ∈ num, issueRegex.isDigit c = true) :
    issueRegex.matchAt (org ++ '#' :: num) = some (org, num, []) := by
  have h1 := takeWhile_append_stop issueRegex.isWord org num '#' hw (by decide)
  have h2 := takeWhile_all issueRegex.isDigit num hd
  unfold issueRegex.matchAt
  simp only [h1.1, h1.2, h2.1, h2.2]
  cases org with
  | nil => exact absurd rfl horg
  | cons x xs =>
    cases num with
    | nil => exact absurd rfl hnum
    | cons y ys => simp

/-- C5: for a non-empty `org` of word characters, a non-empty digit string `num` and a
non-empty slug, `issueLink (org#num, slug)` is the single anchor with text `org#num` whose
address is `https://github.com/<slug>/issues/<num>` when the slug starts with `org/`, and
`https://github.com/<org>/issues/<num>` otherwise. -/
theorem issueLink_single_reference (org num slug : List Char) (horg : org ≠ [])
    (hw : ∀ c ∈ org, issueRegex.isWord c = true) (hnum : num ≠ [])
    (hd : ∀ c ∈ num, issueRegex.isDigit c = true) (hslug : slug ≠ []) :
    issueLink (org ++ "#".toList ++ num) slug =
      "<a target=\"_blank\" href=\"https://github.com/".toList
        ++ (if strings.HasPrefix slug (org ++ "/".toList) then slug else org)
        ++ "/issues/".toList ++ num ++ "\">".toList ++ org ++ "#".toList ++ num
        ++ "</a>".toList := by
  have hm := issueRegex_matchAt_reference org num horg hw hnum hd
  have htext : org ++ "#".toList ++ num = org ++ '#' :: num := by simp
  have hfind : issueRegex.FindStringSubmatch (org ++ '#' :: num)
      = some [org ++ '#' :: num, org, num] := by
    cases org with
    | nil => exact absurd rfl horg
    | cons x xs =>
      show issueRegex.FindStringSubmatch (x :: (xs ++ '#' :: num)) = _
      unfold issueRegex.FindStringSubmatch
      have : issueRegex.matchAt (x :: (xs ++ '#' :: num)) = some (x :: xs, num, []) := hm
      rw [this]
  have hne : slug.isEmpty = false := by
    cases slug with
    | nil => exact absurd rfl hslug
    | cons _ _ => rfl
  rw [htext]
  unfold issueLink issueRegex.ReplaceAllStringFunc
  simp only [hne, Bool.false_eq_true, if_false]
  unfold issueRegex.ReplaceAllStringFuncAux
  simp only [hm, hfind]
  have hnil : ∀ (f : Nat) (repl : List Char → List Char),
      issueRegex.ReplaceAllStringFuncAux repl f [] = [] := by
    intro f repl
    cases f with
    | zero => rfl
    | succ n => simp [issueRegex.ReplaceAllStringFuncAux, issueRegex.matchAt]
  rw [hnil]
  by_cases hp : strings.HasPrefix slug (org ++ "/".toList) = true
  · simp only [hp, if_true]
    simp [issueAnchor]
  · simp only [hp, if_false]
    simp [issueAnchor]

/-- Instance of C5: `acme#42` with the slug `acme/repo` and with the slug `other/repo`. -/
theorem issueLink_single_reference_witness :
    issueLink ("acme".toList ++ "#".toList ++ "42".toList) "acme/repo".toList =
      "<a target=\"_blank\" href=\"https://github.com/".toList
        ++ (if strings.HasPrefix "acme/repo".toList ("acme".toList ++ "/".toList)
            then "acme/repo".toList else "acme".toList)
        ++ "/issues/".toList ++ "42".toList ++ "\">".toList ++ "acme".toList ++ "#".toList
        ++ "42".toList ++ "</a>".toList :=
  issueLink_single_reference "acme".toList "42".toList "acme/repo".toList
    (by decide) (by decide) (by decide) (by decide) (by decide)

/-! ## `replaceReferences` -/

/-- One iteration of the loop at the start of a text, in terms of `firstReference`. -/
theorem replaceReferencesLoop_first (resources : ResourceFS) (fuel : Nat)
    (text name : List Char) (h : firstReference text = some name) :
    replaceReferencesLoop resources (fuel + 1) text 0 =
      match getResource resources name with
      | .error err =>
        some ([], some ("failed to load resource ".toList ++ name ++ ": ".toList ++ err))
      | .ok resourceContent =>
        match replaceReferencesLoop resources fuel resourceContent 0 with
        | none => none
        | some (_, some err) => some ([], some err)
        | some (expanded, none) =>
          match strings.Index text "\x7b\x7b".toList with
          | none => none
          | some i =>
            match strings.Index (text.drop (i + 2)) "\x7d\x7d".toList with
            | none => none
            | some j =>
              replaceReferencesLoop resources fuel
                (strings.ReplaceFirst text (sliceStr text i (j + (i + 2) + 2)) expanded)
                (i + expanded.length) := by
  unfold firstReference at h
  rw [replaceReferencesLoop]
  simp only [List.drop_zero, Nat.add_zero]
  cases hi : strings.Index text "\x7b\x7b".toList with
  | none => rw [hi] at h; simp at h
  | some i =>
    rw [hi] at h
    simp only at h ⊢
    cases hj : strings.Index (text.drop (i + 2)) "\x7d\x7d".toList with
    | none => rw [hj] at h; simp at h
    | some j =>
      rw [hj] at h
      simp only [Option.some.injEq] at h
      simp only [h]

/-- The loop stops at once on a text without a reference span. -/
theorem replaceReferences_of_no_reference (resources : ResourceFS) (fuel : Nat)
    (text : List Char) (h : firstReference text = none) :
    replaceReferences resources (fuel + 1) text = some (text, none) := by
  unfold firstReference at h
  unfold replaceReferences
  rw [replaceReferencesLoop]
  simp only [List.drop_zero, Nat.add_zero]
  cases hi : strings.Index text "\x7b\x7b".toList with
  | none => rfl
  | some i =>
    rw [hi] at h
    simp only at h ⊢
    cases hj : strings.Index (text.drop (i + 2)) "\x7d\x7d".toList with
    | none => rfl
    | some j => rw [hj] at h; simp at h

/-- Whenever the loop returns an error, the returned text is empty and the error is the
failure to load some resource, named in the message. -/
theorem replaceReferencesLoop_error (resources : ResourceFS) :
    ∀ (fuel : Nat) (result : List Char) (begin : Nat) (t : List Char) (e : GoError),
      replaceReferencesLoop resources fuel result begin = some (t, some e) →
      t = [] ∧ ∃ name err, getResource resources name = .error err
        ∧ e = "failed to load resource ".toList ++ name ++ ": ".toList ++ err := by
  intro fuel
  induction fuel with
  | zero => intro result begin t e h; simp [replaceReferencesLoop] at h
  | succ f ih =>
    intro result begin t e h
    rw [replaceReferencesLoop] at h
    cases hi : strings.Index (result.drop begin) "\x7b\x7b".toList with
    | none => rw [hi] at h; cases h
    | some i =>
      rw [hi] at h
      simp only at h
      cases hj : strings.Index (result.drop (i + begin + 2)) "\x7d\x7d".toList with
      | none => rw [hj] at h; cases h
      | some j =>
        rw [hj] at h
        simp only at h
        cases hg : getResource resources
            (strings.TrimSpace (sliceStr result (i + begin + 2) (j + (i + begin + 2)))) with
        | error err =>
          rw [hg] at h
          simp only [Option.some.injEq, Prod.mk.injEq] at h
          exact ⟨h.1.symm, _, err, hg, h.2.symm⟩
        | ok content =>
          rw [hg] at h
          simp only at h
          cases hrec : replaceReferencesLoop resources f content 0 with
          | none => rw [hrec] at h; cases h
          | some r =>
            obtain ⟨x, oe⟩ := r
            cases oe with
            | some e2 =>
              rw [hrec] at h
              simp only [Option.some.injEq, Prod.mk.injEq] at h
              obtain ⟨_, hname⟩ := ih content 0 x e2 hrec
              exact ⟨h.1.symm, by rw [← h.2]; exact hname⟩
            | none =>
              rw [hrec] at h
              exact ih _ _ t e h

/-- C6: when the first reference that expansion discovers, at the top level or inside the
resources it descends into, names a resource that is not in the store, `replaceReferences`
(with fuel for at least that depth) returns the empty text together with an error whose
message contains the trimmed name; and whenever `replaceReferences` returns an error, the
text it returns is empty. -/
theorem replaceReferences_missing_resource (resources : ResourceFS) (depth : Nat)
    (text name : List Char) (h : firstMissing resources depth text = some name) :
    (∀ fuel, depth ≤ fuel →
      ∃ msg, replaceReferences resources fuel text = some ([], some msg)
        ∧ List.IsInfix name msg)
    ∧ (∀ fuel t e, replaceReferences resources fuel text = some (t, some e) → t = []) := by
  refine ⟨?_, fun fuel t e he => (replaceReferencesLoop_error resources fuel text 0 t e he).1⟩
  induction depth generalizing text with
  | zero => simp [firstMissing] at h
  | succ d ih =>
    intro fuel hfuel
    obtain ⟨f, rfl⟩ : ∃ f, fuel = f + 1 := ⟨fuel - 1, by omega⟩
    unfold firstMissing at h
    cases hr : firstReference text with
    | none => rw [hr] at h; simp at h
    | some n =>
      rw [hr] at h
      simp only at h
      unfold replaceReferences
      rw [replaceReferencesLoop_first resources f text n hr]
      cases hg : getResource resources n with
      | error err =>
        rw [hg] at h
        simp only [Option.some.injEq] at h
        subst h
        exact ⟨_, rfl, ⟨"failed to load resource ".toList, ": ".toList ++ err, by simp⟩⟩
      | ok content =>
        rw [hg] at h
        simp only at h
        obtain ⟨msg, hmsg, hin⟩ := ih content h f (by omega)
        unfold replaceReferences at hmsg
        simp only [hmsg]
        exact ⟨msg, rfl, hin⟩

/-- Instance of C6: the text refers to `outer`, whose content refers to the missing
resource `inner`. -/
theorem replaceReferences_missing_resource_witness :
    ∃ msg,
      replaceReferences nestedResources 2 "<\x7b\x7bouter\x7d\x7d>".toList
          = some ([], some msg)
        ∧ List.IsInfix "inner".toList msg :=
  (replaceReferences_missing_resource nestedResources 2 "<\x7b\x7bouter\x7d\x7d>".toList
    "inner".toList (by decide)).1 2 (by decide)

/-- C7 as stated fails.  In a store whose only resource `a` has the content `{{` (no stored
content holds a reference, so there is no cycle), `{{a}} x }}` expands to `{{ x }}`;
expanding that output again looks up the resource `x` and fails. -/
theorem replaceReferences_not_idempotent :
    (∀ path content, braceResources path = .ok content → firstReference content = none)
      ∧ (∀ fuel, 2 ≤ fuel →
          replaceReferences braceResources fuel "\x7b\x7ba\x7d\x7d x \x7d\x7d".toList
            = some ("\x7b\x7b x \x7d\x7d".toList, none))
      ∧ (∀ fuel, replaceReferences braceResources fuel "\x7b\x7b x \x7d\x7d".toList
            ≠ some ("\x7b\x7b x \x7d\x7d".toList, none)) := by
  refine ⟨?_, ?_, ?_⟩
  · intro path content h
    unfold braceResources at h
    by_cases hp : path = "resources/a".toList
    · rw [if_pos hp] at h
      cases h
      decide
    · rw [if_neg hp] at h
      cases h
  · intro fuel hfuel
    obtain ⟨f, rfl⟩ : ∃ f, fuel = f + 2 := ⟨fuel - 2, by omega⟩
    rfl
  · intro fuel
    cases fuel with
    | zero => simp [replaceReferences, replaceReferencesLoop]
    | succ f =>
      have : replaceReferences braceResources (f + 1) "\x7b\x7b x \x7d\x7d".toList
          = some ([], some ("failed to load resource x: ".toList
              ++ notExist "resources/x".toList)) := rfl
      rw [this]
      decide

/-- The text in front of the cursor has no `{{` and does not end in `{`, so the first `{{`
of the buffer is the first one at or behind the cursor. -/
theorem Index_open_of_cursor (result : List Char) (begin : Nat)
    (hinv : noDouble '\x7b' (result.take begin) = true) :
    strings.Index result "\x7b\x7b".toList
      = (strings.Index (result.drop begin) "\x7b\x7b".toList).map
          (· + (result.take begin).length) := by
  have := strings.Index_append_of_noDouble '\x7b' [] (result.take begin) (result.drop begin) hinv
  rw [List.take_append_drop] at this
  exact this

/-- When the text in front of the cursor has no `{{` and does not end in `{`, the span
that the loop discovers is the first occurrence of its own text, and replacing it keeps
that property for the new cursor, provided the inserted content has it. -/
theorem replaceFirst_span (result expanded : List Char) (begin i j : Nat)
    (hinv : noDouble '\x7b' (result.take begin) = true)
    (hexp : noDouble '\x7b' expanded = true)
    (hi : strings.Index (result.drop begin) "\x7b\x7b".toList = some i)
    (hj : strings.Index (result.drop (i + begin + 2)) "\x7d\x7d".toList = some j) :
    noDouble '\x7b'
      ((strings.ReplaceFirst result (sliceStr result (i + begin) (j + (i + begin + 2) + 2))
        expanded).take (i + begin + expanded.length)) = true := by
  have hle1 := strings.Index_some_le hi
  have hle2 := strings.Index_some_le hj
  have hlen1 : (result.drop begin).length = result.length - begin := List.length_drop _ _
  have hlen2 : (result.drop (i + begin + 2)).length = result.length - (i + begin + 2) :=
    List.length_drop _ _
  have h2 : "\x7b\x7b".toList.length = 2 := rfl
  have h2b : "\x7d\x7d".toList.length = 2 := rfl
  rw [h2] at hle1
  rw [h2b] at hle2
  have hbl : begin ≤ result.length := by omega
  have htl : (result.take begin).length = begin := by
    rw [List.length_take]; omega
  have hfirst : strings.Index result "\x7b\x7b".toList = some (i + begin) := by
    rw [Index_open_of_cursor result begin hinv, hi, htl]
    rfl
  -- the span starts with `{{` and is a prefix of the buffer from `i + begin` on
  have hspan : sliceStr result (i + begin) (j + (i + begin + 2) + 2)
      = (result.drop (i + begin)).take (j + 4) := by
    unfold sliceStr
    rw [List.drop_take]
    congr 1
    omega
  have hopen : "\x7b\x7b".toList <+: result.drop (i + begin) := by
    have := strings.Index_some_isPrefixOf hi
    rw [List.drop_drop] at this
    have e : begin + i = i + begin := by omega
    rw [e] at this
    exact List.isPrefixOf_iff_prefix.mp this
  have hpre : "\x7b\x7b".toList <+: sliceStr result (i + begin) (j + (i + begin + 2) + 2) := by
    rw [hspan]
    exact List.prefix_take_iff.mpr ⟨hopen, by rw [h2]; omega⟩
  have hocc : (sliceStr result (i + begin) (j + (i + begin + 2) + 2)).isPrefixOf
      (result.drop (i + begin)) = true := by
    rw [hspan]
    exact List.isPrefixOf_iff_prefix.mpr (List.take_prefix _ _)
  have hidx : strings.Index result (sliceStr result (i + begin) (j + (i + begin + 2) + 2))
      = some (i + begin) := strings.Index_of_first hfirst hpre hocc
  unfold strings.ReplaceFirst
  rw [hidx]
  simp only
  have hsl : (result.take (i + begin)).length = i + begin := by
    rw [List.length_take]; omega
  have htake : ((result.take (i + begin) ++ expanded) ++ result.drop
      (i + begin + (sliceStr result (i + begin) (j + (i + begin + 2) + 2)).length)).take
        (i + begin + expanded.length) = result.take (i + begin) ++ expanded := by
    apply List.take_left'
    rw [List.length_append, hsl]
  rw [htake]
  apply strings.noDouble_append _ _ _ _ hexp
  have e : i + begin = begin + i := by omega
  rw [e, List.take_add]
  exact strings.noDouble_append _ _ _ hinv (strings.noDouble_take_of_Index _ _ _ hi)

/-- Loop invariant of `replaceReferences`: when every resource expands to a content with
no `{{` that does not end in `{`, and the text in front of the cursor is of that kind,
the text that the loop returns holds no reference span. -/
theorem replaceReferencesLoop_no_span (resources : ResourceFS)
    (hstore : ∀ (name content e : List Char) (fuel : Nat),
      getResource resources name = .ok content →
      replaceReferences resources fuel content = some (e, none) → noDouble '\x7b' e = true) :
    ∀ (fuel : Nat) (result : List Char) (begin : Nat) (r : List Char),
      noDouble '\x7b' (result.take begin) = true →
      replaceReferencesLoop resources fuel result begin = some (r, none) →
      firstReference r = none := by
  intro fuel
  induction fuel with
  | zero => intro result begin r _ h; simp [replaceReferencesLoop] at h
  | succ f ih =>
    intro result begin r hinv h
    rw [replaceReferencesLoop] at h
    have hcur := Index_open_of_cursor result begin hinv
    cases hi : strings.Index (result.drop begin) "\x7b\x7b".toList with
    | none =>
      rw [hi] at h hcur
      simp only [Option.some.injEq, Prod.mk.injEq, and_true] at h
      subst h
      unfold firstReference
      rw [hcur]
      rfl
    | some i =>
      rw [hi] at h hcur
      simp only at h
      have hle1 := strings.Index_some_le hi
      have hlen1 : (result.drop begin).length = result.length - begin := List.length_drop _ _
      have h2 : "\x7b\x7b".toList.length = 2 := rfl
      rw [h2] at hle1
      have htl : (result.take begin).length = begin := by
        rw [List.length_take]; omega
      rw [htl] at hcur
      cases hj : strings.Index (result.drop (i + begin + 2)) "\x7d\x7d".toList with
      | none =>
        rw [hj] at h
        simp only [Option.some.injEq, Prod.mk.injEq, and_true] at h
        subst h
        unfold firstReference
        rw [hcur]
        simp only [Option.map_some']
        rw [hj]
      | some j =>
        rw [hj] at h
        simp only at h
        cases hg : getResource resources
            (strings.TrimSpace (sliceStr result (i + begin + 2) (j + (i + begin + 2)))) with
        | error err => rw [hg] at h; simp at h
        | ok content =>
          rw [hg] at h
          simp only at h
          cases hrec : replaceReferencesLoop resources f content 0 with
          | none => rw [hrec] at h; cases h
          | some x =>
            obtain ⟨expanded, oe⟩ := x
            cases oe with
            | some e2 => rw [hrec] at h; simp at h
            | none =>
              rw [hrec] at h
              simp only at h
              have hexp : noDouble '\x7b' expanded = true := hstore _ content expanded f hg hrec
              exact ih _ _ r (replaceFirst_span result expanded begin i j hinv hexp hi hj) h

/-- C7, amended: when `replaceReferences` succeeds with an output `r` that holds no
reference span (no `{{` with a `}}` behind it), applying `replaceReferences` to `r`
succeeds and returns `r` again; and the output holds no span, so that this applies,
whenever every resource of the store expands to a content that has no `{{` and whose
last character is not `{`. -/
theorem replaceReferences_idempotent_without_span (resources : ResourceFS) (fuel : Nat)
    (text r : List Char) (h : replaceReferences resources fuel text = some (r, none)) :
    (firstReference r = none →
      ∀ fuel2, 1 ≤ fuel2 → replaceReferences resources fuel2 r = some (r, none))
    ∧ ((∀ (name content e : List Char) (fuel1 : Nat),
          getResource resources name = .ok content →
          replaceReferences resources fuel1 content = some (e, none) →
          noDouble '\x7b' e = true) →
      ∀ fuel2, 1 ≤ fuel2 → replaceReferences resources fuel2 r = some (r, none)) := by
  have key : firstReference r = none →
      ∀ fuel2, 1 ≤ fuel2 → replaceReferences resources fuel2 r = some (r, none) := by
    intro hr fuel2 h2
    obtain ⟨f, rfl⟩ : ∃ f, fuel2 = f + 1 := ⟨fuel2 - 1, by omega⟩
    exact replaceReferences_of_no_reference resources f r hr
  exact ⟨key, fun hstore =>
    key (replaceReferencesLoop_no_span resources hstore fuel text 0 r rfl h)⟩

/-- Instance of the amended C7: in `styleResources` the text `<html>{{ head }}</html>`
expands to a text without a span, which expands to itself. -/
theorem replaceReferences_idempotent_without_span_witness :
    replaceReferences styleResources 1
        "<html><style>a \x7b b \x7d</style></html>".toList
      = some ("<html><style>a \x7b b \x7d</style></html>".toList, none) :=
  (replaceReferences_idempotent_without_span styleResources 2
    "<html>\x7b\x7b head \x7d\x7d</html>".toList
    "<html><style>a \x7b b \x7d</style></html>".toList (by decide)).2
    (by
      intro name content e fuel1 hg hr
      unfold getResource styleResources at hg
      by_cases hp : "resources/".toList ++ name = "resources/head".toList
      · rw [if_pos hp] at hg
        cases hg
        cases fuel1 with
        | zero => simp [replaceReferences, replaceReferencesLoop] at hr
        | succ f =>
          rw [replaceReferences_of_no_reference styleResources f _ (by decide)] at hr
          simp only [Option.some.injEq, Prod.mk.injEq, and_true] at hr
          rw [← hr]
          decide
      · rw [if_neg hp] at hg
        cases hg)
    1 (by decide)

/-! ## `replacePlaceholders` -/

namespace strings

theorem ReplaceAllAux_fuel (old new : List Char) (hold : old ≠ []) :
    ∀ (n f1 f2 : Nat) (s : List Char), s.length ≤ n → s.length < f1 → s.length < f2 →
      ReplaceAllAux old new f1 s = ReplaceAllAux old new f2 s := by
  intro n
  induction n with
  | zero =>
    intro f1 f2 s hn h1 h2
    obtain ⟨a, rfl⟩ : ∃ a, f1 = a + 1 := ⟨f1 - 1, by omega⟩
    obtain ⟨b, rfl⟩ : ∃ b, f2 = b + 1 := ⟨f2 - 1, by omega⟩
    unfold ReplaceAllAux
    cases hi : Index s old with
    | none => rfl
    | some j =>
      have := Index_some_le hi
      have : 0 < old.length := List.length_pos.mpr hold
      omega
  | succ n ih =>
    intro f1 f2 s hn h1 h2
    obtain ⟨a, rfl⟩ : ∃ a, f1 = a + 1 := ⟨f1 - 1, by omega⟩
    obtain ⟨b, rfl⟩ : ∃ b, f2 = b + 1 := ⟨f2 - 1, by omega⟩
    unfold ReplaceAllAux
    cases hi : Index s old with
    | none => rfl
    | some j =>
      have hle := Index_some_le hi
      have hpos : 0 < old.length := List.length_pos.mpr hold
      have hlen : (s.drop (j + old.length)).length = s.length - (j + old.length) :=
        List.length_drop _ _
      simp only
      rw [ih a b (s.drop (j + old.length)) (by omega) (by omega) (by omega)]

theorem ReplaceAll_of_none {s old new : List Char} (hold : old ≠ [])
    (h : Index s old = none) : ReplaceAll s old new = s := by
  have he : old.isEmpty = false := by cases old <;> simp_all
  unfold ReplaceAll
  rw [he]
  simp only [Bool.false_eq_true, if_false]
  unfold ReplaceAllAux
  rw [h]

theorem ReplaceAll_of_some {s old new : List Char} {j : Nat} (hold : old ≠ [])
    (h : Index s old = some j) :
    ReplaceAll s old new
      = s.take j ++ new ++ ReplaceAll (s.drop (j + old.length)) old new := by
  have he : old.isEmpty = false := by cases old <;> simp_all
  have hle := Index_some_le h
  have hpos : 0 < old.length := List.length_pos.mpr hold
  have hlen : (s.drop (j + old.length)).length = s.length - (j + old.length) :=
    List.length_drop _ _
  unfold ReplaceAll
  rw [he]
  simp only [Bool.false_eq_true, if_false]
  conv_lhs => unfold ReplaceAllAux
  rw [h]
  simp only
  rw [ReplaceAllAux_fuel old new hold s.length s.length
    ((s.drop (j + old.length)).length + 1) _ (by omega) (by omega) (by omega)]

/-- A stretch `a` in front of which and inside which no occurrence of `old` starts is
copied by `ReplaceAll`. -/
theorem ReplaceAll_append_of_shift {a rest old new : List Char} (hold : old ≠ [])
    (h : Index (a ++ rest) old = (Index rest old).map (· + a.length)) :
    ReplaceAll (a ++ rest) old new = a ++ ReplaceAll rest old new := by
  cases hi : Index rest old with
  | none =>
    rw [hi] at h
    rw [ReplaceAll_of_none hold h, ReplaceAll_of_none hold hi]
  | some j =>
    rw [hi] at h
    simp only [Option.map_some'] at h
    rw [ReplaceAll_of_some hold h, ReplaceAll_of_some hold hi]
    have e1 : (a ++ rest).take (j + a.length) = a ++ rest.take j := by
      rw [Nat.add_comm, List.take_append]
    have e2 : (a ++ rest).drop (j + a.length + old.length) = rest.drop (j + old.length) := by
      have : j + a.length + old.length = a.length + (j + old.length) := by omega
      rw [this, List.drop_append]
    rw [e1, e2]
    simp

end strings

theorem placeholderOf_eq (key : List Char) :
    placeholderOf key = '(' :: '(' :: '%' :: ' ' :: (key ++ [' ', '%', ')', ')']) := by
  simp [placeholderOf]

theorem placeholderOf_ne_nil (key : List Char) : placeholderOf key ≠ [] := by
  rw [placeholderOf_eq]; simp

theorem Index_append_of_noDoubleParen (q a rest : List Char) (h : noDoubleParen a = true) :
    strings.Index (a ++ rest) ('(' :: '(' :: q)
      = (strings.Index rest ('(' :: '(' :: q)).map (· + a.length) :=
  strings.Index_append_of_noDouble '(' q a rest h

theorem noDoubleParen_of_not_mem (a : List Char) (h : '(' ∉ a) : noDoubleParen a = true :=
  strings.noDouble_of_not_mem '(' a h

/-- Two texts that agree up to the first occurrence of a character agree on the stretch
before it. -/
theorem eq_of_append_cons_eq (c : Char) :
    ∀ (a b x y : List Char), c ∉ a → c ∉ b → a ++ c :: x = b ++ c :: y → a = b
  | [], [], _, _, _, _, _ => rfl
  | [], e :: b, x, y, _, hb, h => by
    simp only [List.nil_append, List.cons_append, List.cons.injEq] at h
    exact absurd (by simp [h.1]) hb
  | e :: a, [], x, y, ha, _, h => by
    simp only [List.nil_append, List.cons_append, List.cons.injEq] at h
    exact absurd (by simp [h.1]) ha
  | e :: a, f :: b, x, y, ha, hb, h => by
    simp only [List.cons_append, List.cons.injEq] at h
    have := eq_of_append_cons_eq c a b x y (fun m => ha (by simp [m]))
      (fun m => hb (by simp [m])) h.2
    rw [h.1, this]

/-- The marker of a key is found at the start of a marker only for the same key. -/
theorem placeholderOf_isPrefixOf (k k2 rest : List Char) (hk : parenFree k)
    (hk2 : parenFree k2) (h : (placeholderOf k).isPrefixOf (placeholderOf k2 ++ rest) = true) :
    k = k2 := by
  obtain ⟨t, ht⟩ := List.isPrefixOf_iff_prefix.mp h
  rw [placeholderOf_eq, placeholderOf_eq] at ht
  simp only [List.cons_append, List.cons.injEq, true_and, List.append_assoc] at ht
  have e : (k ++ [' ', '%']) ++ ')' :: (')' :: t) = (k2 ++ [' ', '%']) ++ ')' :: (')' :: rest) := by
    simpa using ht
  have hn : ∀ key : List Char, parenFree key → ')' ∉ key ++ [' ', '%'] := by
    intro key hkey hm
    simp only [List.mem_append, List.mem_cons, List.mem_singleton] at hm
    rcases hm with hm | hm | hm | hm
    · exact hkey.2 hm
    · exact absurd hm (by decide)
    · exact absurd hm (by decide)
    · simp at hm
  have := eq_of_append_cons_eq ')' _ _ _ _ (hn k hk) (hn k2 hk2) e
  exact List.append_cancel_right this

/-- No occurrence of the marker of `k` starts inside the marker of another key. -/
theorem Index_placeholderOf_append (k k2 rest : List Char) (hk : parenFree k)
    (hk2 : parenFree k2) (hne : k2 ≠ k) :
    strings.Index (placeholderOf k2 ++ rest) (placeholderOf k)
      = (strings.Index rest (placeholderOf k)).map (· + (placeholderOf k2).length) := by
  have hp : (placeholderOf k).isPrefixOf (placeholderOf k2 ++ rest) = false := by
    cases hb : (placeholderOf k).isPrefixOf (placeholderOf k2 ++ rest) with
    | false => rfl
    | true => exact absurd (placeholderOf_isPrefixOf k k2 rest hk hk2 hb).symm hne
  have htail : noDoubleParen ('(' :: '%' :: ' ' :: (k2 ++ [' ', '%', ')', ')'])) = true := by
    have : noDoubleParen ('%' :: ' ' :: (k2 ++ [' ', '%', ')', ')'])) = true := by
      apply noDoubleParen_of_not_mem
      intro hm
      simp only [List.mem_append, List.mem_cons, List.mem_singleton] at hm
      rcases hm with hm | hm | hm | hm | hm | hm | hm | hm
      · exact absurd hm (by decide)
      · exact absurd hm (by decide)
      · exact hk2.1 hm
      · exact absurd hm (by decide)
      · exact absurd hm (by decide)
      · exact absurd hm (by decide)
      · exact absurd hm (by decide)
      · simp at hm
    have e : noDoubleParen ('(' :: '%' :: ' ' :: (k2 ++ [' ', '%', ')', ')']))
        = ((('(' : Char) != '(' || ('%' : Char) != '(')
            && noDoubleParen ('%' :: ' ' :: (k2 ++ [' ', '%', ')', ')']))) := by
      unfold noDoubleParen; rfl
    rw [e, this]
    decide
  have hsh := Index_append_of_noDoubleParen ('%' :: ' ' :: (k ++ [' ', '%', ')', ')']))
    ('(' :: '%' :: ' ' :: (k2 ++ [' ', '%', ')', ')'])) rest htail
  have e2 : placeholderOf k2 ++ rest
      = '(' :: (('(' :: '%' :: ' ' :: (k2 ++ [' ', '%', ')', ')'])) ++ rest) := by
    rw [placeholderOf_eq]; simp
  rw [e2] at hp ⊢
  rw [strings.Index_cons, hp]
  simp only [Bool.false_eq_true, if_false]
  rw [placeholderOf_eq k, hsh]
  cases strings.Index rest ('(' :: '(' :: '%' :: ' ' :: (k ++ [' ', '%', ')', ')'])) with
  | none => rfl
  | some j =>
    rw [placeholderOf_eq]
    simp [Nat.add_assoc]

/-- Replacing the marker of one key in a template of plain pieces replaces exactly the
pieces that are that marker. -/
theorem ReplaceAll_renderPieces (k v : List Char) (hk : parenFree k) :
    ∀ pieces : List TemplatePiece, (∀ p ∈ pieces, p.plain) →
      strings.ReplaceAll (renderPieces pieces) (placeholderOf k) v
        = renderPieces (pieces.map (TemplatePiece.subst k v))
  | [], _ => by
    have : strings.Index [] (placeholderOf k) = none := by
      rw [placeholderOf_eq]; simp [strings.Index, List.isPrefixOf]
    simpa [renderPieces] using strings.ReplaceAll_of_none (placeholderOf_ne_nil k) this
  | p :: ps, h => by
    have ih := ReplaceAll_renderPieces k v hk ps (fun q hq => h q (by simp [hq]))
    have hp : p.plain := h p (by simp)
    have hcons : ∀ q : TemplatePiece, renderPieces (q :: ps) = q.render ++ renderPieces ps := by
      intro q; simp [renderPieces]
    have hmap : renderPieces ((p :: ps).map (TemplatePiece.subst k v))
        = (TemplatePiece.subst k v p).render
          ++ renderPieces (ps.map (TemplatePiece.subst k v)) := by
      simp [renderPieces]
    rw [hcons, hmap, ← ih]
    cases p with
    | text s =>
      have hs : noDoubleParen s = true := hp
      apply strings.ReplaceAll_append_of_shift (placeholderOf_ne_nil k)
      rw [placeholderOf_eq]
      exact Index_append_of_noDoubleParen _ s _ hs
    | marker k2 =>
      have hk2 : parenFree k2 := hp
      by_cases hkk : k2 = k
      · subst hkk
        have hi : strings.Index (placeholderOf k2 ++ renderPieces ps) (placeholderOf k2) = some 0 :=
          strings.Index_of_isPrefixOf
            (List.isPrefixOf_iff_prefix.mpr (List.prefix_append _ _))
        show strings.ReplaceAll (placeholderOf k2 ++ renderPieces ps) (placeholderOf k2) v = _
        rw [strings.ReplaceAll_of_some (placeholderOf_ne_nil k2) hi]
        simp [TemplatePiece.subst, TemplatePiece.render]
      · have hsub : TemplatePiece.subst k v (.marker k2) = .marker k2 := by
          simp [TemplatePiece.subst, hkk]
        rw [hsub]
        exact strings.ReplaceAll_append_of_shift (placeholderOf_ne_nil k)
          (Index_placeholderOf_append k k2 _ hk hk2 hkk)

theorem TemplatePiece.plain_subst (k v : List Char) (hv : noDoubleParen v = true)
    (p : TemplatePiece) (hp : p.plain) : (TemplatePiece.subst k v p).plain := by
  cases p with
  | text s => exact hp
  | marker k2 =>
    by_cases hkk : k2 = k
    · simp only [TemplatePiece.subst, hkk, if_true]; exact hv
    · simp only [TemplatePiece.subst, hkk, if_false]; exact hp

/-- On a template of plain pieces `replacePlaceholders` acts piece by piece. -/
theorem replacePlaceholders_renderPieces :
    ∀ (kvs : List (List Char × List Char)) (pieces : List TemplatePiece),
      (∀ kv ∈ kvs, parenFree kv.1 ∧ noDoubleParen kv.2 = true) →
      (∀ p ∈ pieces, p.plain) →
      replacePlaceholders (renderPieces pieces) kvs
        = renderPieces
            (kvs.foldl (fun ps kv => ps.map (TemplatePiece.subst kv.1 kv.2)) pieces)
  | [], pieces, _, _ => rfl
  | kv :: kvs, pieces, hkv, hp => by
    have h1 := hkv kv (by simp)
    have step := ReplaceAll_renderPieces kv.1 kv.2 h1.1 pieces hp
    have hp2 : ∀ p ∈ pieces.map (TemplatePiece.subst kv.1 kv.2), p.plain := by
      intro p hm
      obtain ⟨q, hq, rfl⟩ := List.mem_map.mp hm
      exact TemplatePiece.plain_subst kv.1 kv.2 h1.2 q (hp q hq)
    have ih := replacePlaceholders_renderPieces kvs _ (fun x hx => hkv x (by simp [hx])) hp2
    unfold replacePlaceholders at ih ⊢
    simp only [List.foldl_cons]
    rw [step]
    exact ih

theorem TemplatePiece.subst_comm (k1 v1 k2 v2 : List Char) (h : k1 ≠ k2)
    (p : TemplatePiece) :
    TemplatePiece.subst k2 v2 (TemplatePiece.subst k1 v1 p)
      = TemplatePiece.subst k1 v1 (TemplatePiece.subst k2 v2 p) := by
  cases p with
  | text s => rfl
  | marker k =>
    by_cases h1 : k = k1 <;> by_cases h2 : k = k2
    · exact absurd (h1.symm.trans h2) h
    · subst h1
      simp [TemplatePiece.subst, h]
    · subst h2
      have h3 : ¬ (k = k1) := h1
      simp [TemplatePiece.subst, h3]
    · simp [TemplatePiece.subst, h1, h2]

/-- C8 as stated fails: with the value `((% svg %))` for the key `title`, the text
`((% title %))` becomes `S` when `title` is processed before `svg`, and `((% svg %))` when
`svg` is processed first; the keys are distinct. -/
theorem replacePlaceholders_order_matters :
    replacePlaceholders "((% title %))".toList
        [("title".toList, "((% svg %))".toList), ("svg".toList, "S".toList)] = "S".toList
      ∧ replacePlaceholders "((% title %))".toList
        [("svg".toList, "S".toList), ("title".toList, "((% svg %))".toList)]
          = "((% svg %))".toList
      ∧ List.Perm [("title".toList, "((% svg %))".toList), ("svg".toList, "S".toList)]
          [("svg".toList, "S".toList), ("title".toList, "((% svg %))".toList)]
      ∧ "title".toList ≠ "svg".toList
      ∧ html.EscapeString "((% svg %))".toList = "((% svg %))".toList := by
  refine ⟨by decide, by decide, List.Perm.swap _ _ _, by decide, by decide⟩

/-- C8, amended: on a text that is a sequence of markers `((% key %))`, whose keys have no
parenthesis, and of stretches of text in which every `(` is directly followed by a
character other than `(`, and for key/value pairs with distinct keys without parentheses
whose values are such stretches too, `replacePlaceholders` returns the same text in
whatever order the pairs are processed. -/
theorem replacePlaceholders_order_independent (pieces : List TemplatePiece)
    (kvs1 kvs2 : List (List Char × List Char)) (hperm : kvs1.Perm kvs2)
    (hnodup : (kvs1.map Prod.fst).Nodup)
    (hkvs : ∀ kv ∈ kvs1, parenFree kv.1 ∧ noDoubleParen kv.2 = true)
    (hpieces : ∀ p ∈ pieces, p.plain) :
    replacePlaceholders (renderPieces pieces) kvs1
      = replacePlaceholders (renderPieces pieces) kvs2 := by
  rw [replacePlaceholders_renderPieces kvs1 pieces hkvs hpieces,
    replacePlaceholders_renderPieces kvs2 pieces
      (fun kv h => hkvs kv (hperm.mem_iff.mpr h)) hpieces]
  congr 1
  apply List.Perm.foldl_eq' hperm
  intro x hx y hy ps
  by_cases hxy : x.1 = y.1
  · have : x = y := List.inj_on_of_nodup_map hnodup hx hy hxy
    rw [this]
  · simp only [List.map_map]
    apply List.map_congr_left
    intro p _
    exact TemplatePiece.subst_comm x.1 x.2 y.1 y.2 hxy p

/-- Instance of the amended C8 on the template `<h1>((% title %))</h1>((% svg %))` with
the keys `title` and `svg` in both orders. -/
theorem replacePlaceholders_order_independent_witness :
    replacePlaceholders
        (renderPieces [.text "<h1>".toList, .marker "title".toList, .text "</h1>".toList,
          .marker "svg".toList])
        [("title".toList, "f(x)".toList), ("svg".toList, "<svg/>".toList)]
      = replacePlaceholders
        (renderPieces [.text "<h1>".toList, .marker "title".toList, .text "</h1>".toList,
          .marker "svg".toList])
        [("svg".toList, "<svg/>".toList), ("title".toList, "f(x)".toList)] :=
  replacePlaceholders_order_independent _ _ _ (List.Perm.swap _ _ _) (by decide)
    (by
      intro kv h
      simp only [List.mem_cons, List.mem_singleton, List.not_mem_nil, or_false] at h
      rcases h with rfl | rfl <;> exact ⟨⟨by decide, by decide⟩, by decide⟩)
    (by
      intro p h
      simp only [List.mem_cons, List.mem_singleton, List.not_mem_nil, or_false] at h
      rcases h with rfl | rfl | rfl | rfl
      · show noDoubleParen _ = true; decide
      · exact ⟨by decide, by decide⟩
      · show noDoubleParen _ = true; decide
      · exact ⟨by decide, by decide⟩)

/-! ## The graphic identifier in `WriteHTML` -/

namespace strings

theorem Contains_append_mid (x sub y : List Char) : Contains (x ++ (sub ++ y)) sub = true := by
  unfold Contains
  induction x with
  | nil =>
    rw [List.nil_append,
      Index_of_isPrefixOf (List.isPrefixOf_iff_prefix.mpr (List.prefix_append _ _))]
    rfl
  | cons c x ih =>
    rw [List.cons_append, Index_cons]
    by_cases hp : sub.isPrefixOf (c :: (x ++ (sub ++ y))) = true
    · rw [if_pos hp]; rfl
    · rw [if_neg hp]
      cases hi : Index (x ++ (sub ++ y)) sub with
      | none => rw [hi] at ih; simp at ih
      | some j => rfl

end strings

/-- The block on a graphic `pre ++ "<svg" ++ attrs ++ ">" ++ post` whose first `<svg` is
the one shown and whose `attrs` hold no `>`: the identifier is inserted exactly when
neither spelling of `id="railway_svg"` occurs anywhere and `<svg attrs` holds no `id=`. -/
theorem svgWithRailwayID_eq (pre attrs post : List Char)
    (hfirst : strings.Index (pre ++ ("<svg".toList ++ (attrs ++ '>' :: post))) "<svg".toList
      = some pre.length)
    (hattrs : '>' ∉ attrs) :
    svgWithRailwayID (pre ++ ("<svg".toList ++ (attrs ++ '>' :: post))) =
      if strings.Contains (pre ++ ("<svg".toList ++ (attrs ++ '>' :: post)))
            "id=\"railway_svg\"".toList = false
          ∧ strings.Contains (pre ++ ("<svg".toList ++ (attrs ++ '>' :: post)))
            "id='railway_svg'".toList = false
          ∧ strings.Contains ("<svg".toList ++ attrs) "id=".toList = false
      then pre ++ ("<svg".toList ++ (attrs ++ (" id=\"railway_svg\"".toList ++ '>' :: post)))
      else pre ++ ("<svg".toList ++ (attrs ++ '>' :: post)) := by
  have hgt : '>' ∉ "<svg".toList ++ attrs := by
    intro h
    simp only [List.mem_append] at h
    rcases h with h | h
    · exact absurd h (by decide)
    · exact hattrs h
  have hdrop : (pre ++ ("<svg".toList ++ (attrs ++ '>' :: post))).drop pre.length
      = ("<svg".toList ++ attrs) ++ '>' :: post := by
    rw [List.drop_left]; simp
  have hend : strings.Index (("<svg".toList ++ attrs) ++ '>' :: post) ">".toList
      = some ("<svg".toList ++ attrs).length :=
    strings.Index_singleton_append '>' _ _ hgt
  have hre : pre ++ ("<svg".toList ++ (attrs ++ '>' :: post))
      = (pre ++ ("<svg".toList ++ attrs)) ++ '>' :: post := by simp
  have hlen : ("<svg".toList ++ attrs).length + pre.length
      = (pre ++ ("<svg".toList ++ attrs)).length := by simp; omega
  have htake : (pre ++ ("<svg".toList ++ (attrs ++ '>' :: post))).take
      (("<svg".toList ++ attrs).length + pre.length) = pre ++ ("<svg".toList ++ attrs) := by
    rw [hlen, hre, List.take_left]
  have hdrop2 : (pre ++ ("<svg".toList ++ (attrs ++ '>' :: post))).drop
      (("<svg".toList ++ attrs).length + pre.length) = '>' :: post := by
    rw [hlen, hre, List.drop_left]
  have hslice : sliceStr (pre ++ ("<svg".toList ++ (attrs ++ '>' :: post))) pre.length
      (("<svg".toList ++ attrs).length + pre.length) = "<svg".toList ++ attrs := by
    unfold sliceStr
    rw [htake, List.drop_left]
  unfold svgWithRailwayID
  simp only [hfirst, hdrop, hend, htake, hdrop2, hslice]
  cases h1 : strings.Contains (pre ++ ("<svg".toList ++ (attrs ++ '>' :: post)))
      "id=\"railway_svg\"".toList <;>
    cases h2 : strings.Contains (pre ++ ("<svg".toList ++ (attrs ++ '>' :: post)))
        "id='railway_svg'".toList <;>
    cases h3 : strings.Contains ("<svg".toList ++ attrs) "id=".toList <;>
    simp

/-- C9 as stated fails: the root tag of `<svg><g id="railway_svg"/></svg>` has no `id`
attribute, yet the graphic is left unchanged, because the identifier occurs further
down; and the root tag of `<svg grid="on"></svg>` has no `id` attribute either, yet
nothing is inserted. -/
theorem svgWithRailwayID_not_inserted :
    svgWithRailwayID "<svg><g id=\"railway_svg\"/></svg>".toList
        = "<svg><g id=\"railway_svg\"/></svg>".toList
      ∧ svgWithRailwayID "<svg><g id=\"railway_svg\"/></svg>".toList
        ≠ "<svg id=\"railway_svg\"><g id=\"railway_svg\"/></svg>".toList
      ∧ strings.Contains "<svg".toList "id=".toList = false
      ∧ svgWithRailwayID "<svg grid=\"on\"></svg>".toList = "<svg grid=\"on\"></svg>".toList := by
  decide

/-- C9, amended: for a graphic whose first `<svg` is followed by a `>`, with `attrs` the
text between them.  If the graphic holds neither `id="railway_svg"` nor
`id='railway_svg'` anywhere and `<svg attrs` holds no `id=`, the substituted graphic is the
original with ` id="railway_svg"` (a blank, then the attribute) inserted directly before
that `>` and every other character unchanged.  If the graphic holds one of the two
spellings anywhere, or `attrs` holds an attribute written `id=` after a white space
character, the graphic is substituted unchanged. -/
theorem svgWithRailwayID_inserts_once (pre attrs post : List Char)
    (hfirst : strings.Index (pre ++ ("<svg".toList ++ (attrs ++ '>' :: post))) "<svg".toList
      = some pre.length)
    (hattrs : '>' ∉ attrs) :
    (strings.Contains (pre ++ ("<svg".toList ++ (attrs ++ '>' :: post)))
          "id=\"railway_svg\"".toList = false →
      strings.Contains (pre ++ ("<svg".toList ++ (attrs ++ '>' :: post)))
          "id='railway_svg'".toList = false →
      strings.Contains ("<svg".toList ++ attrs) "id=".toList = false →
      svgWithRailwayID (pre ++ ("<svg".toList ++ (attrs ++ '>' :: post)))
        = pre ++ ("<svg".toList ++ (attrs ++ (" id=\"railway_svg\"".toList ++ '>' :: post))))
    ∧ (strings.Contains (pre ++ ("<svg".toList ++ (attrs ++ '>' :: post)))
          "id=\"railway_svg\"".toList = true
        ∨ strings.Contains (pre ++ ("<svg".toList ++ (attrs ++ '>' :: post)))
          "id='railway_svg'".toList = true →
      svgWithRailwayID (pre ++ ("<svg".toList ++ (attrs ++ '>' :: post)))
        = pre ++ ("<svg".toList ++ (attrs ++ '>' :: post)))
    ∧ (∀ (a b : List Char) (ws : Char), unicode.IsSpace ws = true →
        attrs = a ++ ws :: ("id=".toList ++ b) →
      svgWithRailwayID (pre ++ ("<svg".toList ++ (attrs ++ '>' :: post)))
        = pre ++ ("<svg".toList ++ (attrs ++ '>' :: post))) := by
  have key := svgWithRailwayID_eq pre attrs post hfirst hattrs
  refine ⟨?_, ?_, ?_⟩
  · intro h1 h2 h3
    rw [key, if_pos ⟨h1, h2, h3⟩]
  · intro h
    rw [key, if_neg]
    rintro ⟨h1, h2, _⟩
    rcases h with h | h
    · rw [h1] at h; cases h
    · rw [h2] at h; cases h
  · intro a b ws _ hab
    rw [key, if_neg]
    rintro ⟨_, _, h3⟩
    have : strings.Contains ("<svg".toList ++ attrs) "id=".toList = true := by
      have e : "<svg".toList ++ attrs = ("<svg".toList ++ a ++ [ws]) ++ ("id=".toList ++ b) := by
        rw [hab]; simp
      rw [e]
      exact strings.Contains_append_mid _ _ _
    rw [this] at h3
    cases h3

/-- Instance of the amended C9 on the graphic
`<?xml version="1.0"?><svg width="10"><g/></svg>`. -/
theorem svgWithRailwayID_inserts_once_witness :
    svgWithRailwayID ("<?xml version=\"1.0\"?>".toList
        ++ ("<svg".toList ++ (" width=\"10\"".toList ++ '>' :: "<g/></svg>".toList)))
      = "<?xml version=\"1.0\"?>".toList ++ ("<svg".toList ++ (" width=\"10\"".toList
          ++ (" id=\"railway_svg\"".toList ++ '>' :: "<g/></svg>".toList))) :=
  (svgWithRailwayID_inserts_once "<?xml version=\"1.0\"?>".toList " width=\"10\"".toList
    "<g/></svg>".toList (by decide) (by decide)).1 (by decide) (by decide) (by decide)

/-! ## `WriteHTML` -/

/-- C10: when loading the top-level template, serializing the commit records or expanding
the references fails, `WriteHTML` returns that error, wrapped with its context, and the
writer is as it was before the call; and whenever the writer has received anything, all
three steps had succeeded. -/
theorem WriteHTML_atomic_on_failure (resources : ResourceFS)
    (marshal : CommitDataMap → Except GoError (List Char))
    (rangeOrder : List (List Char × List Char) → List (List Char × List Char))
    (fuel : Nat) (w : ioWriter) (svgContent : List Char)
    (commitData : CommitDataMap) (title : List Char) :
    (∀ e, getResource resources "html_template.html".toList = .error e →
      WriteHTML resources marshal rangeOrder fuel w svgContent commitData title
        = some (w, some ("failed to load HTML template: ".toList ++ e)))
    ∧ (∀ t e, getResource resources "html_template.html".toList = .ok t →
      marshal commitData = .error e →
      WriteHTML resources marshal rangeOrder fuel w svgContent commitData title
        = some (w, some ("failed to marshal commit data: ".toList ++ e)))
    ∧ (∀ t j x e, getResource resources "html_template.html".toList = .ok t →
      marshal commitData = .ok j →
      replaceReferences resources fuel t = some (x, some e) →
      WriteHTML resources marshal rangeOrder fuel w svgContent commitData title
        = some (w, some ("failed to replace resource references: ".toList ++ e)))
    ∧ (∀ w2 err,
      WriteHTML resources marshal rangeOrder fuel w svgContent commitData title
        = some (w2, err) →
      w2 ≠ w →
      ∃ t j t2, getResource resources "html_template.html".toList = .ok t
        ∧ marshal commitData = .ok j
        ∧ replaceReferences resources fuel t = some (t2, none)) := by
  refine ⟨?_, ?_, ?_, ?_⟩
  · intro e h
    unfold WriteHTML
    rw [h]
  · intro t e h1 h2
    unfold WriteHTML
    rw [h1, h2]
  · intro t j x e h1 h2 h3
    unfold WriteHTML
    simp only [h1, h2, h3]
  · intro w2 err h hne
    unfold WriteHTML at h
    cases h1 : getResource resources "html_template.html".toList with
    | error e =>
      rw [h1] at h
      simp only [Option.some.injEq, Prod.mk.injEq] at h
      exact absurd h.1.symm hne
    | ok t =>
      simp only [h1] at h
      cases h2 : marshal commitData with
      | error e =>
        simp only [h2, Option.some.injEq, Prod.mk.injEq] at h
        exact absurd h.1.symm hne
      | ok j =>
        simp only [h2] at h
        cases h3 : replaceReferences resources fuel t with
        | none => simp [h3] at h
        | some r =>
          obtain ⟨t2, e2⟩ := r
          cases e2 with
          | some e =>
            simp only [h3, Option.some.injEq, Prod.mk.injEq] at h
            exact absurd h.1.symm hne
          | none => exact ⟨t, j, t2, rfl, rfl, h3⟩

/-- Instance of C10: the template of `nestedResources` refers to `outer`, which refers to
a missing resource; the writer keeps the bytes it had and receives nothing. -/
theorem WriteHTML_atomic_on_failure_witness :
    WriteHTML nestedResources (fun _ => .ok "\x7b\x7d".toList) (fun l => l) 5
        ⟨"earlier output".toList, none⟩ "<svg></svg>".toList (some []) "History".toList
      = some (⟨"earlier output".toList, none⟩,
          some ("failed to replace resource references: ".toList
            ++ ("failed to load resource inner: ".toList ++ notExist "resources/inner".toList))) :=
  (WriteHTML_atomic_on_failure nestedResources (fun _ => .ok "\x7b\x7d".toList) (fun l => l) 5
    ⟨"earlier output".toList, none⟩ "<svg></svg>".toList (some []) "History".toList).2.2.1
    "<html>\x7b\x7bouter\x7d\x7d</html>".toList "\x7b\x7d".toList []
    ("failed to load resource inner: ".toList ++ notExist "resources/inner".toList)
    rfl rfl (by decide)

/-! ## `GenerateCommitData` -/

namespace plumbing

theorem hexDigit_injective :
    ∀ a b : Fin 16, hexDigit a.val = hexDigit b.val → a = b := by decide

theorem hexPair_injective (a b : Fin 256)
    (h1 : hexDigit (a.val / 16) = hexDigit (b.val / 16))
    (h2 : hexDigit (a.val % 16) = hexDigit (b.val % 16)) : a = b := by
  have ha := a.isLt
  have hb := b.isLt
  have e1 := hexDigit_injective ⟨a.val / 16, by omega⟩ ⟨b.val / 16, by omega⟩ h1
  have e2 := hexDigit_injective ⟨a.val % 16, by omega⟩ ⟨b.val % 16, by omega⟩ h2
  simp only [Fin.mk.injEq] at e1 e2
  apply Fin.ext
  omega

theorem hex_injective :
    ∀ (x y : List (Fin 256)),
      x.flatMap (fun b => [hexDigit (b.val / 16), hexDigit (b.val % 16)])
        = y.flatMap (fun b => [hexDigit (b.val / 16), hexDigit (b.val % 16)]) → x = y
  | [], [], _ => rfl
  | [], b :: y, h => by simp at h
  | a :: x, [], h => by simp at h
  | a :: x, b :: y, h => by
    simp only [List.flatMap_cons, List.cons_append, List.nil_append, List.cons.injEq] at h
    rw [hexPair_injective a b h.1 h.2.1, hex_injective x y h.2.2]

theorem Hash.String_injective : Function.Injective Hash.String := by
  intro h1 h2 h
  cases h1 with
  | mk b1 s1 =>
    cases h2 with
    | mk b2 s2 =>
      have : b1 = b2 := hex_injective b1 b2 h
      subst this
      rfl

theorem Hash.String_length (h : Hash) : h.String.length = 40 := by
  have : ∀ x : List (Fin 256),
      (x.flatMap (fun b => [hexDigit (b.val / 16), hexDigit (b.val % 16)])).length
        = 2 * x.length := by
    intro x
    induction x with
    | nil => rfl
    | cons a x ih => simp only [List.flatMap_cons, List.length_append, ih]; simp; omega
  unfold Hash.String
  rw [this, h.size]

end plumbing

theorem commitRecord_Hash (now1 now2 : time.Time) (format : time.Time → List Char)
    (ghSlug : List Char) (hash : plumbing.Hash) (commit : object.Commit) :
    (commitRecord now1 now2 format ghSlug hash commit).Hash = hash.String.take 7 := by
  unfold commitRecord
  simp only
  split
  · rfl
  · rename_i h
    exact (List.take_of_length_le (by omega)).symm

theorem validCommits_cons_none (h : plumbing.Hash)
    (cs : List (plumbing.Hash × Option structs.CommitInfo)) :
    validCommits ((h, none) :: cs) = validCommits cs := by
  simp [validCommits]

theorem validCommits_cons_nil (h : plumbing.Hash)
    (cs : List (plumbing.Hash × Option structs.CommitInfo)) :
    validCommits ((h, some ⟨none⟩) :: cs) = validCommits cs := by
  simp [validCommits]

theorem validCommits_cons_some (h : plumbing.Hash) (c : object.Commit)
    (cs : List (plumbing.Hash × Option structs.CommitInfo)) :
    validCommits ((h, some ⟨some c⟩) :: cs) = (h, c) :: validCommits cs := by
  simp [validCommits]

theorem mapSet_of_not_mem (result : List (List Char × CommitData)) (key : List Char)
    (value : CommitData) (h : key ∉ result.map Prod.fst) :
    mapSet result key value = result ++ [(key, value)] := by
  unfold mapSet
  have : result.any (fun e => e.1 == key) = false := by
    rw [List.any_eq_false]
    intro e he hk
    apply h
    have : e.1 = key := by simpa using hk
    rw [← this]
    exact List.mem_map_of_mem _ he
  rw [this]
  simp

/-- The loop of `GenerateCommitData` appends one record per valid commit as long as the
keys are new. -/
theorem GenerateCommitData_foldl (clock : plumbing.Hash → time.Time × time.Time)
    (format : time.Time → List Char)
    (ghSlug : List Char) :
    ∀ (commits : List (plumbing.Hash × Option structs.CommitInfo))
      (acc : List (List Char × CommitData)),
      (acc.map Prod.fst ++ (validCommits commits).map (fun e => e.1.String)).Nodup →
      commits.foldl (fun result entry =>
        match entry.2 with
        | none => result
        | some ci =>
          match ci.Commit with
          | none => result
          | some commit =>
            mapSet result entry.1.String
              (commitRecord (clock entry.1).1 (clock entry.1).2 format ghSlug entry.1 commit))
        acc
      = acc ++ (validCommits commits).map
          (fun e => (e.1.String, commitRecord (clock e.1).1 (clock e.1).2 format ghSlug e.1 e.2))
  | [], acc, _ => by simp [validCommits]
  | (h, none) :: cs, acc, hn => by
    rw [validCommits_cons_none] at hn ⊢
    simp only [List.foldl_cons]
    exact GenerateCommitData_foldl clock format ghSlug cs acc hn
  | (h, some ⟨none⟩) :: cs, acc, hn => by
    rw [validCommits_cons_nil] at hn ⊢
    simp only [List.foldl_cons]
    exact GenerateCommitData_foldl clock format ghSlug cs acc hn
  | (h, some ⟨some c⟩) :: cs, acc, hn => by
    rw [validCommits_cons_some] at hn ⊢
    simp only [List.foldl_cons, List.map_cons]
    have hk : h.String ∉ acc.map Prod.fst := by
      intro hm
      have := (List.nodup_append.mp hn).2.2
      exact this hm (by simp)
    rw [mapSet_of_not_mem acc _ _ hk]
    have hn2 : ((acc ++ [(h.String, commitRecord (clock h).1 (clock h).2 format ghSlug h c)]).map Prod.fst
        ++ (validCommits cs).map (fun e => e.1.String)).Nodup := by
      simpa using hn
    rw [GenerateCommitData_foldl clock format ghSlug cs _ hn2]
    simp

theorem validCommits_keys_nodup (commits : List (plumbing.Hash × Option structs.CommitInfo))
    (hn : (commits.map Prod.fst).Nodup) :
    ((validCommits commits).map Prod.fst).Nodup := by
  induction commits with
  | nil => simp [validCommits]
  | cons e cs ih =>
    obtain ⟨h, ci⟩ := e
    simp only [List.map_cons, List.nodup_cons] at hn
    have hsub : ∀ x ∈ (validCommits cs).map Prod.fst, x ∈ cs.map Prod.fst := by
      intro x hx
      obtain ⟨⟨h2, c2⟩, hm, rfl⟩ := List.mem_map.mp hx
      unfold validCommits at hm
      obtain ⟨⟨h3, ci3⟩, hm3, heq⟩ := List.mem_filterMap.mp hm
      cases ci3 with
      | none => simp at heq
      | some ci4 =>
        cases ci4 with
        | mk oc =>
          cases oc with
          | none => simp at heq
          | some c4 =>
            simp only [Option.some.injEq, Prod.mk.injEq] at heq
            rw [← heq.1]
            exact List.mem_map_of_mem Prod.fst hm3
    cases ci with
    | none => rw [validCommits_cons_none]; exact ih hn.2
    | some ci2 =>
      cases ci2 with
      | mk oc =>
        cases oc with
        | none => rw [validCommits_cons_nil]; exact ih hn.2
        | some c =>
          rw [validCommits_cons_some]
          simp only [List.map_cons, List.nodup_cons]
          exact ⟨fun hx => hn.1 (hsub h hx), ih hn.2⟩

/-- On a map, `GenerateCommitData` returns one record per valid commit, under the full hash
string. -/
theorem GenerateCommitData_eq (clock : plumbing.Hash → time.Time × time.Time)
    (format : time.Time → List Char)
    (ghSlug : List Char) (commits : List (plumbing.Hash × Option structs.CommitInfo))
    (hn : (commits.map Prod.fst).Nodup) :
    GenerateCommitData clock format commits ghSlug
      = (validCommits commits).map
          (fun e => (e.1.String, commitRecord (clock e.1).1 (clock e.1).2 format ghSlug e.1 e.2)) := by
  unfold GenerateCommitData
  have hk : ((validCommits commits).map (fun e => e.1.String)).Nodup := by
    have := (validCommits_keys_nodup commits hn).map plumbing.Hash.String_injective
    simpa [List.map_map] using this
  rw [GenerateCommitData_foldl clock format ghSlug commits [] (by simpa using hk)]
  simp
theorem mem_validCommits (commits : List (plumbing.Hash × Option structs.CommitInfo))
    (h : plumbing.Hash) (c : object.Commit) :
    (h, c) ∈ validCommits commits ↔ (h, some ⟨some c⟩) ∈ commits := by
  unfold validCommits
  rw [List.mem_filterMap]
  constructor
  · rintro ⟨⟨h3, ci3⟩, hm3, heq⟩
    cases ci3 with
    | none => simp at heq
    | some ci4 =>
      cases ci4 with
      | mk oc =>
        cases oc with
        | none => simp at heq
        | some c4 =>
          simp only [Option.some.injEq, Prod.mk.injEq] at heq
          rw [← heq.1, ← heq.2]
          exact hm3
  · intro hm
    exact ⟨(h, some ⟨some c⟩), hm, rfl⟩

/-- C11: for a commit map (distinct keys), the keys of the result of `GenerateCommitData`
are exactly the full hash strings of the entries whose commit info and commit are both
non-nil, one entry each, and in every entry the field `Hash` is the first 7 characters of
the key. -/
theorem GenerateCommitData_keys (clock : plumbing.Hash → time.Time × time.Time)
    (format : time.Time → List Char)
    (ghSlug : List Char) (commits : List (plumbing.Hash × Option structs.CommitInfo))
    (hn : (commits.map Prod.fst).Nodup) :
    (GenerateCommitData clock format commits ghSlug).map Prod.fst
        = (validCommits commits).map (fun e => e.1.String)
      ∧ ((GenerateCommitData clock format commits ghSlug).map Prod.fst).Nodup
      ∧ (∀ key, key ∈ (GenerateCommitData clock format commits ghSlug).map Prod.fst ↔
          ∃ hash commit, (hash, some ⟨some commit⟩) ∈ commits ∧ key = hash.String)
      ∧ (∀ e ∈ GenerateCommitData clock format commits ghSlug,
          e.2.Hash = e.1.take 7 ∧ e.2.Hash.length = 7) := by
  have hk : ((validCommits commits).map (fun e => e.1.String)).Nodup := by
    have := (validCommits_keys_nodup commits hn).map plumbing.Hash.String_injective
    simpa [List.map_map] using this
  have hkeys : (GenerateCommitData clock format commits ghSlug).map Prod.fst
      = (validCommits commits).map (fun e => e.1.String) := by
    rw [GenerateCommitData_eq clock format ghSlug commits hn, List.map_map]
    rfl
  refine ⟨hkeys, by rw [hkeys]; exact hk, ?_, ?_⟩
  · intro key
    rw [hkeys, List.mem_map]
    constructor
    · rintro ⟨⟨h, c⟩, hm, rfl⟩
      exact ⟨h, c, (mem_validCommits commits h c).mp hm, rfl⟩
    · rintro ⟨h, c, hm, rfl⟩
      exact ⟨(h, c), (mem_validCommits commits h c).mpr hm, rfl⟩
  · intro e he
    rw [GenerateCommitData_eq clock format ghSlug commits hn] at he
    obtain ⟨⟨h, c⟩, _, rfl⟩ := List.mem_map.mp he
    simp only
    rw [commitRecord_Hash]
    refine ⟨rfl, ?_⟩
    rw [List.length_take, plumbing.Hash.String_length]
    rfl

/-- Instance of C11: a map with one valid commit, one nil commit info and one commit info
whose commit is nil. -/
theorem GenerateCommitData_keys_witness :
    (GenerateCommitData (fun _ => (⟨0⟩, ⟨0⟩)) (fun _ => [])
        [(hashA, some ⟨some ⟨"fix bug".toList, someone, someone⟩⟩), (hashB, none),
          (hashC, some ⟨none⟩)] []).map Prod.fst
        = (validCommits
            [(hashA, some ⟨some ⟨"fix bug".toList, someone, someone⟩⟩), (hashB, none),
              (hashC, some ⟨none⟩)]).map (fun e => e.1.String) :=
  (GenerateCommitData_keys (fun _ => (⟨0⟩, ⟨0⟩)) (fun _ => [])  []
    [(hashA, some ⟨some ⟨"fix bug".toList, someone, someone⟩⟩), (hashB, none),
      (hashC, some ⟨none⟩)] (by decide)).1

/-- C12: for every valid commit of a commit map, the result holds a record under its hash,
and in that record `IsBreaking` is true if and only if the full message contains
`BREAKING CHANGE:`. -/
theorem GenerateCommitData_isBreaking (clock : plumbing.Hash → time.Time × time.Time)
    (format : time.Time → List Char)
    (ghSlug : List Char) (commits : List (plumbing.Hash × Option structs.CommitInfo))
    (hn : (commits.map Prod.fst).Nodup) (hash : plumbing.Hash) (commit : object.Commit)
    (hm : (hash, some ⟨some commit⟩) ∈ commits) :
    (∃ d, (hash.String, d) ∈ GenerateCommitData clock format commits ghSlug)
      ∧ (∀ d, (hash.String, d) ∈ GenerateCommitData clock format commits ghSlug →
          (d.Message.IsBreaking = true
            ↔ strings.Contains commit.Message "BREAKING CHANGE:".toList = true)) := by
  have hv := (mem_validCommits commits hash commit).mpr hm
  rw [GenerateCommitData_eq clock format ghSlug commits hn]
  constructor
  · exact ⟨_, List.mem_map.mpr ⟨(hash, commit), hv, rfl⟩⟩
  · intro d hd
    obtain ⟨⟨h2, c2⟩, hm2, heq⟩ := List.mem_map.mp hd
    simp only [Prod.mk.injEq] at heq
    have hh : h2 = hash := plumbing.Hash.String_injective heq.1
    subst hh
    have hc : (h2, c2) = (h2, commit) :=
      List.inj_on_of_nodup_map (validCommits_keys_nodup commits hn) hm2 hv rfl
    simp only [Prod.mk.injEq, true_and] at hc
    subst hc
    rw [← heq.2]
    rfl

/-- Instance of C12 on a map with one commit whose body announces a breaking change. -/
theorem GenerateCommitData_isBreaking_witness :
    (∃ d, (hashA.String, d) ∈ GenerateCommitData (fun _ => (⟨0⟩, ⟨0⟩)) (fun _ => [])
        [(hashA, some ⟨some ⟨"feat: x\n\nBREAKING CHANGE: y".toList, someone, someone⟩⟩)] [])
      ∧ (∀ d, (hashA.String, d) ∈ GenerateCommitData (fun _ => (⟨0⟩, ⟨0⟩)) (fun _ => [])
          [(hashA, some ⟨some ⟨"feat: x\n\nBREAKING CHANGE: y".toList, someone, someone⟩⟩)] [] →
          (d.Message.IsBreaking = true
            ↔ strings.Contains "feat: x\n\nBREAKING CHANGE: y".toList
                "BREAKING CHANGE:".toList = true)) :=
  GenerateCommitData_isBreaking (fun _ => (⟨0⟩, ⟨0⟩)) (fun _ => []) []
    [(hashA, some ⟨some ⟨"feat: x\n\nBREAKING CHANGE: y".toList, someone, someone⟩⟩)]
    (by decide) hashA ⟨"feat: x\n\nBREAKING CHANGE: y".toList, someone, someone⟩
    (by simp)

/-- C13: for a commit set of one commit with the message
`feat(api): add login\n\nBREAKING CHANGE: token format changed` and one with the message
`fix bug`, and an empty slug, the result has exactly two records; the message of the first
is type `feat`, scope `api`, title `add login`, body
`BREAKING CHANGE: token format changed`, breaking; the message of the second is empty
type and scope, title `fix bug`, empty body, not breaking. -/
theorem GenerateCommitData_end_to_end (clock : plumbing.Hash → time.Time × time.Time)
    (format : time.Time → List Char)
    (h1 h2 : plumbing.Hash) (a1 c1 a2 c2 : object.Signature) (hne : h1 ≠ h2) :
    ∃ d1 d2,
      GenerateCommitData clock format
        [(h1, some ⟨some ⟨"feat(api): add login\n\nBREAKING CHANGE: token format changed".toList,
            a1, c1⟩⟩),
          (h2, some ⟨some ⟨"fix bug".toList, a2, c2⟩⟩)] []
        = [(h1.String, d1), (h2.String, d2)]
      ∧ d1.Message = ⟨"feat".toList, "api".toList, "add login".toList,
          "BREAKING CHANGE: token format changed".toList, true⟩
      ∧ d2.Message = ⟨[], [], "fix bug".toList, [], false⟩ := by
  have e1 : commitMessageOf
      "feat(api): add login\n\nBREAKING CHANGE: token format changed".toList []
      = ⟨"feat".toList, "api".toList, "add login".toList,
          "BREAKING CHANGE: token format changed".toList, true⟩ := by decide
  have e2 : commitMessageOf "fix bug".toList [] = ⟨[], [], "fix bug".toList, [], false⟩ := by
    decide
  refine ⟨commitRecord (clock h1).1 (clock h1).2 format [] h1
      ⟨"feat(api): add login\n\nBREAKING CHANGE: token format changed".toList, a1, c1⟩,
    commitRecord (clock h2).1 (clock h2).2 format [] h2 ⟨"fix bug".toList, a2, c2⟩, ?_, e1, e2⟩
  rw [GenerateCommitData_eq clock format [] _ (by simp [hne])]
  rw [validCommits_cons_some, validCommits_cons_some]
  rfl

/-- Instance of C13 with two concrete hashes. -/
theorem GenerateCommitData_end_to_end_witness :
    ∃ d1 d2,
      GenerateCommitData (fun _ => (⟨0⟩, ⟨0⟩)) (fun _ => [])
        [(hashA, some ⟨some ⟨"feat(api): add login\n\nBREAKING CHANGE: token format changed".toList,
            someone, someone⟩⟩),
          (hashB, some ⟨some ⟨"fix bug".toList, someone, someone⟩⟩)] []
        = [(hashA.String, d1), (hashB.String, d2)]
      ∧ d1.Message = ⟨"feat".toList, "api".toList, "add login".toList,
          "BREAKING CHANGE: token format changed".toList, true⟩
      ∧ d2.Message = ⟨[], [], "fix bug".toList, [], false⟩ :=
  GenerateCommitData_end_to_end (fun _ => (⟨0⟩, ⟨0⟩)) (fun _ => []) hashA hashB someone someone someone someone
    (by decide)
/-! ## The serialized commit records -/

set_option maxRecDepth 100000

namespace json

theorem mem_insertByKey {α : Type} (e x : List Char × α) :
    ∀ l : List (List Char × α), x ∈ insertByKey e l ↔ x = e ∨ x ∈ l
  | [] => by simp [insertByKey]
  | y :: ys => by
    unfold insertByKey
    by_cases h : strLE e.1 y.1 = true
    · rw [if_pos h]; simp
    · rw [if_neg h, List.mem_cons, mem_insertByKey e x ys, List.mem_cons]
      constructor
      · rintro (h1 | h1 | h1)
        · exact Or.inr (Or.inl h1)
        · exact Or.inl h1
        · exact Or.inr (Or.inr h1)
      · rintro (h1 | h1 | h1)
        · exact Or.inr (Or.inl h1)
        · exact Or.inl h1
        · exact Or.inr (Or.inr h1)

/-- Sorting a map by key keeps its entries. -/
theorem mem_sortByKey {α : Type} (x : List Char × α) :
    ∀ l : List (List Char × α), x ∈ sortByKey l ↔ x ∈ l
  | [] => by simp [sortByKey]
  | y :: ys => by
    have ih := mem_sortByKey x ys
    unfold sortByKey at ih ⊢
    rw [List.foldr_cons, mem_insertByKey, ih, List.mem_cons]

theorem intercalate_cons_cons (sep a b : List Char) (l : List (List Char)) :
    sep.intercalate (a :: b :: l) = a ++ sep ++ sep.intercalate (b :: l) := by
  simp [List.intercalate, List.intersperse]

/-- An element of a list stands in the joined text. -/
theorem intercalate_mem (sep x : List Char) :
    ∀ l : List (List Char), x ∈ l → ∃ pre post, sep.intercalate l = pre ++ x ++ post
  | [], h => by simp at h
  | [a], h => by
    have : x = a := by simpa using h
    subst this
    exact ⟨[], [], by simp [List.intercalate, List.intersperse]⟩
  | a :: b :: l, h => by
    rw [intercalate_cons_cons]
    rcases List.mem_cons.mp h with h1 | h1
    · subst h1
      exact ⟨[], sep ++ sep.intercalate (b :: l), by simp⟩
    · obtain ⟨pre, post, e⟩ := intercalate_mem sep x (b :: l) h1
      exact ⟨a ++ sep ++ pre, post, by rw [e]; simp⟩

end json

theorem quote_key_type :
    json.quote ['t', 'y', 'p', 'e']
      = ['\"', 't', 'y', 'p', 'e', '\"'] := by
  decide

theorem quote_key_scope :
    json.quote ['s', 'c', 'o', 'p', 'e']
      = ['\"', 's', 'c', 'o', 'p', 'e', '\"'] := by
  decide

theorem quote_key_title :
    json.quote ['t', 'i', 't', 'l', 'e']
      = ['\"', 't', 'i', 't', 'l', 'e', '\"'] := by
  decide

theorem quote_key_body :
    json.quote ['b', 'o', 'd', 'y']
      = ['\"', 'b', 'o', 'd', 'y', '\"'] := by
  decide

theorem quote_key_is_breaking :
    json.quote ['i', 's', '_', 'b', 'r', 'e', 'a', 'k', 'i', 'n', 'g']
      = ['\"', 'i', 's', '_', 'b', 'r', 'e', 'a', 'k', 'i', 'n', 'g', '\"'] := by
  decide

theorem quote_key_hash :
    json.quote ['h', 'a', 's', 'h']
      = ['\"', 'h', 'a', 's', 'h', '\"'] := by
  decide

theorem quote_key_author :
    json.quote ['a', 'u', 't', 'h', 'o', 'r']
      = ['\"', 'a', 'u', 't', 'h', 'o', 'r', '\"'] := by
  decide

theorem quote_key_committer :
    json.quote ['c', 'o', 'm', 'm', 'i', 't', 't', 'e', 'r']
      = ['\"', 'c', 'o', 'm', 'm', 'i', 't', 't', 'e', 'r', '\"'] := by
  decide

theorem quote_key_message :
    json.quote ['m', 'e', 's', 's', 'a', 'g', 'e']
      = ['\"', 'm', 'e', 's', 's', 'a', 'g', 'e', '\"'] := by
  decide

theorem quote_key_authored_date :
    json.quote ['a', 'u', 't', 'h', 'o', 'r', 'e', 'd', '_', 'd', 'a', 't', 'e']
      = ['\"', 'a', 'u', 't', 'h', 'o', 'r', 'e', 'd', '_', 'd', 'a', 't', 'e', '\"'] := by
  decide

theorem quote_key_committed_date :
    json.quote ['c', 'o', 'm', 'm', 'i', 't', 't', 'e', 'd', '_', 'd', 'a', 't', 'e']
      = ['\"', 'c', 'o', 'm', 'm', 'i', 't', 't', 'e', 'd', '_', 'd', 'a', 't', 'e', '\"'] := by
  decide

theorem quote_key_authored_date_delta :
    json.quote ['a', 'u', 't', 'h', 'o', 'r', 'e', 'd', '_', 'd', 'a', 't', 'e', '_', 'd', 'e', 'l', 't', 'a']
      = ['\"', 'a', 'u', 't', 'h', 'o', 'r', 'e', 'd', '_', 'd', 'a', 't', 'e', '_', 'd', 'e', 'l', 't', 'a', '\"'] := by
  decide

theorem quote_key_committed_date_delta :
    json.quote ['c', 'o', 'm', 'm', 'i', 't', 't', 'e', 'd', '_', 'd', 'a', 't', 'e', '_', 'd', 'e', 'l', 't', 'a']
      = ['\"', 'c', 'o', 'm', 'm', 'i', 't', 't', 'e', 'd', '_', 'd', 'a', 't', 'e', '_', 'd', 'e', 'l', 't', 'a', '\"'] := by
  decide

/-- The text that `encoding/json` writes for a `CommitMessage`. -/
theorem CommitMessage_object_text (m : CommitMessage) :
    json.object m.jsonMembers
      = "\x7b".toList
        ++ (if m.Type_ = [] then [] else "\"type\":".toList ++ json.quote m.Type_ ++ ",".toList)
        ++ (if m.Scope = [] then [] else "\"scope\":".toList ++ json.quote m.Scope ++ ",".toList)
        ++ "\"title\":".toList ++ json.quote m.Title
        ++ ",\"body\":".toList ++ json.quote m.Body
        ++ ",\"is_breaking\":".toList
        ++ (if m.IsBreaking = true then "true".toList else "false".toList)
        ++ "\x7d".toList := by
  unfold json.object CommitMessage.jsonMembers json.bool
  cases hT : m.Type_ <;> cases hS : m.Scope <;>
    simp [List.intercalate, List.intersperse, quote_key_type, quote_key_scope, quote_key_title,
      quote_key_body, quote_key_is_breaking]

/-- The text that `encoding/json` writes for a `CommitData`. -/
theorem CommitData_object_text (d : CommitData) :
    json.object d.jsonMembers
      = "\x7b\"hash\":".toList ++ json.quote d.Hash
        ++ ",\"author\":".toList ++ json.quote d.Author
        ++ ",\"committer\":".toList ++ json.quote d.Committer
        ++ ",\"message\":".toList ++ json.object d.Message.jsonMembers
        ++ ",\"authored_date\":".toList ++ json.quote d.AuthoredDate
        ++ ",\"committed_date\":".toList ++ json.quote d.CommittedDate
        ++ ",\"authored_date_delta\":".toList ++ json.quote d.AuthoredDateDelta
        ++ ",\"committed_date_delta\":".toList ++ json.quote d.CommittedDateDelta
        ++ "\x7d".toList := by
  generalize hm : json.object d.Message.jsonMembers = mtext
  unfold CommitData.jsonMembers
  rw [hm]
  unfold json.object
  simp [List.intercalate, List.intersperse, quote_key_hash, quote_key_author,
    quote_key_committer, quote_key_message, quote_key_authored_date, quote_key_committed_date,
    quote_key_authored_date_delta, quote_key_committed_date_delta]

/-- The payload of a non-nil map holds, for every entry, the quoted key, a colon and the
object of the record. -/
theorem marshalCommitData_entry (entries : List (List Char × CommitData)) (key : List Char)
    (d : CommitData) (hmem : (key, d) ∈ entries) :
    ∃ pre post, marshalCommitData (some entries)
      = pre ++ (json.quote key ++ ":".toList ++ json.object d.jsonMembers) ++ post := by
  unfold marshalCommitData
  simp only
  have hm : (key, json.object d.jsonMembers)
      ∈ (json.sortByKey entries).map (fun e => (e.1, json.object e.2.jsonMembers)) :=
    List.mem_map.mpr ⟨(key, d), (json.mem_sortByKey _ _).mpr hmem, rfl⟩
  have hm2 : json.quote key ++ ':' :: json.object d.jsonMembers
      ∈ ((json.sortByKey entries).map (fun e => (e.1, json.object e.2.jsonMembers))).map
          (fun m => json.quote m.1 ++ ':' :: m.2) :=
    List.mem_map.mpr ⟨_, hm, rfl⟩
  obtain ⟨pre, post, e⟩ := json.intercalate_mem ",".toList _ _ hm2
  refine ⟨'\x7b' :: pre, post ++ ['\x7d'], ?_⟩
  have ho : ∀ l : List (List Char × List Char), json.object l
      = '\x7b' :: (",".toList.intercalate (l.map (fun m => json.quote m.1 ++ ':' :: m.2))
          ++ ['\x7d']) := fun _ => rfl
  conv_lhs => rw [ho, e]
  simp

/-- C14 as stated fails: the record of the commit `fix bug` has an empty type and an empty
scope, and its message object carries only `title`, `body` and `is_breaking`; the
serialized payload holds neither `"type"` nor `"scope"`, and neither does the page that
`WriteHTML` writes from the template `<script>const data = ((% data %));</script>`. -/
theorem jsonMembers_omits_empty :
    (commitMessageOf "fix bug".toList []).jsonMembers.map Prod.fst
        = ["title".toList, "body".toList, "is_breaking".toList]
      ∧ "type".toList ∉ (commitMessageOf "fix bug".toList []).jsonMembers.map Prod.fst
      ∧ "scope".toList ∉ (commitMessageOf "fix bug".toList []).jsonMembers.map Prod.fst
      ∧ strings.Contains
          (marshalCommitData (some (GenerateCommitData (fun _ => (⟨0⟩, ⟨0⟩)) (fun _ => [])
            [(hashA, some ⟨some ⟨"fix bug".toList, someone, someone⟩⟩)] [])))
          "\"type\"".toList = false
      ∧ strings.Contains
          (marshalCommitData (some (GenerateCommitData (fun _ => (⟨0⟩, ⟨0⟩)) (fun _ => [])
            [(hashA, some ⟨some ⟨"fix bug".toList, someone, someone⟩⟩)] [])))
          "\"scope\"".toList = false
      ∧ strings.Contains
          (marshalCommitData (some (GenerateCommitData (fun _ => (⟨0⟩, ⟨0⟩)) (fun _ => [])
            [(hashA, some ⟨some ⟨"fix bug".toList, someone, someone⟩⟩)] [])))
          "\"message\":\x7b\"title\":\"fix bug\",\"body\":\"\",\"is_breaking\":false\x7d".toList
          = true
      ∧ WriteHTML dataResources jsonMarshal (fun l => l) 1 ⟨[], none⟩ "<svg/>".toList
          (some (GenerateCommitData (fun _ => (⟨0⟩, ⟨0⟩)) (fun _ => [])
            [(hashA, some ⟨some ⟨"fix bug".toList, someone, someone⟩⟩)] [])) "T".toList
        = some (⟨"<script>const data = \x7b\"aaaaaaaaaaaaaaaaaaaaaaaaaaaaaaaaaaaaaaaa\":\x7b\"hash\":\"aaaaaaa\",\"author\":\"\\u003ca href=\\\"mailto:ann@example.org\\\"\\u003eAnn\\u003c/a\\u003e\",\"committer\":\"\\u003ca href=\\\"mailto:ann@example.org\\\"\\u003eAnn\\u003c/a\\u003e\",\"message\":\x7b\"title\":\"fix bug\",\"body\":\"\",\"is_breaking\":false\x7d,\"authored_date\":\"\",\"committed_date\":\"\",\"authored_date_delta\":\"just now\",\"committed_date_delta\":\"just now\"\x7d\x7d;</script>".toList,
            none⟩, none) := by
  decide

/-- The message object of every commit record carries the keys `title`,
`body` and `is_breaking`, preceded by `type` exactly when the type is not empty and by
`scope` exactly when the scope is not empty; the record itself carries `hash`, `author`,
`committer`, `message`, `authored_date`, `committed_date`, `authored_date_delta` and
`committed_date_delta`. -/
theorem jsonMembers_keys (d : CommitData) :
    d.Message.jsonMembers.map Prod.fst
        = (if d.Message.Type_ = [] then [] else ["type".toList])
          ++ (if d.Message.Scope = [] then [] else ["scope".toList])
          ++ ["title".toList, "body".toList, "is_breaking".toList]
      ∧ d.jsonMembers.map Prod.fst
        = ["hash".toList, "author".toList, "committer".toList, "message".toList,
            "authored_date".toList, "committed_date".toList, "authored_date_delta".toList,
            "committed_date_delta".toList] := by
  refine ⟨?_, rfl⟩
  unfold CommitMessage.jsonMembers
  cases hT : d.Message.Type_ <;> cases hS : d.Message.Scope <;> simp

/-- C14, amended: in the payload that `WriteHTML` embeds for a non-nil map, every commit
record stands as its quoted key, a colon and an object with the keys `hash`, `author`,
`committer`, `message`, `authored_date`, `committed_date`, `authored_date_delta` and
`committed_date_delta` in this order; the message object carries `title`, `body` and
`is_breaking`, preceded by `type` exactly when the type is not empty and by `scope` exactly
when the scope is not empty.  `WriteHTML` hands this text (and `null` for the nil map) to
`replacePlaceholders` as the value of `data` and writes the result. -/
theorem marshalCommitData_record_text (resources : ResourceFS)
    (rangeOrder : List (List Char × List Char) → List (List Char × List Char))
    (fuel : Nat) (w : ioWriter) (svgContent title : List Char)
    (entries : List (List Char × CommitData)) (key : List Char) (d : CommitData)
    (hmem : (key, d) ∈ entries) :
    (∃ pre post, marshalCommitData (some entries)
      = pre
        ++ (json.quote key ++ ":\x7b\"hash\":".toList ++ json.quote d.Hash
          ++ ",\"author\":".toList ++ json.quote d.Author
          ++ ",\"committer\":".toList ++ json.quote d.Committer
          ++ ",\"message\":\x7b".toList
          ++ (if d.Message.Type_ = [] then []
              else "\"type\":".toList ++ json.quote d.Message.Type_ ++ ",".toList)
          ++ (if d.Message.Scope = [] then []
              else "\"scope\":".toList ++ json.quote d.Message.Scope ++ ",".toList)
          ++ "\"title\":".toList ++ json.quote d.Message.Title
          ++ ",\"body\":".toList ++ json.quote d.Message.Body
          ++ ",\"is_breaking\":".toList
          ++ (if d.Message.IsBreaking = true then "true".toList else "false".toList)
          ++ "\x7d,\"authored_date\":".toList ++ json.quote d.AuthoredDate
          ++ ",\"committed_date\":".toList ++ json.quote d.CommittedDate
          ++ ",\"authored_date_delta\":".toList ++ json.quote d.AuthoredDateDelta
          ++ ",\"committed_date_delta\":".toList ++ json.quote d.CommittedDateDelta
          ++ "\x7d".toList)
        ++ post)
    ∧ (∀ t t2, getResource resources "html_template.html".toList = .ok t →
        replaceReferences resources fuel t = some (t2, none) →
        WriteHTML resources jsonMarshal rangeOrder fuel w svgContent (some entries) title
          = some (w.Write (replacePlaceholders t2 (rangeOrder
              [("title".toList, html.EscapeString title),
               ("svg".toList, svgWithRailwayID svgContent),
               ("data".toList, marshalCommitData (some entries))]))))
    ∧ (∀ t t2, getResource resources "html_template.html".toList = .ok t →
        replaceReferences resources fuel t = some (t2, none) →
        WriteHTML resources jsonMarshal rangeOrder fuel w svgContent none title
          = some (w.Write (replacePlaceholders t2 (rangeOrder
              [("title".toList, html.EscapeString title),
               ("svg".toList, svgWithRailwayID svgContent),
               ("data".toList, "null".toList)])))) := by
  refine ⟨?_, ?_, ?_⟩
  · obtain ⟨pre, post, e⟩ := marshalCommitData_entry entries key d hmem
    refine ⟨pre, post, ?_⟩
    rw [e, CommitData_object_text, CommitMessage_object_text]
    simp only [List.append_assoc, String.toList, List.cons_append, List.nil_append,
      List.singleton_append]
  · intro t t2 h1 h2
    unfold WriteHTML
    simp only [h1, jsonMarshal, h2]
  · intro t t2 h1 h2
    unfold WriteHTML
    simp only [h1, jsonMarshal, h2, marshalCommitData]

/-- Instance of C14: `WriteHTML` on a map with the one record `sampleRecord`, whose type and
scope are empty, writes the record with a message object of three keys. -/
theorem marshalCommitData_record_text_witness :
    ("k1".toList, sampleRecord) ∈ [("k1".toList, sampleRecord)]
    ∧ WriteHTML dataResources jsonMarshal (fun l => l) 1 ⟨[], none⟩ "<svg/>".toList
        (some [("k1".toList, sampleRecord)]) "T".toList
      = some (⟨"<script>const data = \x7b\"k1\":\x7b\"hash\":\"aaaaaaa\",\"author\":\"Ann\",\"committer\":\"Ann\",\"message\":\x7b\"title\":\"fix bug\",\"body\":\"\",\"is_breaking\":false\x7d,\"authored_date\":\"2020-01-01T00:00:00Z\",\"committed_date\":\"2020-01-01T00:00:00Z\",\"authored_date_delta\":\"1 day ago\",\"committed_date_delta\":\"1 day ago\"\x7d\x7d;</script>".toList,
          none⟩, none) :=
  ⟨by decide,
    ((marshalCommitData_record_text dataResources (fun l => l) 1 ⟨[], none⟩ "<svg/>".toList
      "T".toList [("k1".toList, sampleRecord)] "k1".toList sampleRecord (by decide)).2.1
      "<script>const data = ((% data %));</script>".toList
      "<script>const data = ((% data %));</script>".toList rfl (by decide)).trans (by decide)⟩
/-! ## `parseCommitMessage` without a scope, and the shape of the type -/

/-- Closed form of `parseCommitMessage` when the text before the first `": "` has no `(`. -/
theorem parseCommitMessage_unscoped (summary : List Char) (i : Nat)
    (hidx : strings.Index summary ": ".toList = some i)
    (hparen : '(' ∉ summary.take i) :
    parseCommitMessage summary =
      if ' ' ∈ strings.TrimSpace (summary.take i) then ([], [], summary)
      else (strings.TrimSpace (summary.take i), [], strings.TrimSpace (summary.drop (i + 2))) := by
  have hp : '(' ∉ strings.TrimSpace (summary.take i) := by
    intro h
    unfold strings.TrimSpace at h
    exact hparen (strings.mem_of_mem_dropWhile
      ((List.rdropWhile_prefix _ _).subset h))
  have hi : strings.Index (strings.TrimSpace (summary.take i)) "(".toList = none :=
    strings.Index_eq_none_of_not_mem '(' [] _ hp
  have hc : strings.Contains (strings.TrimSpace (summary.take i)) " ".toList
      = decide (' ' ∈ strings.TrimSpace (summary.take i)) := strings.Contains_singleton _ _
  unfold parseCommitMessage
  simp only [hidx, hi, hc]
  by_cases h : ' ' ∈ strings.TrimSpace (summary.take i) <;> simp [h]

/-- C15 as stated fails: the text before `": "` in ` fix: x` holds a whitespace character
(the leading blank) and the one in `a<TAB>b: x` holds a tab, neither holds `(`, yet
neither summary is returned whole as the title. -/
theorem parseCommitMessage_whitespace_no_fallback :
    strings.Index " fix: x".toList ": ".toList = some 4
      ∧ '(' ∉ " fix: x".toList.take 4
      ∧ (" fix: x".toList.take 4).any unicode.IsSpace = true
      ∧ parseCommitMessage " fix: x".toList = ("fix".toList, [], "x".toList)
      ∧ parseCommitMessage " fix: x".toList ≠ ([], [], " fix: x".toList)
      ∧ strings.Index "a\tb: x".toList ": ".toList = some 3
      ∧ '(' ∉ "a\tb: x".toList.take 3
      ∧ ("a\tb: x".toList.take 3).any unicode.IsSpace = true
      ∧ parseCommitMessage "a\tb: x".toList = ("a\tb".toList, [], "x".toList) := by
  decide

/-- C15, amended: for a summary that contains `": "` and whose text before the first
`": "` contains no `(`: when that text, trimmed of surrounding white space, contains a
space, the summary is returned whole as the title; otherwise the trimmed text is the
type, the scope is empty and the title is the trimmed remainder.  In particular a text
without any white space is returned as the type unchanged. -/
theorem parseCommitMessage_no_paren (summary : List Char) (i : Nat)
    (hidx : strings.Index summary ": ".toList = some i)
    (hparen : '(' ∉ summary.take i) :
    (parseCommitMessage summary =
      if ' ' ∈ strings.TrimSpace (summary.take i) then ([], [], summary)
      else (strings.TrimSpace (summary.take i), [], strings.TrimSpace (summary.drop (i + 2))))
    ∧ ((summary.take i).any unicode.IsSpace = false →
      parseCommitMessage summary
        = (summary.take i, [], strings.TrimSpace (summary.drop (i + 2)))) := by
  have key := parseCommitMessage_unscoped summary i hidx hparen
  refine ⟨key, ?_⟩
  intro hws
  rw [List.any_eq_false] at hws
  have hns : ∀ c ∈ summary.take i, unicode.IsSpace c = false := by
    intro c hc
    simpa using hws c hc
  have htrim : strings.TrimSpace (summary.take i) = summary.take i :=
    strings.TrimSpace_eq_self (fun c hc => hns c (List.mem_of_mem_head? hc))
      (fun c hc => hns c (List.mem_of_mem_getLast? hc))
  have hsp : ' ' ∉ summary.take i := fun h => absurd (hns _ h) (by decide)
  rw [key, htrim, if_neg hsp]

/-- Instance of the amended C15 at `fix: something `. -/
theorem parseCommitMessage_no_paren_witness :
    parseCommitMessage "fix: something ".toList
      = ("fix: something ".toList.take 3, [],
          strings.TrimSpace ("fix: something ".toList.drop (3 + 2))) :=
  (parseCommitMessage_no_paren "fix: something ".toList 3 (by decide) (by decide)).2
    (by decide)

/-! ## The body of a commit message -/

namespace strings

theorem Contains_cons (c : Char) (t sub : List Char) :
    Contains (c :: t) sub = (sub.isPrefixOf (c :: t) || Contains t sub) := by
  unfold Contains
  rw [Index_cons]
  by_cases hp : sub.isPrefixOf (c :: t) = true
  · simp [hp]
  · simp only [hp, Bool.false_eq_true, if_false, Bool.false_or]
    cases Index t sub <;> rfl

/-- One step of `ReplaceAll` at the first character of a text. -/
theorem ReplaceAll_cons (c : Char) (t old new : List Char) (hold : old ≠ []) :
    ReplaceAll (c :: t) old new
      = if old.isPrefixOf (c :: t) then new ++ ReplaceAll ((c :: t).drop old.length) old new
        else c :: ReplaceAll t old new := by
  by_cases hp : old.isPrefixOf (c :: t) = true
  · rw [if_pos hp, ReplaceAll_of_some hold (Index_of_isPrefixOf hp)]
    simp
  · rw [if_neg hp]
    have hi : Index (c :: t) old = (Index t old).map (· + 1) := by
      rw [Index_cons, if_neg hp]
    cases ht : Index t old with
    | none =>
      rw [ht] at hi
      rw [ReplaceAll_of_none hold hi, ReplaceAll_of_none hold ht]
    | some j =>
      rw [ht] at hi
      rw [ReplaceAll_of_some hold hi, ReplaceAll_of_some hold ht]
      simp only [List.take_succ_cons, List.cons_append, List.append_assoc]
      have : j + 1 + old.length = (j + old.length) + 1 := by omega
      rw [this, List.drop_succ_cons]

theorem ReplaceAll_nil (old new : List Char) (hold : old ≠ []) : ReplaceAll [] old new = [] := by
  apply ReplaceAll_of_none hold
  cases old with
  | nil => exact absurd rfl hold
  | cons a b => simp [Index, List.isPrefixOf]

/-- Every character of `ReplaceAll s old new` comes from `s` or from `new`. -/
theorem mem_ReplaceAll (old new : List Char) (hold : old ≠ []) (x : Char) :
    ∀ (n : Nat) (s : List Char), s.length ≤ n → x ∈ ReplaceAll s old new → x ∈ s ∨ x ∈ new := by
  intro n
  induction n with
  | zero =>
    intro s hs hx
    have : s = [] := List.length_eq_zero.mp (by omega)
    subst this
    rw [ReplaceAll_nil old new hold] at hx
    exact Or.inl hx
  | succ n ih =>
    intro s hs hx
    cases s with
    | nil =>
      rw [ReplaceAll_nil old new hold] at hx
      exact Or.inl hx
    | cons c t =>
      rw [ReplaceAll_cons c t old new hold] at hx
      by_cases hp : old.isPrefixOf (c :: t) = true
      · rw [if_pos hp, List.mem_append] at hx
        rcases hx with hx | hx
        · exact Or.inr hx
        · have hpos : 0 < old.length := List.length_pos.mpr hold
          have hl : ((c :: t).drop old.length).length ≤ n := by
            rw [List.length_drop]
            simp only [List.length_cons] at hs ⊢
            omega
          rcases ih _ hl hx with h | h
          · exact Or.inl (List.mem_of_mem_drop h)
          · exact Or.inr h
      · rw [if_neg hp, List.mem_cons] at hx
        rcases hx with hx | hx
        · exact Or.inl (by rw [hx]; exact List.mem_cons_self _ _)
        · rcases ih t (by simp only [List.length_cons] at hs; omega) hx with h | h
          · exact Or.inl (List.mem_cons_of_mem _ h)
          · exact Or.inr h

/-- A text that lacks one of the characters of `sub` does not contain `sub`. -/
theorem Index_eq_none_of_missing_char {s sub : List Char} {x : Char} (hx : x ∈ sub)
    (hs : x ∉ s) : Index s sub = none := by
  cases hi : Index s sub with
  | none => rfl
  | some j =>
    have hp := List.isPrefixOf_iff_prefix.mp (Index_some_isPrefixOf hi)
    exact absurd (List.mem_of_mem_drop (hp.subset hx)) hs

theorem isPrefixOf_cons_cons (a c : Char) (p s : List Char) :
    (a :: p).isPrefixOf (c :: s) = true ↔ a = c ∧ p.isPrefixOf s = true := by
  simp [List.isPrefixOf]

theorem Contains_cons_true (c : Char) (t sub : List Char) :
    Contains (c :: t) sub = true ↔ sub.isPrefixOf (c :: t) = true ∨ Contains t sub = true := by
  rw [Contains_cons, Bool.or_eq_true]

theorem Contains_nil_cons (a : Char) (p : List Char) : Contains [] (a :: p) = false := by
  simp [Contains, Index, List.isPrefixOf]

/-- A text that occurs behind the first `k` characters occurs in the whole text. -/
theorem Contains_of_drop (sub : List Char) :
    ∀ (k : Nat) (s : List Char), Contains (s.drop k) sub = true → Contains s sub = true
  | 0, s, h => by simpa using h
  | k + 1, [], h => by simpa using h
  | k + 1, c :: s, h => by
    rw [Contains_cons_true]
    exact Or.inr (Contains_of_drop sub k s (by simpa using h))

/-- An occurrence of a text that begins with a space does not begin inside a leading
stretch without spaces. -/
theorem Contains_drop_of_no_space (p : List Char) :
    ∀ (o s : List Char), (∀ x ∈ o, x ≠ ' ') → o.isPrefixOf s = true →
      Contains s (' ' :: p) = true → Contains (s.drop o.length) (' ' :: p) = true
  | [], s, _, _, h => by simpa using h
  | a :: o, [], _, ho, _ => by simp [List.isPrefixOf] at ho
  | a :: o, c :: s, hns, ho, h => by
    obtain ⟨hac, hos⟩ := (isPrefixOf_cons_cons a c o s).mp ho
    rw [Contains_cons_true] at h
    rcases h with h | h
    · have := ((isPrefixOf_cons_cons ' ' c p s).mp h).1
      exact absurd (hac.trans this.symm) (hns a (by simp))
    · simpa using Contains_drop_of_no_space p o s (fun x hx => hns x (by simp [hx])) hos h

/-- One step of replacing a text that begins with a space by a single space. -/
theorem collapse_cons (o : List Char) (c : Char) (t : List Char) :
    ReplaceAll (c :: t) (' ' :: o) [' ']
      = if (' ' :: o).isPrefixOf (c :: t) then ' ' :: ReplaceAll (t.drop o.length) (' ' :: o) [' ']
        else c :: ReplaceAll t (' ' :: o) [' '] := by
  rw [ReplaceAll_cons c t _ _ (by simp)]
  simp

theorem collapse_cons_of_ne (o : List Char) (c : Char) (t : List Char) (hc : c ≠ ' ') :
    ReplaceAll (c :: t) (' ' :: o) [' '] = c :: ReplaceAll t (' ' :: o) [' '] := by
  rw [collapse_cons]
  have : (' ' :: o).isPrefixOf (c :: t) = false := by
    cases hb : (' ' :: o).isPrefixOf (c :: t) with
    | false => rfl
    | true => exact absurd ((isPrefixOf_cons_cons _ _ _ _).mp hb).1.symm hc
  rw [this]
  simp

theorem collapse_eq_cons (o : List Char) (c : Char) (hc : c ≠ ' ') (s v : List Char)
    (h : ReplaceAll s (' ' :: o) [' '] = c :: v) :
    ∃ s2, s = c :: s2 ∧ v = ReplaceAll s2 (' ' :: o) [' '] := by
  cases s with
  | nil =>
    rw [ReplaceAll_nil _ _ (by simp)] at h
    cases h
  | cons d rest =>
    rw [collapse_cons] at h
    by_cases hp : (' ' :: o).isPrefixOf (d :: rest) = true
    · rw [if_pos hp] at h
      simp only [List.cons.injEq] at h
      exact absurd h.1.symm hc
    · rw [if_neg hp] at h
      simp only [List.cons.injEq] at h
      exact ⟨rest, by rw [h.1], h.2.symm⟩

/-- A text without spaces stands at the start of the collapsed text exactly when it
stands at the start of the original. -/
theorem isPrefixOf_collapse (o : List Char) :
    ∀ (q s : List Char), (∀ x ∈ q, x ≠ ' ') →
      (q.isPrefixOf (ReplaceAll s (' ' :: o) [' ']) = true ↔ q.isPrefixOf s = true)
  | [], s, _ => by simp [List.isPrefixOf]
  | a :: q, s, hq => by
    have ha : a ≠ ' ' := hq a (by simp)
    have ih := fun s2 => isPrefixOf_collapse o q s2 (fun x hx => hq x (by simp [hx]))
    constructor
    · intro h
      cases hG : ReplaceAll s (' ' :: o) [' '] with
      | nil => rw [hG] at h; simp [List.isPrefixOf] at h
      | cons g v =>
        rw [hG] at h
        obtain ⟨hag, hqv⟩ := (isPrefixOf_cons_cons a g q v).mp h
        subst hag
        obtain ⟨s2, rfl, rfl⟩ := collapse_eq_cons o a ha s v hG
        exact (isPrefixOf_cons_cons a a q s2).mpr ⟨rfl, (ih s2).mp hqv⟩
    · intro h
      cases s with
      | nil => simp [List.isPrefixOf] at h
      | cons c s2 =>
        obtain ⟨hac, hqs⟩ := (isPrefixOf_cons_cons a c q s2).mp h
        subst hac
        rw [collapse_cons_of_ne o a s2 ha]
        exact (isPrefixOf_cons_cons a a q _).mpr ⟨rfl, (ih s2).mpr hqs⟩

theorem isPrefixOf_append_iff :
    ∀ (o q s : List Char),
      (o ++ q).isPrefixOf s = true ↔ o.isPrefixOf s = true ∧ q.isPrefixOf (s.drop o.length) = true
  | [], q, s => by simp [List.isPrefixOf]
  | a :: o, q, [] => by simp [List.isPrefixOf]
  | a :: o, q, c :: s => by
    rw [List.cons_append, isPrefixOf_cons_cons, isPrefixOf_cons_cons, isPrefixOf_append_iff o q s]
    simp [and_assoc]

/-- If the collapsed text holds a space followed by `q`, the original holds a space
followed by `q`, or the replaced text followed by `q`. -/
theorem Contains_of_collapse (o q : List Char) (ho : ∀ x ∈ o, x ≠ ' ')
    (hq : ∀ x ∈ q, x ≠ ' ') :
    ∀ (n : Nat) (s : List Char), s.length ≤ n →
      Contains (ReplaceAll s (' ' :: o) [' ']) (' ' :: q) = true →
      Contains s (' ' :: q) = true ∨ Contains s (' ' :: (o ++ q)) = true := by
  intro n
  induction n with
  | zero =>
    intro s hs h
    have : s = [] := List.length_eq_zero.mp (by omega)
    subst this
    rw [ReplaceAll_nil _ _ (by simp), Contains_nil_cons] at h
    cases h
  | succ n ih =>
    intro s hs h
    cases s with
    | nil =>
      rw [ReplaceAll_nil _ _ (by simp), Contains_nil_cons] at h
      cases h
    | cons c rest =>
      have hlen : rest.length ≤ n := by simp only [List.length_cons] at hs; omega
      rw [collapse_cons] at h
      by_cases hp : (' ' :: o).isPrefixOf (c :: rest) = true
      · rw [if_pos hp, Contains_cons_true] at h
        obtain ⟨hc, hor⟩ := (isPrefixOf_cons_cons _ _ _ _).mp hp
        rcases h with h | h
        · have hqd := (isPrefixOf_collapse o q _ hq).mp ((isPrefixOf_cons_cons _ _ _ _).mp h).2
          right
          rw [Contains_cons_true]
          left
          exact (isPrefixOf_cons_cons _ _ _ _).mpr
            ⟨hc, (isPrefixOf_append_iff o q rest).mpr ⟨hor, hqd⟩⟩
        · have hdl : (rest.drop o.length).length ≤ n := by
            rw [List.length_drop]; omega
          rcases ih _ hdl h with h2 | h2
          · left
            rw [Contains_cons_true]
            exact Or.inr (Contains_of_drop _ _ _ h2)
          · right
            rw [Contains_cons_true]
            exact Or.inr (Contains_of_drop _ _ _ h2)
      · rw [if_neg hp, Contains_cons_true] at h
        rcases h with h | h
        · obtain ⟨hc, hqg⟩ := (isPrefixOf_cons_cons _ _ _ _).mp h
          left
          rw [Contains_cons_true]
          left
          exact (isPrefixOf_cons_cons _ _ _ _).mpr ⟨hc, (isPrefixOf_collapse o q _ hq).mp hqg⟩
        · rcases ih rest hlen h with h2 | h2
          · left; rw [Contains_cons_true]; exact Or.inr h2
          · right; rw [Contains_cons_true]; exact Or.inr h2

/-- A space followed by `q` survives the collapse when the replaced text cannot stand
where it stands. -/
theorem Contains_collapse_of_Contains (o q : List Char) (ho : ∀ x ∈ o, x ≠ ' ')
    (hq : ∀ x ∈ q, x ≠ ' ')
    (hinc : ∀ x : List Char, q.isPrefixOf x = true → o.isPrefixOf x = true → False) :
    ∀ (n : Nat) (s : List Char), s.length ≤ n →
      Contains s (' ' :: q) = true →
      Contains (ReplaceAll s (' ' :: o) [' ']) (' ' :: q) = true := by
  intro n
  induction n with
  | zero =>
    intro s hs h
    have : s = [] := List.length_eq_zero.mp (by omega)
    subst this
    rw [Contains_nil_cons] at h
    cases h
  | succ n ih =>
    intro s hs h
    cases s with
    | nil => rw [Contains_nil_cons] at h; cases h
    | cons c rest =>
      have hlen : rest.length ≤ n := by simp only [List.length_cons] at hs; omega
      rw [Contains_cons_true] at h
      rw [collapse_cons]
      rcases h with h | h
      · obtain ⟨hc, hqr⟩ := (isPrefixOf_cons_cons _ _ _ _).mp h
        have hp : ¬ ((' ' :: o).isPrefixOf (c :: rest) = true) := fun hp =>
          hinc rest hqr ((isPrefixOf_cons_cons _ _ _ _).mp hp).2
        rw [if_neg hp, Contains_cons_true]
        left
        exact (isPrefixOf_cons_cons _ _ _ _).mpr ⟨hc, (isPrefixOf_collapse o q _ hq).mpr hqr⟩
      · by_cases hp : (' ' :: o).isPrefixOf (c :: rest) = true
        · rw [if_pos hp, Contains_cons_true]
          right
          have hor := ((isPrefixOf_cons_cons _ _ _ _).mp hp).2
          have hdl : (rest.drop o.length).length ≤ n := by
            rw [List.length_drop]; omega
          exact ih _ hdl (Contains_drop_of_no_space q o rest ho hor h)
        · rw [if_neg hp, Contains_cons_true]
          exact Or.inr (ih rest hlen h)

/-- Where the replaced text is followed by `q`, the collapsed text holds a space followed
by `q`. -/
theorem Contains_collapse_of_follow (o q : List Char) (ho : ∀ x ∈ o, x ≠ ' ')
    (hq : ∀ x ∈ q, x ≠ ' ') :
    ∀ (n : Nat) (s : List Char), s.length ≤ n →
      Contains s (' ' :: (o ++ q)) = true →
      Contains (ReplaceAll s (' ' :: o) [' ']) (' ' :: q) = true := by
  intro n
  induction n with
  | zero =>
    intro s hs h
    have : s = [] := List.length_eq_zero.mp (by omega)
    subst this
    rw [Contains_nil_cons] at h
    cases h
  | succ n ih =>
    intro s hs h
    cases s with
    | nil => rw [Contains_nil_cons] at h; cases h
    | cons c rest =>
      have hlen : rest.length ≤ n := by simp only [List.length_cons] at hs; omega
      rw [Contains_cons_true] at h
      rw [collapse_cons]
      rcases h with h | h
      · obtain ⟨hc, hoq⟩ := (isPrefixOf_cons_cons _ _ _ _).mp h
        obtain ⟨hor, hqd⟩ := (isPrefixOf_append_iff o q rest).mp hoq
        have hp : (' ' :: o).isPrefixOf (c :: rest) = true :=
          (isPrefixOf_cons_cons _ _ _ _).mpr ⟨hc, hor⟩
        rw [if_pos hp, Contains_cons_true]
        left
        exact (isPrefixOf_cons_cons _ _ _ _).mpr ⟨rfl, (isPrefixOf_collapse o q _ hq).mpr hqd⟩
      · by_cases hp : (' ' :: o).isPrefixOf (c :: rest) = true
        · rw [if_pos hp, Contains_cons_true]
          right
          have hor := ((isPrefixOf_cons_cons _ _ _ _).mp hp).2
          have hdl : (rest.drop o.length).length ≤ n := by
            rw [List.length_drop]; omega
          exact ih _ hdl (Contains_drop_of_no_space (o ++ q) o rest ho hor h)
        · rw [if_neg hp, Contains_cons_true]
          exact Or.inr (ih rest hlen h)

/-- If the collapsed text holds a space followed by `q`, and the replaced text stands
wherever `q` stands, the original holds the replaced text followed by `q`. -/
theorem Contains_of_collapse_self (o q : List Char) (hq : ∀ x ∈ q, x ≠ ' ')
    (hpre : ∀ x : List Char, q.isPrefixOf x = true → o.isPrefixOf x = true) :
    ∀ (n : Nat) (s : List Char), s.length ≤ n →
      Contains (ReplaceAll s (' ' :: o) [' ']) (' ' :: q) = true →
      Contains s (' ' :: (o ++ q)) = true := by
  intro n
  induction n with
  | zero =>
    intro s hs h
    have : s = [] := List.length_eq_zero.mp (by omega)
    subst this
    rw [ReplaceAll_nil _ _ (by simp), Contains_nil_cons] at h
    cases h
  | succ n ih =>
    intro s hs h
    cases s with
    | nil =>
      rw [ReplaceAll_nil _ _ (by simp), Contains_nil_cons] at h
      cases h
    | cons c rest =>
      have hlen : rest.length ≤ n := by simp only [List.length_cons] at hs; omega
      rw [collapse_cons] at h
      by_cases hp : (' ' :: o).isPrefixOf (c :: rest) = true
      · rw [if_pos hp, Contains_cons_true] at h
        obtain ⟨hc, hor⟩ := (isPrefixOf_cons_cons _ _ _ _).mp hp
        rcases h with h | h
        · have hqd := (isPrefixOf_collapse o q _ hq).mp ((isPrefixOf_cons_cons _ _ _ _).mp h).2
          rw [Contains_cons_true]
          left
          exact (isPrefixOf_cons_cons _ _ _ _).mpr
            ⟨hc, (isPrefixOf_append_iff o q rest).mpr ⟨hor, hqd⟩⟩
        · have hdl : (rest.drop o.length).length ≤ n := by
            rw [List.length_drop]; omega
          rw [Contains_cons_true]
          exact Or.inr (Contains_of_drop _ _ _ (ih _ hdl h))
      · rw [if_neg hp, Contains_cons_true] at h
        rcases h with h | h
        · obtain ⟨hc, hqg⟩ := (isPrefixOf_cons_cons _ _ _ _).mp h
          exact absurd ((isPrefixOf_cons_cons _ _ _ _).mpr
            ⟨hc, hpre _ ((isPrefixOf_collapse o q _ hq).mp hqg)⟩) hp
        · rw [Contains_cons_true]
          exact Or.inr (ih rest hlen h)

end strings

theorem isPrefixOf_pair (x y c : Char) (l : List Char) :
    [x, y].isPrefixOf (c :: l) = true ↔ x = c ∧ l.head? = some y := by
  cases l with
  | nil => simp [List.isPrefixOf]
  | cons d l =>
    simp only [List.isPrefixOf, Bool.and_true, Bool.and_eq_true, beq_iff_eq, List.head?_cons,
      Option.some.injEq]
    constructor
    · rintro ⟨h1, h2⟩; exact ⟨h1, h2.symm⟩
    · rintro ⟨h1, h2⟩; exact ⟨h1, h2.symm⟩

/-- Collapsing `" \n"` never puts a line break at the start of a text that had none. -/
theorem head_collapse (t : List Char)
    (h : (strings.ReplaceAll t " \n".toList " ".toList).head? = some '\n') :
    t.head? = some '\n' := by
  cases t with
  | nil =>
    rw [strings.ReplaceAll_nil _ _ (by decide)] at h
    exact h
  | cons c rest =>
    rw [strings.ReplaceAll_cons c rest _ _ (by decide)] at h
    by_cases hp : " \n".toList.isPrefixOf (c :: rest) = true
    · rw [if_pos hp] at h
      have e : (" ".toList ++ strings.ReplaceAll ((c :: rest).drop " \n".toList.length)
          " \n".toList " ".toList).head? = some ' ' := rfl
      rw [e] at h
      exact absurd h (by decide)
    · rw [if_neg hp] at h
      exact h

/-- One pass that replaces `" \n"` by a space leaves no `" \n"` when no `" \n"` of the
text is directly followed by another line break. -/
theorem collapse_no_space_newline :
    ∀ (n : Nat) (t : List Char), t.length ≤ n →
      strings.Contains t " \n\n".toList = false →
      strings.Contains (strings.ReplaceAll t " \n".toList " ".toList) " \n".toList = false := by
  intro n
  induction n with
  | zero =>
    intro t ht _
    have : t = [] := List.length_eq_zero.mp (by omega)
    subst this
    rw [strings.ReplaceAll_nil _ _ (by decide)]
    rfl
  | succ n ih =>
    intro t ht h3
    cases t with
    | nil =>
      rw [strings.ReplaceAll_nil _ _ (by decide)]
      rfl
    | cons c rest =>
      rw [strings.Contains_cons, Bool.or_eq_false_iff] at h3
      have hlen : rest.length ≤ n := by simp only [List.length_cons] at ht; omega
      rw [strings.ReplaceAll_cons c rest _ _ (by decide)]
      by_cases hp : " \n".toList.isPrefixOf (c :: rest) = true
      · rw [if_pos hp]
        obtain ⟨hc, hr⟩ := (isPrefixOf_pair ' ' '\n' c rest).mp hp
        cases rest with
        | nil => simp at hr
        | cons d u =>
          simp only [List.head?_cons, Option.some.injEq] at hr
          subst hr
          subst hc
          have hu3 : strings.Contains u " \n\n".toList = false := by
            have := h3.2
            rw [strings.Contains_cons, Bool.or_eq_false_iff] at this
            exact this.2
          have hu : u.head? ≠ some '\n' := by
            intro hh
            have h31 := h3.1
            cases u with
            | nil => simp at hh
            | cons e v =>
              simp only [List.head?_cons, Option.some.injEq] at hh
              subst hh
              simp [List.isPrefixOf] at h31
          have hdrop : (' ' :: '\n' :: u).drop " \n".toList.length = u := rfl
          rw [hdrop]
          show strings.Contains (' ' :: strings.ReplaceAll u " \n".toList " ".toList)
            " \n".toList = false
          rw [strings.Contains_cons, Bool.or_eq_false_iff]
          refine ⟨?_, ih u (by simp only [List.length_cons] at hlen; omega) hu3⟩
          cases hb : " \n".toList.isPrefixOf
              (' ' :: strings.ReplaceAll u " \n".toList " ".toList) with
          | false => rfl
          | true =>
            exact absurd (head_collapse u ((isPrefixOf_pair ' ' '\n' ' ' _).mp hb).2) hu
      · rw [if_neg hp]
        rw [strings.Contains_cons, Bool.or_eq_false_iff]
        refine ⟨?_, ih rest hlen h3.2⟩
        cases hb : " \n".toList.isPrefixOf
            (c :: strings.ReplaceAll rest " \n".toList " ".toList) with
        | false => rfl
        | true =>
          obtain ⟨hc, hh⟩ := (isPrefixOf_pair ' ' '\n' c _).mp hb
          exact absurd ((isPrefixOf_pair ' ' '\n' c rest).mpr ⟨hc, head_collapse rest hh⟩) hp

/-- C16 as stated fails: in the message `t\na \n\nb` the body line `a ` ends in a space and
is followed by an empty line; the extracted body is `a \nb`, which still holds a space
directly before a line break. -/
theorem commitBody_keeps_space_newline :
    commitBody "t\na \n\nb".toList = "a \nb".toList
      ∧ strings.Contains (commitBody "t\na \n\nb".toList) " \n".toList = true
      ∧ (commitMessageOf "t\na \n\nb".toList []).Body = "a \nb".toList := by
  decide

/-- The two passes of html.go 160-161 leave a space before a line feed exactly where the
text held a space and a line break (LF, CRLF, or LF then CRLF) in front of a line feed. -/
theorem collapse_twice_space_newline (t : List Char) :
    strings.Contains
        (strings.ReplaceAll (strings.ReplaceAll t " \n".toList " ".toList) " \r\n".toList
          " ".toList) " \n".toList = true
      ↔ (strings.Contains t " \n\n".toList = true
          ∨ strings.Contains t " \r\n\n".toList = true
          ∨ strings.Contains t " \n\r\n\n".toList = true) := by
  have hn : ∀ x ∈ ['\n'], x ≠ ' ' := by decide
  have hrn : ∀ x ∈ ['\r', '\n'], x ≠ ' ' := by decide
  have hrnn : ∀ x ∈ ['\r', '\n', '\n'], x ≠ ' ' := by decide
  have hinc1 : ∀ x : List Char, ['\n'].isPrefixOf x = true → ['\r', '\n'].isPrefixOf x = true →
      False := by
    intro x h1 h2
    cases x with
    | nil => simp [List.isPrefixOf] at h1
    | cons a x =>
      have e1 := ((strings.isPrefixOf_cons_cons _ _ _ _).mp h1).1
      have e2 := ((strings.isPrefixOf_cons_cons _ _ _ _).mp h2).1
      exact absurd (e1.trans e2.symm) (by decide)
  have hinc2 : ∀ x : List Char, ['\r', '\n', '\n'].isPrefixOf x = true →
      ['\n'].isPrefixOf x = true → False := by
    intro x h1 h2
    cases x with
    | nil => simp [List.isPrefixOf] at h1
    | cons a x =>
      have e1 := ((strings.isPrefixOf_cons_cons _ _ _ _).mp h1).1
      have e2 := ((strings.isPrefixOf_cons_cons _ _ _ _).mp h2).1
      exact absurd (e1.trans e2.symm) (by decide)
  show strings.Contains
        (strings.ReplaceAll (strings.ReplaceAll t (' ' :: ['\n']) [' ']) (' ' :: ['\r', '\n'])
          [' ']) (' ' :: ['\n']) = true
      ↔ (strings.Contains t (' ' :: (['\n'] ++ ['\n'])) = true
          ∨ strings.Contains t (' ' :: ['\r', '\n', '\n']) = true
          ∨ strings.Contains t (' ' :: (['\n'] ++ ['\r', '\n', '\n'])) = true)
  constructor
  · intro h
    rcases strings.Contains_of_collapse ['\r', '\n'] ['\n'] hrn hn _ _ (Nat.le_refl _) h
      with h1 | h1
    · exact Or.inl (strings.Contains_of_collapse_self ['\n'] ['\n'] hn (fun _ hx => hx) _ _
        (Nat.le_refl _) h1)
    · rcases strings.Contains_of_collapse ['\n'] ['\r', '\n', '\n'] hn hrnn _ _ (Nat.le_refl _)
        h1 with h2 | h2
      · exact Or.inr (Or.inl h2)
      · exact Or.inr (Or.inr h2)
  · rintro (h | h | h)
    · exact strings.Contains_collapse_of_Contains ['\r', '\n'] ['\n'] hrn hn hinc1 _ _
        (Nat.le_refl _)
        (strings.Contains_collapse_of_follow ['\n'] ['\n'] hn hn _ _ (Nat.le_refl _) h)
    · exact strings.Contains_collapse_of_follow ['\r', '\n'] ['\n'] hrn hn _ _ (Nat.le_refl _)
        (strings.Contains_collapse_of_Contains ['\n'] ['\r', '\n', '\n'] hn hrnn hinc2 _ _
          (Nat.le_refl _) h)
    · exact strings.Contains_collapse_of_follow ['\r', '\n'] ['\n'] hrn hn _ _ (Nat.le_refl _)
        (strings.Contains_collapse_of_follow ['\n'] ['\r', '\n', '\n'] hn hrnn _ _
          (Nat.le_refl _) h)

/-- The two passes of html.go 160-161 leave a space before a CRLF exactly where the text
held a space and a line break (CRLF, or LF then CRLF) in front of a CRLF. -/
theorem collapse_twice_space_crlf (t : List Char) :
    strings.Contains
        (strings.ReplaceAll (strings.ReplaceAll t " \n".toList " ".toList) " \r\n".toList
          " ".toList) " \r\n".toList = true
      ↔ (strings.Contains t " \r\n\r\n".toList = true
          ∨ strings.Contains t " \n\r\n\r\n".toList = true) := by
  have hn : ∀ x ∈ ['\n'], x ≠ ' ' := by decide
  have hrn : ∀ x ∈ ['\r', '\n'], x ≠ ' ' := by decide
  have hrnrn : ∀ x ∈ ['\r', '\n', '\r', '\n'], x ≠ ' ' := by decide
  have hinc2 : ∀ x : List Char, ['\r', '\n', '\r', '\n'].isPrefixOf x = true →
      ['\n'].isPrefixOf x = true → False := by
    intro x h1 h2
    cases x with
    | nil => simp [List.isPrefixOf] at h1
    | cons a x =>
      have e1 := ((strings.isPrefixOf_cons_cons _ _ _ _).mp h1).1
      have e2 := ((strings.isPrefixOf_cons_cons _ _ _ _).mp h2).1
      exact absurd (e1.trans e2.symm) (by decide)
  show strings.Contains
        (strings.ReplaceAll (strings.ReplaceAll t (' ' :: ['\n']) [' ']) (' ' :: ['\r', '\n'])
          [' ']) (' ' :: ['\r', '\n']) = true
      ↔ (strings.Contains t (' ' :: (['\r', '\n'] ++ ['\r', '\n'])) = true
          ∨ strings.Contains t (' ' :: (['\n'] ++ ['\r', '\n', '\r', '\n'])) = true)
  constructor
  · intro h
    have h1 := strings.Contains_of_collapse_self ['\r', '\n'] ['\r', '\n'] hrn (fun _ hx => hx)
      _ _ (Nat.le_refl _) h
    rcases strings.Contains_of_collapse ['\n'] ['\r', '\n', '\r', '\n'] hn hrnrn _ _
      (Nat.le_refl _) h1 with h2 | h2
    · exact Or.inl h2
    · exact Or.inr h2
  · rintro (h | h)
    · exact strings.Contains_collapse_of_follow ['\r', '\n'] ['\r', '\n'] hrn hrn _ _
        (Nat.le_refl _)
        (strings.Contains_collapse_of_Contains ['\n'] ['\r', '\n', '\r', '\n'] hn hrnrn hinc2
          _ _ (Nat.le_refl _) h)
    · exact strings.Contains_collapse_of_follow ['\r', '\n'] ['\r', '\n'] hrn hrn _ _
        (Nat.le_refl _)
        (strings.Contains_collapse_of_follow ['\n'] ['\r', '\n', '\r', '\n'] hn hrnrn _ _
          (Nat.le_refl _) h)

/-- A message of one line has no body text. -/
theorem joinedBody_of_one_line (fullMessage : List Char)
    (h : ¬ (strings.Split fullMessage "\n".toList).length > 1) : joinedBody fullMessage = [] := by
  unfold joinedBody
  simp only
  rw [List.drop_eq_nil_of_le (by omega)]
  rfl

/-- C16, amended: the body that `GenerateCommitData` extracts holds no space directly
before a line feed exactly when the body text before the two passes (the lines after the
first, leading blank lines dropped, joined and trimmed) holds no space + line break (LF,
CRLF, or LF then CRLF) that is directly followed by a line feed; and it holds no space
directly before a CRLF exactly when that text holds no space + line break (CRLF, or LF
then CRLF) that is directly followed by a CRLF. -/
theorem commitBody_space_newline_iff (fullMessage : List Char) :
    (strings.Contains (commitBody fullMessage) " \n".toList = false
      ↔ (strings.Contains (joinedBody fullMessage) " \n\n".toList = false
          ∧ strings.Contains (joinedBody fullMessage) " \r\n\n".toList = false
          ∧ strings.Contains (joinedBody fullMessage) " \n\r\n\n".toList = false))
    ∧ (strings.Contains (commitBody fullMessage) " \r\n".toList = false
      ↔ (strings.Contains (joinedBody fullMessage) " \r\n\r\n".toList = false
          ∧ strings.Contains (joinedBody fullMessage) " \n\r\n\r\n".toList = false)) := by
  by_cases hl : (strings.Split fullMessage "\n".toList).length > 1
  · have hb : commitBody fullMessage
        = strings.ReplaceAll (strings.ReplaceAll (joinedBody fullMessage) " \n".toList
            " ".toList) " \r\n".toList " ".toList := by
      unfold commitBody
      simp only [hl, if_true]
    rw [hb]
    have h1 := collapse_twice_space_newline (joinedBody fullMessage)
    have h2 := collapse_twice_space_crlf (joinedBody fullMessage)
    constructor
    · rw [← Bool.not_eq_true, h1]
      simp only [not_or, Bool.not_eq_true]
    · rw [← Bool.not_eq_true, h2]
      simp only [not_or, Bool.not_eq_true]
  · have hb : commitBody fullMessage = [] := by
      unfold commitBody
      simp only [hl, if_false]
    rw [hb, joinedBody_of_one_line fullMessage hl]
    decide

/-- Instance of the amended C16 on a message with CRLF line ends and a wrapped body line:
the second pass (html.go 161) joins the two body lines. -/
theorem commitBody_space_newline_iff_witness :
    commitBody "fix: x\r\n\r\nline one \r\nline two".toList = "line one line two".toList
      ∧ strings.Contains (commitBody "fix: x\r\n\r\nline one \r\nline two".toList)
          " \n".toList = false
      ∧ strings.Contains (commitBody "fix: x\r\n\r\nline one \r\nline two".toList)
          " \r\n".toList = false :=
  ⟨by decide,
    (commitBody_space_newline_iff "fix: x\r\n\r\nline one \r\nline two".toList).1.mpr
      ⟨by decide, by decide, by decide⟩,
    (commitBody_space_newline_iff "fix: x\r\n\r\nline one \r\nline two".toList).2.mpr
      ⟨by decide, by decide⟩⟩
/-! ## First-occurrence replacement and splicing -/

/-- When the text in front of the cursor has no `{{` and does not end in `{`, replacing
the first occurrence of the text of the discovered span is splicing at its offsets. -/
theorem replaceFirst_eq_splice (result expanded : List Char) (begin i j : Nat)
    (hinv : noDouble '\x7b' (result.take begin) = true)
    (hi : strings.Index (result.drop begin) "\x7b\x7b".toList = some i)
    (hj : strings.Index (result.drop (i + begin + 2)) "\x7d\x7d".toList = some j) :
    strings.ReplaceFirst result (sliceStr result (i + begin) (j + (i + begin + 2) + 2)) expanded
      = result.take (i + begin) ++ expanded ++ result.drop (j + (i + begin + 2) + 2) := by
  have hle1 := strings.Index_some_le hi
  have hle2 := strings.Index_some_le hj
  have hlen1 : (result.drop begin).length = result.length - begin := List.length_drop _ _
  have hlen2 : (result.drop (i + begin + 2)).length = result.length - (i + begin + 2) :=
    List.length_drop _ _
  have h2 : "\x7b\x7b".toList.length = 2 := rfl
  have h2b : "\x7d\x7d".toList.length = 2 := rfl
  rw [h2] at hle1
  rw [h2b] at hle2
  have htl : (result.take begin).length = begin := by
    rw [List.length_take]; omega
  have hfirst : strings.Index result "\x7b\x7b".toList = some (i + begin) := by
    rw [Index_open_of_cursor result begin hinv, hi, htl]
    rfl
  have hspan : sliceStr result (i + begin) (j + (i + begin + 2) + 2)
      = (result.drop (i + begin)).take (j + 4) := by
    unfold sliceStr
    rw [List.drop_take]
    congr 1
    omega
  have hopen : "\x7b\x7b".toList <+: result.drop (i + begin) := by
    have := strings.Index_some_isPrefixOf hi
    rw [List.drop_drop] at this
    have e : begin + i = i + begin := by omega
    rw [e] at this
    exact List.isPrefixOf_iff_prefix.mp this
  have hpre : "\x7b\x7b".toList <+: sliceStr result (i + begin) (j + (i + begin + 2) + 2) := by
    rw [hspan]
    exact List.prefix_take_iff.mpr ⟨hopen, by rw [h2]; omega⟩
  have hocc : (sliceStr result (i + begin) (j + (i + begin + 2) + 2)).isPrefixOf
      (result.drop (i + begin)) = true := by
    rw [hspan]
    exact List.isPrefixOf_iff_prefix.mpr (List.take_prefix _ _)
  have hidx : strings.Index result (sliceStr result (i + begin) (j + (i + begin + 2) + 2))
      = some (i + begin) := strings.Index_of_first hfirst hpre hocc
  have hslen : (sliceStr result (i + begin) (j + (i + begin + 2) + 2)).length = j + 4 := by
    rw [hspan, List.length_take, List.length_drop]
    omega
  unfold strings.ReplaceFirst
  rw [hidx]
  simp only
  rw [hslen]
  have : i + begin + (j + 4) = j + (i + begin + 2) + 2 := by omega
  rw [this]

/-- When every resource expands to a content with no `{{` that does not end in `{`, the
two loops agree from every state whose text in front of the cursor is of that kind. -/
theorem replaceReferencesSpliceLoop_eq (resources : ResourceFS)
    (hstore : ∀ (name content e : List Char) (fuel : Nat),
      getResource resources name = .ok content →
      replaceReferences resources fuel content = some (e, none) → noDouble '\x7b' e = true) :
    ∀ (fuel : Nat) (result : List Char) (begin : Nat),
      noDouble '\x7b' (result.take begin) = true →
      replaceReferencesSpliceLoop resources fuel result begin
        = replaceReferencesLoop resources fuel result begin := by
  intro fuel
  induction fuel with
  | zero => intro result begin _; rfl
  | succ f ih =>
    intro result begin hinv
    rw [replaceReferencesSpliceLoop, replaceReferencesLoop]
    cases hi : strings.Index (result.drop begin) "\x7b\x7b".toList with
    | none => rfl
    | some i =>
      simp only
      cases hj : strings.Index (result.drop (i + begin + 2)) "\x7d\x7d".toList with
      | none => rfl
      | some j =>
        simp only
        cases hg : getResource resources
            (strings.TrimSpace (sliceStr result (i + begin + 2) (j + (i + begin + 2)))) with
        | error err => rfl
        | ok content =>
          simp only
          rw [ih content 0 rfl]
          cases hrec : replaceReferencesLoop resources f content 0 with
          | none => rfl
          | some x =>
            obtain ⟨expanded, oe⟩ := x
            cases oe with
            | some e2 => rfl
            | none =>
              simp only
              have hexp : noDouble '\x7b' expanded = true :=
                hstore _ content expanded f hg hrec
              rw [replaceFirst_eq_splice result expanded begin i j hinv hi hj]
              apply ih
              have := replaceFirst_span result expanded begin i j hinv hexp hi hj
              rw [replaceFirst_eq_splice result expanded begin i j hinv hi hj] at this
              exact this

/-- C17 as stated fails.  With the resources `a = {{` and `b = X`, the text
`{{a}} b}}{{ b}}` first becomes `{{ b}}{{ b}}` with the cursor behind the inserted `{{`;
the span discovered next is the second `{{ b}}`, but the first occurrence of its text is
replaced: `replaceReferences` returns `X{{ b}}`, the splicing variant `{{ b}}X`. -/
theorem replaceReferences_first_occurrence_differs :
    replaceReferences spliceResources 3 "\x7b\x7ba\x7d\x7d b\x7d\x7d\x7b\x7b b\x7d\x7d".toList
        = some ("X\x7b\x7b b\x7d\x7d".toList, none)
      ∧ replaceReferencesSplice spliceResources 3
          "\x7b\x7ba\x7d\x7d b\x7d\x7d\x7b\x7b b\x7d\x7d".toList
        = some ("\x7b\x7b b\x7d\x7dX".toList, none)
      ∧ replaceReferences spliceResources 3
          "\x7b\x7ba\x7d\x7d b\x7d\x7d\x7b\x7b b\x7d\x7d".toList
        ≠ replaceReferencesSplice spliceResources 3
          "\x7b\x7ba\x7d\x7d b\x7d\x7d\x7b\x7b b\x7d\x7d".toList := by
  decide

/-- C17, amended: in a store whose resources all expand to contents that hold no `{{` and
do not end in `{`, the first occurrence of the text of a discovered span is the span
itself, and `replaceReferences` returns, for every text and every amount of fuel, what
the variant that splices at the offsets of the span returns; this includes texts in which
the same reference occurs more than once. -/
theorem replaceReferences_eq_splice (resources : ResourceFS)
    (hstore : ∀ (name content e : List Char) (fuel : Nat),
      getResource resources name = .ok content →
      replaceReferences resources fuel content = some (e, none) → noDouble '\x7b' e = true)
    (fuel : Nat) (text : List Char) :
    replaceReferences resources fuel text = replaceReferencesSplice resources fuel text :=
  (replaceReferencesSpliceLoop_eq resources hstore fuel text 0 rfl).symm

/-- Instance of the amended C17: in `styleResources` the text `{{head}}|{{head}}` holds the
same reference twice. -/
theorem replaceReferences_eq_splice_witness :
    replaceReferences styleResources 3 "\x7b\x7bhead\x7d\x7d|\x7b\x7bhead\x7d\x7d".toList
      = replaceReferencesSplice styleResources 3
          "\x7b\x7bhead\x7d\x7d|\x7b\x7bhead\x7d\x7d".toList :=
  replaceReferences_eq_splice styleResources
    (by
      intro name content e fuel1 hg hr
      unfold getResource styleResources at hg
      by_cases hp : "resources/".toList ++ name = "resources/head".toList
      · rw [if_pos hp] at hg
        cases hg
        cases fuel1 with
        | zero => simp [replaceReferences, replaceReferencesLoop] at hr
        | succ f =>
          rw [replaceReferences_of_no_reference styleResources f _ (by decide)] at hr
          simp only [Option.some.injEq, Prod.mk.injEq, and_true] at hr
          rw [← hr]
          decide
      · rw [if_neg hp] at hg
        cases hg)
    3 "\x7b\x7bhead\x7d\x7d|\x7b\x7bhead\x7d\x7d".toList
/-! ## Nested inclusion and self-reference -/

namespace strings

theorem dropWhile_append_of_all (p : Char → Bool) (a b : List Char)
    (ha : ∀ x ∈ a, p x = true) : (a ++ b).dropWhile p = b.dropWhile p := by
  induction a with
  | nil => rfl
  | cons x a ih =>
    have hx : p x = true := ha x (by simp)
    simp only [List.cons_append, List.dropWhile_cons, hx, if_true]
    exact ih (fun y hy => ha y (by simp [hy]))

theorem rdropWhile_append_of_all (p : Char → Bool) (a b : List Char)
    (hb : ∀ x ∈ b, p x = true) : (a ++ b).rdropWhile p = a.rdropWhile p := by
  unfold List.rdropWhile
  rw [List.reverse_append, dropWhile_append_of_all p _ _ (fun x hx => hb x (by simpa using hx))]

theorem dropWhile_append_of_ne_nil (p : Char → Bool) (a b : List Char)
    (h : a.dropWhile p ≠ []) : (a ++ b).dropWhile p = a.dropWhile p ++ b := by
  induction a with
  | nil => exact absurd rfl h
  | cons x a ih =>
    by_cases hx : p x = true
    · simp only [List.cons_append, List.dropWhile_cons, hx, if_true] at h ⊢
      exact ih h
    · simp [List.dropWhile_cons, hx]

/-- White space around a text does not change what `TrimSpace` returns. -/
theorem TrimSpace_surrounded (ws1 s ws2 : List Char)
    (h1 : ∀ x ∈ ws1, unicode.IsSpace x = true) (h2 : ∀ x ∈ ws2, unicode.IsSpace x = true) :
    TrimSpace (ws1 ++ s ++ ws2) = TrimSpace s := by
  unfold TrimSpace
  rw [List.append_assoc, dropWhile_append_of_all _ _ _ h1]
  by_cases hs : s.dropWhile unicode.IsSpace = []
  · have hall : ∀ x ∈ s, unicode.IsSpace x = true := by
      intro x hx
      have := List.dropWhile_eq_nil_iff.mp hs x hx
      exact this
    rw [dropWhile_append_of_all _ _ _ hall, hs]
    have : ws2.dropWhile unicode.IsSpace = [] := List.dropWhile_eq_nil_iff.mpr h2
    rw [this]
  · rw [dropWhile_append_of_ne_nil _ _ _ hs, rdropWhile_append_of_all _ _ _ h2]

end strings

/-- C18: for a name without braces and without leading or trailing white space that is
present in the store, `replaceReferences` on the bare reference `{{ws1 name ws2}}`, with
any white space around the name, returns exactly what `replaceReferences` returns on the
stored content, with one more unit of fuel for the lookup: the same text, the same
error, or no result for as long as the content has none. -/
theorem replaceReferences_bare_reference (resources : ResourceFS)
    (name ws1 ws2 content : List Char)
    (hopen : '\x7b' ∉ name) (hclose : '\x7d' ∉ name)
    (htrim : strings.TrimSpace name = name)
    (hws1 : ∀ x ∈ ws1, unicode.IsSpace x = true) (hws2 : ∀ x ∈ ws2, unicode.IsSpace x = true)
    (hstored : getResource resources name = .ok content) (fuel : Nat) :
    replaceReferences resources (fuel + 1)
        ("\x7b\x7b".toList ++ ws1 ++ name ++ ws2 ++ "\x7d\x7d".toList)
      = replaceReferences resources fuel content := by
  have hmid : '\x7d' ∉ ws1 ++ name ++ ws2 := by
    intro h
    simp only [List.mem_append] at h
    rcases h with (h | h) | h
    · exact absurd (hws1 _ h) (by decide)
    · exact hclose h
    · exact absurd (hws2 _ h) (by decide)
  have htext : "\x7b\x7b".toList ++ ws1 ++ name ++ ws2 ++ "\x7d\x7d".toList
      = '\x7b' :: '\x7b' :: ((ws1 ++ name ++ ws2) ++ ['\x7d', '\x7d']) := by simp
  rw [htext]
  have hi : strings.Index ('\x7b' :: '\x7b' :: ((ws1 ++ name ++ ws2) ++ ['\x7d', '\x7d']))
      "\x7b\x7b".toList = some 0 :=
    strings.Index_of_isPrefixOf (by simp [List.isPrefixOf])
  have hj : strings.Index ((ws1 ++ name ++ ws2) ++ ['\x7d', '\x7d']) "\x7d\x7d".toList
      = some (ws1 ++ name ++ ws2).length := by
    show strings.Index _ ('\x7d' :: ['\x7d']) = _
    rw [strings.Index_append_of_not_mem _ _ _ _ hmid,
      strings.Index_of_isPrefixOf (by simp [List.isPrefixOf])]
    simp
  have href : firstReference ('\x7b' :: '\x7b' :: ((ws1 ++ name ++ ws2) ++ ['\x7d', '\x7d']))
      = some name := by
    unfold firstReference
    rw [hi]
    simp only [Nat.zero_add, List.drop_succ_cons, List.drop_zero]
    rw [hj]
    simp only [Option.some.injEq]
    have : sliceStr ('\x7b' :: '\x7b' :: ((ws1 ++ name ++ ws2) ++ ['\x7d', '\x7d'])) 2
        ((ws1 ++ name ++ ws2).length + 2) = ws1 ++ name ++ ws2 := by
      unfold sliceStr
      simp only [List.take_succ_cons, List.drop_succ_cons, List.drop_zero]
      exact List.take_left' rfl
    rw [this, strings.TrimSpace_surrounded ws1 name ws2 hws1 hws2, htrim]
  unfold replaceReferences
  rw [replaceReferencesLoop_first resources fuel _ name href, hstored]
  simp only
  cases hrec : replaceReferencesLoop resources fuel content 0 with
  | none => rfl
  | some x =>
    obtain ⟨expanded, oe⟩ := x
    cases oe with
    | some e =>
      simp only
      rw [(replaceReferencesLoop_error resources fuel content 0 expanded e hrec).1]
    | none =>
      simp only [hi]
      simp only [Nat.zero_add, List.drop_succ_cons, List.drop_zero, hj]
      have hspan : sliceStr ('\x7b' :: '\x7b' :: ((ws1 ++ name ++ ws2) ++ ['\x7d', '\x7d'])) 0
          ((ws1 ++ name ++ ws2).length + 2 + 2)
          = '\x7b' :: '\x7b' :: ((ws1 ++ name ++ ws2) ++ ['\x7d', '\x7d']) := by
        unfold sliceStr
        rw [List.drop_zero]
        apply List.take_of_length_le
        simp
        omega
      rw [hspan]
      have hrep : strings.ReplaceFirst
          ('\x7b' :: '\x7b' :: ((ws1 ++ name ++ ws2) ++ ['\x7d', '\x7d']))
          ('\x7b' :: '\x7b' :: ((ws1 ++ name ++ ws2) ++ ['\x7d', '\x7d'])) expanded
          = expanded := by
        unfold strings.ReplaceFirst
        rw [strings.Index_of_isPrefixOf (List.isPrefixOf_iff_prefix.mpr (List.prefix_refl _))]
        simp
      rw [hrep]
      obtain ⟨f, rfl⟩ : ∃ f, fuel = f + 1 := by
        cases fuel with
        | zero => simp [replaceReferencesLoop] at hrec
        | succ f => exact ⟨f, rfl⟩
      rw [replaceReferencesLoop]
      simp only [List.drop_length]
      rfl

/-- Instance of C18: `{{ header }}` in a store whose `header` includes `logo`. -/
theorem replaceReferences_bare_reference_witness :
    replaceReferences pageResources (2 + 1)
        ("\x7b\x7b".toList ++ " ".toList ++ "header".toList ++ " ".toList ++ "\x7d\x7d".toList)
      = replaceReferences pageResources 2 "<h1>\x7b\x7blogo\x7d\x7d</h1>".toList :=
  replaceReferences_bare_reference pageResources "header".toList " ".toList " ".toList
    "<h1>\x7b\x7blogo\x7d\x7d</h1>".toList (by decide) (by decide) (by decide) (by decide)
    (by decide) rfl 2

/-- C19: in a store where the resource `a` has the content `{{a}}`, `replaceReferences` on
`{{a}}` returns nothing, neither a text nor an error, whatever the depth allowed. -/
theorem replaceReferences_self_reference_diverges :
    ∀ fuel, replaceReferences selfResources fuel "\x7b\x7ba\x7d\x7d".toList = none := by
  intro fuel
  induction fuel with
  | zero => rfl
  | succ f ih =>
    unfold replaceReferences at ih ⊢
    rw [replaceReferencesLoop_first selfResources f _ "a".toList (by decide)]
    have hg : getResource selfResources "a".toList = .ok "\x7b\x7ba\x7d\x7d".toList := rfl
    rw [hg]
    simp only
    rw [ih]
/-! ## The type that `parseCommitMessage` returns -/

namespace strings

/-- A trimmed text neither starts nor ends with white space. -/
theorem TrimSpace_edges (s : List Char) :
    (∀ c ∈ (TrimSpace s).head?, unicode.IsSpace c = false)
      ∧ (∀ c ∈ (TrimSpace s).getLast?, unicode.IsSpace c = false) := by
  unfold TrimSpace
  constructor
  · intro c hc
    have hpre : (s.dropWhile unicode.IsSpace).rdropWhile unicode.IsSpace
        <+: s.dropWhile unicode.IsSpace := List.rdropWhile_prefix _ _
    cases hr : (s.dropWhile unicode.IsSpace).rdropWhile unicode.IsSpace with
    | nil => rw [hr] at hc; simp at hc
    | cons x xs =>
      rw [hr] at hc hpre
      simp only [List.head?_cons, Option.mem_def, Option.some.injEq] at hc
      subst hc
      obtain ⟨t, ht⟩ := hpre
      have hd : s.dropWhile unicode.IsSpace = x :: (xs ++ t) := by rw [← ht]; rfl
      have hne : s.dropWhile unicode.IsSpace ≠ [] := by rw [hd]; simp
      have := List.head_dropWhile_not unicode.IsSpace s hne
      simp only [hd, List.head_cons] at this
      simpa using this
  · intro c hc
    cases hr : (s.dropWhile unicode.IsSpace).rdropWhile unicode.IsSpace with
    | nil => rw [hr] at hc; simp at hc
    | cons x xs =>
      have hne : (s.dropWhile unicode.IsSpace).rdropWhile unicode.IsSpace ≠ [] := by
        rw [hr]; simp
      have hl := List.rdropWhile_last_not unicode.IsSpace (s.dropWhile unicode.IsSpace) hne
      rw [List.getLast?_eq_getLast _ hne] at hc
      simp only [Option.mem_def, Option.some.injEq] at hc
      rw [← hc]
      simpa using hl

end strings

/-- The type that `parseCommitMessage` returns is empty, or a trimmed text without a space. -/
theorem parseCommitMessage_type_shape (message : List Char) :
    (parseCommitMessage message).1 = []
      ∨ ∃ s, (parseCommitMessage message).1 = strings.TrimSpace s
          ∧ strings.Contains (strings.TrimSpace s) " ".toList = false := by
  unfold parseCommitMessage
  cases hi : strings.Index message ": ".toList with
  | none => exact Or.inl rfl
  | some colonIdx =>
    simp only
    have tail : (if strings.Contains (strings.TrimSpace (message.take colonIdx)) " ".toList
          = true then (([] : List Char), ([] : List Char), message)
        else (strings.TrimSpace (message.take colonIdx), [],
          strings.TrimSpace (message.drop (colonIdx + 2)))).1 = []
        ∨ ∃ s, (if strings.Contains (strings.TrimSpace (message.take colonIdx)) " ".toList
          = true then (([] : List Char), ([] : List Char), message)
        else (strings.TrimSpace (message.take colonIdx), [],
          strings.TrimSpace (message.drop (colonIdx + 2)))).1 = strings.TrimSpace s
          ∧ strings.Contains (strings.TrimSpace s) " ".toList = false := by
      by_cases hc : strings.Contains (strings.TrimSpace (message.take colonIdx)) " ".toList
          = true
      · rw [if_pos hc]; exact Or.inl rfl
      · rw [if_neg hc]
        exact Or.inr ⟨message.take colonIdx, rfl, by simpa using hc⟩
    cases hp : strings.Index (strings.TrimSpace (message.take colonIdx)) "(".toList with
    | none => exact tail
    | some parenIdx =>
      simp only
      cases hq : strings.Index
          ((strings.TrimSpace (message.take colonIdx)).drop (parenIdx + 1)) ")".toList with
      | none => exact tail
      | some closeParenIdx =>
        simp only
        by_cases hc : strings.Contains
            (strings.TrimSpace ((strings.TrimSpace (message.take colonIdx)).take parenIdx))
            " ".toList = true
        · rw [if_pos hc]; exact Or.inl rfl
        · rw [if_neg hc]
          exact Or.inr ⟨_, rfl, by simpa using hc⟩

/-- C20: for every input, the type that `parseCommitMessage` returns contains no space
character and neither starts nor ends with white space. -/
theorem parseCommitMessage_type_clean (message : List Char) :
    ' ' ∉ (parseCommitMessage message).1
      ∧ (∀ c ∈ (parseCommitMessage message).1.head?, unicode.IsSpace c = false)
      ∧ (∀ c ∈ (parseCommitMessage message).1.getLast?, unicode.IsSpace c = false)
      ∧ strings.TrimSpace (parseCommitMessage message).1 = (parseCommitMessage message).1 := by
  rcases parseCommitMessage_type_shape message with h | ⟨s, hs, hc⟩
  · rw [h]
    exact ⟨by simp, by simp, by simp, rfl⟩
  · rw [hs]
    have hsp : ' ' ∉ strings.TrimSpace s := by
      intro hm
      have := strings.Contains_singleton (strings.TrimSpace s) ' '
      rw [show " ".toList = [' '] from rfl] at hc
      rw [this] at hc
      simp [hm] at hc
    have he := strings.TrimSpace_edges s
    exact ⟨hsp, he.1, he.2, strings.TrimSpace_eq_self he.1 he.2⟩
